import Mathlib

/-!
# lfsd: a verification development for `src/lfsd.cpp`

A shallow embedding of the package manager's dependency resolver, registry
reader and writer, recipe reader, plan store, removal path and staged builder,
followed by the properties proved about them.

Conventions of the embedding.

* A `std::string` is a list of characters (`Str`).
* A `std::unordered_map<string, V>` is a `UMap V`: the list of keys present and
  a total function giving the value at a key, which outside the keys is the
  value-initialised default that `operator[]` would insert.  The order in which
  a range-for visits a map is not fixed by C++; where the code iterates over a
  map the visiting order is an explicit argument.
* `int` counters are unbounded integers; the in-degree counters of `topo_sort`
  stay between zero and the number of `depends` entries.
* Loops whose termination is not structural take a fuel argument and give
  `none` when it runs out.
-/

namespace Lfsd

/-! ## Definitions -/

/-- Strings of the program are lists of characters. -/
abbrev Str := List Char

/-- An unordered map from strings: the keys present and the value at each key
(the default value outside the keys). -/
structure UMap (V : Type) where
  keys : List Str
  val : Str → V

namespace UMap

/-- The map a declaration without initialiser creates. -/
def empty {V : Type} (dflt : V) : UMap V := ⟨[], fun _ => dflt⟩

/-- The test `m.count(k)`. -/
def count {V : Type} (m : UMap V) (k : Str) : Bool := decide (k ∈ m.keys)

/-- The effect of `m[k]` on the key set: a missing key is inserted with the default. -/
def touch {V : Type} (m : UMap V) (k : Str) : UMap V :=
  if k ∈ m.keys then m else ⟨m.keys ++ [k], m.val⟩

/-- The assignment `m[k] = v`. -/
def set {V : Type} (m : UMap V) (k : Str) (v : V) : UMap V :=
  ⟨(m.touch k).keys, Function.update m.val k v⟩

end UMap

/-! ### Dependency resolver (`topo_sort`) -/

/-- The state of the first loop of `topo_sort`: `indeg` and `adj`. -/
abbrev Graph := UMap Int × UMap (List Str)

/-- Body of `for(auto &d: kv.second)`:
`adj[d].push_back(pkg); indeg[pkg]++; if(!indeg.count(d)) indeg[d]=0;`. -/
def addDep (pkg : Str) (g : Graph) (d : Str) : Graph :=
  let adj := g.2.set d (g.2.val d ++ [pkg])
  let indeg := g.1.set pkg (g.1.val pkg + 1)
  let indeg := if indeg.count d then indeg else indeg.set d 0
  (indeg, adj)

/-- Body of `for(auto &kv: deps)`:
`if(!indeg.count(pkg)) indeg[pkg]=0;` followed by the loop over `kv.second`. -/
def addPkg (g : Graph) (kv : Str × List Str) : Graph :=
  let indeg := if g.1.count kv.1 then g.1 else g.1.set kv.1 0
  kv.2.foldl (addDep kv.1) (indeg, g.2)

/-- The first loop of `topo_sort`, over the entries of `deps` in visiting order. -/
def buildGraph (deps : List (Str × List Str)) : Graph :=
  deps.foldl addPkg (UMap.empty 0, UMap.empty [])

/-- Body of `for(auto &v: adj[u])`: `if(--indeg[v]==0) q.push(v);`. -/
def relax (st : List Str × UMap Int) (v : Str) : List Str × UMap Int :=
  let indeg := st.2.set v (st.2.val v - 1)
  if indeg.val v = 0 then (st.1 ++ [v], indeg) else (st.1, indeg)

/-- The loop `while(!q.empty())` of `topo_sort`; the result is `indeg` and `order`
when the queue is empty, `none` when the fuel runs out first. -/
def drain : Nat → UMap (List Str) → List Str → UMap Int → List Str →
    Option (UMap Int × List Str)
  | 0, _, _, _, _ => none
  | _ + 1, _, [], indeg, order => some (indeg, order)
  | fuel + 1, adj, u :: q, indeg, order =>
    let st := (adj.val u).foldl relax (q, indeg)
    drain fuel (adj.touch u) st.1 st.2 (order ++ [u])

/-- What a call of `topo_sort` does: it returns `order`, or throws a
`runtime_error` with the given text. -/
inductive TopoResult where
  | ok (order : List Str)
  | error (what : Str)
  deriving DecidableEq

/-- The text of the `runtime_error` thrown by `topo_sort`. -/
def cycleError : Str := "ciclo detectado nas dependências".toList

/-- The function `topo_sort`.  `deps` lists the entries of the map in the order the
first loop visits them, `iter` is the order in which `for(auto &kv: indeg)` visits
the keys of `indeg`.  `TopoResult.error` is the thrown `runtime_error`. -/
def topo_sort (deps : List (Str × List Str)) (iter : List Str) :
    Option TopoResult :=
  let g := buildGraph deps
  let q := iter.filter (fun k => decide (g.1.val k = 0))
  match drain (g.1.keys.length + 1) g.2 q g.1 [] with
  | none => none
  | some (indeg, order) =>
    if order.length ≠ indeg.keys.length then some (TopoResult.error cycleError)
    else some (TopoResult.ok order)

/-- The pairs (dependency, dependent) of a dependency map: `d` is named in the
`depends` list stored under `p`. -/
def DepEdge (deps : List (Str × List Str)) (d p : Str) : Prop :=
  ∃ ds, (p, ds) ∈ deps ∧ d ∈ ds

/-- The nodes of a dependency map: its keys and every name in a `depends` list. -/
def IsNode (deps : List (Str × List Str)) (n : Str) : Prop :=
  (∃ ds, (n, ds) ∈ deps) ∨ (∃ p ds, (p, ds) ∈ deps ∧ n ∈ ds)

/-- A dependency map has no cycle: no node reaches itself along one or more edges. -/
def Acyclic (deps : List (Str × List Str)) : Prop :=
  ∀ n, ¬ Relation.TransGen (DepEdge deps) n n

/-- The edge list of a dependency map, one pair (dependency, dependent) for each
entry of each `depends` list, in visiting order. -/
def edges (deps : List (Str × List Str)) : List (Str × Str) :=
  deps.flatMap (fun kv => kv.2.map (fun d => (d, kv.1)))

/-- The number of edges into `v` whose source is not in `order`. -/
def remaining (deps : List (Str × List Str)) (order : List Str) (v : Str) : Nat :=
  (edges deps).countP (fun e => decide (e.2 = v) && decide (e.1 ∉ order))

/-- The dependents recorded for `u`, in the order `adj[u]` holds them. -/
def successors (deps : List (Str × List Str)) (u : Str) : List Str :=
  ((edges deps).filter (fun e => decide (e.1 = u))).map Prod.snd

/-- In the list `l`, `d` occurs at an earlier position than an occurrence of `p`. -/
def OccursBefore (l : List Str) (d p : Str) : Prop :=
  ∃ l1 l2, l = l1 ++ p :: l2 ∧ d ∈ l1

/-- The loop invariant of `while(!q.empty())` in `topo_sort`, for queue `q`,
counters `indeg` and emitted list `order`. -/
structure DrainInv (deps : List (Str × List Str)) (q : List Str) (indeg : UMap Int)
    (order : List Str) : Prop where
  keys : indeg.keys = (buildGraph deps).1.keys
  count : ∀ v, indeg.val v = (remaining deps order v : Int)
  zero : ∀ v, v ∈ order ++ q ↔ (IsNode deps v ∧ indeg.val v = 0)
  nodup : (order ++ q).Nodup
  before : ∀ d p, DepEdge deps d p → p ∈ order → OccursBefore order d p

/-! ### Strings -/

/-- The classification `isspace` in the C locale. -/
def isspace (c : Char) : Bool :=
  c = ' ' || c = '\t' || c = '\n' || c = Char.ofNat 11 || c = Char.ofNat 12 || c = '\r'

/-- The function `trim`: the characters from the first to the last one that is not a space. -/
def trim (s : Str) : Str :=
  ((s.dropWhile isspace).reverse.dropWhile isspace).reverse

/-- The function `joinp`. -/
def joinp (a b : Str) : Str :=
  if a = [] then b
  else if a.getLast? = some '/' then a ++ b
  else a ++ "/".toList ++ b

/-- The lines `getline` reads from a `stringstream` over `s`: the pieces between
newlines, without a last empty piece. -/
def getLines : Str → List Str
  | [] => []
  | c :: s =>
    if c = '\n' then [] :: getLines s
    else match getLines s with
      | [] => [[c]]
      | l :: ls => (c :: l) :: ls

/-- The test `s.rfind(k, 0) == 0`: `s` begins with `k`. -/
def startsWith (k s : Str) : Bool := decide (k <+: s)

/-- The call `s.find(needle)` for a string needle: the first position at which
`needle` begins, `none` for `npos`. -/
def find (needle : Str) : Str → Option Nat
  | [] => if needle = [] then some 0 else none
  | c :: s =>
    if startsWith needle (c :: s) then some 0
    else (find needle s).map (fun i => i + 1)

/-- The call `s.find(ch)` for a character. -/
def findChar (ch : Char) : Str → Option Nat
  | [] => none
  | c :: s => if c = ch then some 0 else (findChar ch s).map (fun i => i + 1)

/-- The call `s.rfind(ch)` for a character: the last position holding `ch`. -/
def rfindChar (ch : Char) : Str → Option Nat
  | [] => none
  | c :: s =>
    match rfindChar ch s with
    | some i => some (i + 1)
    | none => if c = ch then some 0 else none

/-- The call `s.substr(pos, len)` for `pos` within the string. -/
def substr (s : Str) (pos len : Nat) : Str := (s.drop pos).take len

/-! ### Regular expressions

The fragment of ECMAScript regular expressions used by the program, with the
backtracking order of `std::regex`: quantifiers apply to character classes only. -/

/-- A regular expression of the fragment. -/
inductive Re where
  /-- One character of a class. -/
  | chr (p : Char → Bool)
  /-- Greedy repetition of a class, `least` times or more (`*` is 0, `+` is 1). -/
  | many (p : Char → Bool) (least : Nat)
  /-- Lazy repetition of a class (`*?`). -/
  | few (p : Char → Bool)
  /-- Exact repetition of a class (`{n}`). -/
  | times (p : Char → Bool) (n : Nat)
  /-- Greedy optional character of a class (`?`). -/
  | opt (p : Char → Bool)
  /-- Concatenation. -/
  | seq (a b : Re)
  /-- A capture group. -/
  | group (a : Re)

/-- All ways `r` matches at the start of `s`, in the order the backtracking matcher
tries them; each with the texts of its capture groups and the unmatched rest. -/
def Re.run : Re → Str → List (List Str × Str)
  | Re.chr p, s =>
    match s with
    | c :: t => if p c then [([], t)] else []
    | [] => []
  | Re.many p least, s =>
    (((List.range ((s.takeWhile p).length + 1)).reverse).filter (fun j => decide (least ≤ j))).map
      (fun j => ([], s.drop j))
  | Re.few p, s =>
    (List.range ((s.takeWhile p).length + 1)).map (fun j => ([], s.drop j))
  | Re.times p n, s =>
    if n ≤ (s.takeWhile p).length then [([], s.drop n)] else []
  | Re.opt p, s =>
    (match s with
      | c :: t => if p c then [([], t)] else []
      | [] => []) ++ [([], s)]
  | Re.seq a b, s =>
    (a.run s).flatMap (fun m1 => (b.run m1.2).map (fun m2 => (m1.1 ++ m2.1, m2.2)))
  | Re.group a, s =>
    (a.run s).map (fun m => (s.take (s.length - m.2.length) :: m.1, m.2))

/-- The call `regex_search` on the text `s`: the leftmost match, as the texts of
the capture groups and the suffix after the match. -/
def Re.search (r : Re) : Str → Option (List Str × Str)
  | [] => (r.run []).head?
  | c :: t =>
    match (r.run (c :: t)).head? with
    | some m => some m
    | none => Re.search r t

/-- The loop `while(regex_search(it, end, m, re)){ ...; it = m.suffix().first; }`:
the capture groups of the successive matches.  Every pattern of the program matches
at least one character, so `s.length` rounds reach the end of `s`. -/
def Re.matchAll (r : Re) : Nat → Str → List (List Str)
  | 0, _ => []
  | fuel + 1, s =>
    match r.search s with
    | none => []
    | some m => m.1 :: Re.matchAll r fuel m.2

/-- Concatenation of a list of regular expressions. -/
def Re.cat : List Re → Re
  | [] => Re.many (fun _ => false) 0
  | [r] => r
  | r :: rs => Re.seq r (Re.cat rs)

/-- The class of one character. -/
def Re.is (c : Char) : Re := Re.chr (fun x => decide (x = c))

/-- The class of every character but the listed ones. -/
def notIn (cs : List Char) : Char → Bool := fun x => decide (x ∉ cs)

/-- The regular expression for the characters of `s` in a row. -/
def Re.text (s : Str) : Re := Re.cat (s.map Re.is)

/-- The pattern `"([^"]+)"`. -/
def reQuoted : Re :=
  Re.cat [Re.is '"', Re.group (Re.many (notIn ['"']) 1), Re.is '"']

/-! ### The environment

The program reaches its environment through `system`, `popen`, `stat`, file
streams, directory iterators, `rand` and `time`.  The calls that can change the
environment (`system`, `popen`, writing a file) are recorded in a trace; what the
other calls observe is a function of the trace so far. -/

/-- A call that can change the environment. -/
inductive Event where
  /-- The call `run(cmd)`, that is `system(cmd)`. -/
  | system (cmd : Str)
  /-- The call `caprun(cmd)`, that is `popen(cmd, "r")`. -/
  | popen (cmd : Str)
  /-- The call `dump(path, content)`. -/
  | write (path content : Str)
  deriving DecidableEq

/-- The responses of the environment. -/
structure Env where
  /-- The value `system(cmd)` returns after the given trace. -/
  status : List Event → Str → Int
  /-- The output `caprun(cmd)` collects. -/
  output : List Event → Str → Str
  /-- The test `exists_file(p)`. -/
  stat : List Event → Str → Bool
  /-- The test `filesystem::exists(p)`. -/
  fsExists : List Event → Str → Bool
  /-- The text `slurp(p)` returns (empty when the file cannot be opened). -/
  slurp : List Event → Str → Str
  /-- The entries a `recursive_directory_iterator` over the directory visits, each
  with the result of `is_regular_file`. -/
  walk : List Event → Str → List (Str × Bool)
  /-- The entries a `directory_iterator` over the directory visits, each with the
  result of `is_directory`. -/
  list : List Event → Str → List (Str × Bool)
  /-- The text `nowstamp()` returns. -/
  clock : List Event → Str
  /-- The value of the `i`-th call of `rand()`. -/
  rand : Nat → Nat
  /-- The order in which a range-for visits an `unordered_map` with the given keys. -/
  hashOrder : List Str → List Str

/-- The state threaded through the program: the trace and the number of calls of
`rand()` so far. -/
structure World where
  trace : List Event
  rands : Nat
  deriving DecidableEq

/-- The call `run(cmd)`. -/
def run (env : Env) (cmd : Str) (w : World) : Int × World :=
  (env.status w.trace cmd, { w with trace := w.trace ++ [Event.system cmd] })

/-- The call `dump(p, content)`. -/
def dump (p content : Str) (w : World) : World :=
  { w with trace := w.trace ++ [Event.write p content] }

/-- The call `ensure_dir(p)`. -/
def ensure_dir (env : Env) (p : Str) (w : World) : World :=
  (run env ("mkdir -p '".toList ++ p ++ "'".toList) w).2

/-- The entries of a map in the order a range-for visits them. -/
def UMap.visit {V : Type} (env : Env) (m : UMap V) : List (Str × V) :=
  (env.hashOrder m.keys).map (fun k => (k, m.val k))

/-- The structure `Config`. -/
structure Config where
  recipes_dir : Str := "/usr/share/lfsd/recipes".toList
  state_dir : Str := "/var/lib/lfsd".toList
  stage_dir : Str := "/var/stage/lfsd".toList
  cache_dir : Str := "/var/cache/lfsd".toList
  bin_dir : Str := "/var/cache/lfsd/bin".toList
  sources_dir : Str := "/var/cache/lfsd/sources".toList
  log_dir : Str := "/var/log/lfsd".toList
  remote_url : Str := []
  channel : Str := "stable".toList
  snapshot_backend : Str := "tar".toList
  color : Str := "auto".toList
  jobs : Int := 0
  deriving DecidableEq

/-! ### Installed registry (`load_installed`, `save_installed`) -/

/-- The structure `InstalledInfo`. -/
structure InstalledInfo where
  version : Str := []
  installed_at : Str := []
  manifest : Str := []
  files : List Str := []
  source_hash : Str := []
  deriving DecidableEq

/-- The function `installed_db_path`. -/
def installed_db_path (c : Config) : Str := joinp c.state_dir "installed.json".toList

/-- The pattern `"([^"]+)"\s*:\s*\{([^}]*)\}` of `load_installed` (`item`). -/
def reItem : Re :=
  Re.cat [Re.is '"', Re.group (Re.many (notIn ['"']) 1), Re.is '"', Re.many isspace 0,
    Re.is ':', Re.many isspace 0, Re.is (Char.ofNat 123),
    Re.group (Re.many (notIn [Char.ofNat 125]) 0), Re.is (Char.ofNat 125)]

/-- The pattern `"([^"]+)"\s*:\s*"?([^",}\n]+)"?` of `load_installed` (`kv`). -/
def reKv : Re :=
  Re.cat [Re.is '"', Re.group (Re.many (notIn ['"']) 1), Re.is '"', Re.many isspace 0,
    Re.is ':', Re.many isspace 0, Re.opt (fun x => decide (x = '"')),
    Re.group (Re.many (notIn ['"', ',', Char.ofNat 125, '\n']) 1),
    Re.opt (fun x => decide (x = '"'))]

/-- The pattern `"files"\s*:\s*\[(.*?)\]` of `load_installed` (`fa`), where the
dot matches every character. -/
def reFiles : Re :=
  Re.cat [Re.text "\"files\"".toList, Re.many isspace 0, Re.is ':', Re.many isspace 0,
    Re.is '[', Re.group (Re.few (fun _ => true)), Re.is ']']

/-- Body of the loop over the `kv` matches: the assignment chosen by the key. -/
def applyKv (info : InstalledInfo) (m : List Str) : InstalledInfo :=
  match m with
  | [k, v] =>
    if k = "version".toList then { info with version := v }
    else if k = "installed_at".toList then { info with installed_at := v }
    else if k = "manifest".toList then { info with manifest := v }
    else if k = "source_hash".toList then { info with source_hash := v }
    else info
  | _ => info

/-- The `InstalledInfo` that `load_installed` builds from the body of one item. -/
def parseEntry (body : Str) : InstalledInfo :=
  let info := (reKv.matchAll body.length body).foldl applyKv {}
  match reFiles.search body with
  | some (arr :: _, _) =>
    { info with files := info.files ++ (reQuoted.matchAll arr.length arr).map (fun m => m.headD []) }
  | _ => info

/-- The map `load_installed` builds from the text of the registry file. -/
def parse_installed (s : Str) : UMap InstalledInfo :=
  (reItem.matchAll s.length s).foldl
    (fun out m =>
      match m with
      | [name, body] => out.set name (parseEntry body)
      | _ => out)
    (UMap.empty {})

/-- The function `load_installed`. -/
def load_installed (env : Env) (c : Config) (w : World) : UMap InstalledInfo :=
  if env.stat w.trace (installed_db_path c) then
    parse_installed (env.slurp w.trace (installed_db_path c))
  else UMap.empty {}

/-- The text `save_installed` writes for one entry of the map. -/
def entryText (kv : Str × InstalledInfo) : Str :=
  "  \"".toList ++ kv.1 ++ "\": \x7b\n".toList
  ++ "    \"version\": \"".toList ++ kv.2.version ++ "\",\n".toList
  ++ "    \"installed_at\": \"".toList ++ kv.2.installed_at ++ "\",\n".toList
  ++ "    \"manifest\": \"".toList ++ kv.2.manifest ++ "\",\n".toList
  ++ "    \"source_hash\": \"".toList ++ kv.2.source_hash ++ "\",\n".toList
  ++ "    \"files\": [\n".toList
  ++ kv.2.files.flatMap (fun f => "      \"".toList ++ f ++ "\",".toList ++ "\n".toList)
  ++ "    ]\n  \x7d,\n".toList

/-- The text `save_installed` writes for the entries `db`, in visiting order. -/
def save_text (db : List (Str × InstalledInfo)) : Str :=
  "\x7b\n".toList ++ db.flatMap entryText ++ "\x7d\n".toList

/-- The function `save_installed`. -/
def save_installed (env : Env) (c : Config) (db : UMap InstalledInfo) (w : World) : World :=
  dump (installed_db_path c) (save_text (db.visit env)) w

/-! ### Recipes (`parse_array_line`, `load_recipe_toml`, `find_recipes`) -/

/-- The structure `Recipe`. -/
structure Recipe where
  name : Str := []
  version : Str := []
  sources : List Str := []
  git : Str := []
  patches : List Str := []
  sha256 : Str := []
  depends : List Str := []
  configure : List Str := []
  make_cmd : List Str := []
  install_cmd : List Str := []
  tests : List Str := []
  bin_only : Bool := false
  path : Str := []
  deriving DecidableEq

/-- The function `parse_array_line`. -/
def parse_array_line (line : Str) : List Str :=
  match findChar '[' line, rfindChar ']' line with
  | some l, some r =>
    if r ≤ l then []
    else
      let mid := substr line (l + 1) (r - l - 1)
      (reQuoted.matchAll mid.length mid).map (fun m => m.headD [])
  | _, _ => []

/-- The text `line.substr(p+1)` for `p = line.find('=')`; when there is no `=`,
`p` is `npos` and `p+1` wraps to 0, which gives the whole line. -/
def afterEq (line : Str) : Str :=
  match findChar '=' line with
  | some p => line.drop (p + 1)
  | none => line

/-- A string field: `trim(line.substr(p+1))` with every `"` erased. -/
def strField (line : Str) : Str := (trim (afterEq line)).filter (fun c => decide (c ≠ '"'))

/-- Body of the `getline` loop of `load_recipe_toml`, for the raw line `raw`.
`makeNeedle` is the argument of `line.find(...)` in the `make` branch, whose string
literal is not terminated in the source. -/
def recipeLine (makeNeedle : Str) (r : Recipe) (raw : Str) : Recipe :=
  let line := trim raw
  if line = [] || line.head? = some '#' then r
  else if startsWith "name".toList line then { r with name := strField line }
  else if startsWith "version".toList line then { r with version := strField line }
  else if startsWith "git".toList line then { r with git := strField line }
  else if startsWith "sources".toList line then { r with sources := parse_array_line line }
  else if startsWith "patches".toList line then { r with patches := parse_array_line line }
  else if startsWith "sha256".toList line then { r with sha256 := strField line }
  else if startsWith "depends".toList line then { r with depends := parse_array_line line }
  else if startsWith "bin_only".toList line then
    { r with bin_only := decide (trim (afterEq line) = "true".toList)
                          || decide (trim (afterEq line) = "True".toList) }
  else if startsWith "configure".toList line then { r with configure := parse_array_line line }
  else if startsWith "make".toList line && (find makeNeedle line).isNone then
    { r with make_cmd := parse_array_line line }
  else if startsWith "install".toList line then { r with install_cmd := parse_array_line line }
  else if startsWith "tests".toList line then { r with tests := parse_array_line line }
  else r

/-- The recipe `load_recipe_toml(path)` builds when the file holds the text `s`. -/
def parse_recipe (makeNeedle path s : Str) : Recipe :=
  if s = [] then { path := path }
  else (getLines s).foldl (recipeLine makeNeedle) { path := path }

/-- The function `load_recipe_toml`. -/
def load_recipe_toml (env : Env) (makeNeedle : Str) (w : World) (path : Str) : Recipe :=
  parse_recipe makeNeedle path (env.slurp w.trace path)

/-- The last component of a path (`path().filename()`). -/
def filename (p : Str) : Str := (p.reverse.takeWhile (fun c => decide (c ≠ '/'))).reverse

/-- The function `find_recipes`. -/
def find_recipes (env : Env) (makeNeedle : Str) (w : World) (root : Str) : UMap Str :=
  (env.walk w.trace root).foldl
    (fun out e =>
      if filename e.1 = "recipe.toml".toList then
        if (load_recipe_toml env makeNeedle w e.1).name ≠ [] then
          out.set (load_recipe_toml env makeNeedle w e.1).name e.1
        else out
      else out)
    (UMap.empty [])

/-- The map `deps` built by `for(auto &kv: recs){ Recipe rr = load_recipe_toml(kv.second);
deps[rr.name]=rr.depends; }`. -/
def recipeDeps (env : Env) (makeNeedle : Str) (w : World) (recs : UMap Str) :
    UMap (List Str) :=
  (recs.visit env).foldl
    (fun deps kv =>
      deps.set (load_recipe_toml env makeNeedle w kv.2).name
        (load_recipe_toml env makeNeedle w kv.2).depends)
    (UMap.empty [])

/-! ### Digests (`sha256_file`) -/

/-- The class `[a-fA-F0-9]`. -/
def isHex (c : Char) : Bool :=
  ('a' ≤ c && c ≤ 'f') || ('A' ≤ c && c ≤ 'F') || ('0' ≤ c && c ≤ '9')

/-- The pattern `^([a-fA-F0-9]{64})` without its anchor. -/
def reSha : Re := Re.group (Re.times isHex 64)

/-- The digest `sha256_file` extracts from the output of `sha256sum`: the first
capture group when the pattern matches at the start, the empty string otherwise. -/
def digestOf (out : Str) : Str :=
  match (reSha.run out).head? with
  | some (h :: _, _) => h
  | _ => []

/-- The function `sha256_file`. -/
def sha256_file (env : Env) (p : Str) (w : World) : Str × World :=
  if env.stat w.trace p then
    (digestOf (env.output w.trace ("sha256sum '".toList ++ p ++ "'".toList)),
      { w with trace := w.trace ++ [Event.popen ("sha256sum '".toList ++ p ++ "'".toList)] })
  else ([], w)

/-! ### Removal (`remove_package`) -/

/-- The erasure `m.erase(k)`; `dflt` is the default value of the map. -/
def UMap.erase {V : Type} (m : UMap V) (k : Str) (dflt : V) : UMap V :=
  ⟨m.keys.filter (fun x => decide (x ≠ k)), Function.update m.val k dflt⟩

/-- The reverse-dependency scan of `remove_package` over the entries of `db`:
`true` when it reaches `return 2`. -/
def reverseDep (deps : UMap (List Str)) (pkg : Str) : List (Str × InstalledInfo) → Bool
  | [] => false
  | kv :: rest =>
    if kv.1 = pkg then reverseDep deps pkg rest
    else if (deps.val kv.1).any (fun d => decide (d = pkg)) then true
    else reverseDep deps pkg rest

/-- The loop of `remove_package` over `info.files`. -/
def removeFiles (env : Env) : List Str → World → World
  | [], w => w
  | f :: fs, w =>
    if env.stat w.trace f then
      removeFiles env fs
        (run env ("rm -f '".toList ++ f ++ "'".toList) (sha256_file env f w).2).2
    else removeFiles env fs w

/-- The function `remove_package`: the returned code and the world after the call. -/
def remove_package (env : Env) (makeNeedle : Str) (pkg : Str) (c : Config) (w : World) :
    Int × World :=
  let db := load_installed env c w
  if !db.count pkg then (1, w)
  else
    let recs := find_recipes env makeNeedle w c.recipes_dir
    let deps := recipeDeps env makeNeedle w recs
    if reverseDep deps pkg (db.visit env) then (2, w)
    else
      let w1 := removeFiles env (db.val pkg).files w
      let w2 := save_installed env c (db.erase pkg {}) w1
      let w3 := dump (joinp c.log_dir (env.clock w2.trace ++ "-remove-".toList ++ pkg ++ ".log".toList))
        ("removed ".toList ++ pkg) w2
      (0, w3)

/-! ### Staged builder (`build_one`) -/

/-- Decimal digits of `n`, most significant first; `fuel` bounds the number of digits. -/
def decimal : Nat → Nat → Str
  | 0, _ => []
  | fuel + 1, n =>
    if n < 10 then [Char.ofNat (48 + n)]
    else decimal fuel (n / 10) ++ [Char.ofNat (48 + n % 10)]

/-- The function `std::to_string` on an `int`. -/
def to_string (n : Int) : Str :=
  if n < 0 then '-' :: decimal (n.natAbs + 1) n.natAbs else decimal (n.natAbs + 1) n.natAbs

/-- The name `r.name+"-"+r.version` used for the directories of a package. -/
def pkgid (r : Recipe) : Str := r.name ++ "-".toList ++ r.version

/-- The function `download_with_curl`. -/
def download_with_curl (env : Env) (url out : Str) (w : World) : Int × World :=
  run env ("curl -L --fail --retry 3 -o '".toList ++ out ++ "' '".toList ++ url ++ "'".toList) w

/-- The function `git_clone_shallow`. -/
def git_clone_shallow (env : Env) (url out : Str) (w : World) : Int × World :=
  run env ("rm -rf '".toList ++ out ++ "' && git clone --depth 1 '".toList ++ url
    ++ "' '".toList ++ out ++ "'".toList) w

/-- The name `fname` of the file into which `build_one` downloads the next archive
when the world is `w`: `joinp(c.sources_dir, name-version-rand())` followed by `.src`. -/
def sourceFile (env : Env) (r : Recipe) (c : Config) (w : World) : Str :=
  joinp c.sources_dir (pkgid r ++ "-".toList ++ to_string (env.rand w.rands)) ++ ".src".toList

/-- The download of the archive `u` when the world is `w`: the status of `curl` and
the world after it. -/
def downloaded (env : Env) (r : Recipe) (c : Config) (u : Str) (w : World) : Int × World :=
  download_with_curl env u (sourceFile env r c w) { w with rands := w.rands + 1 }

/-- The digest `h` that `build_one` computes for the archive `u` downloaded when the
world is `w`, and the world after `sha256_file`. -/
def verified (env : Env) (r : Recipe) (c : Config) (u : Str) (w : World) : Str × World :=
  sha256_file env (sourceFile env r c w) (downloaded env r c u w).2

/-- The loop of `build_one` over `r.sources`: download, verify, unpack.  The first
component is the code of an early `return`, if any. -/
def fetchSources (env : Env) (r : Recipe) (c : Config) (work : Str) :
    List Str → World → Option Int × World
  | [], w => (none, w)
  | u :: us, w =>
    if (downloaded env r c u w).1 ≠ 0 then (some 2, (downloaded env r c u w).2)
    else
      let untar := fun (w1 : World) =>
        (run env ("tar -C '".toList ++ work ++ "' -xf '".toList ++ sourceFile env r c w
          ++ "' --strip-components=1".toList) w1).2
      if r.sha256 ≠ [] then
        if (verified env r c u w).1 = [] ∨ (verified env r c u w).1 ≠ r.sha256 then
          (some 3, (verified env r c u w).2)
        else fetchSources env r c work us (untar (verified env r c u w).2)
      else fetchSources env r c work us (untar (downloaded env r c u w).2)

/-- The loop of `build_one` over `r.patches`. -/
def fetchPatches (env : Env) (work : Str) : List Str → World → Option Int × World
  | [], w => (none, w)
  | purl :: ps, w =>
    let pfile := joinp work ("patch-".toList ++ to_string (env.rand w.rands))
    let w0 : World := { w with rands := w.rands + 1 }
    let dl := download_with_curl env purl pfile w0
    if dl.1 ≠ 0 then (some 4, dl.2)
    else
      fetchPatches env work ps
        (run env ("cd '".toList ++ work ++ "' && patch -p1 < '".toList ++ pfile ++ "'".toList) dl.2).2

/-- The part of `build_one` before the environment of the steps is set up: reset of
the work tree, download, copy of a clone, patches. -/
def prepare (env : Env) (r : Recipe) (c : Config) (work_root : Str) (w : World) :
    Option Int × World :=
  let work := joinp work_root (pkgid r)
  let srcdir := joinp c.sources_dir (pkgid r)
  let w1 := (run env ("rm -rf '".toList ++ work ++ "' && mkdir -p '".toList ++ work ++ "'".toList) w).2
  let fetched : Option Int × World :=
    if r.git ≠ [] then
      let g := git_clone_shallow env r.git srcdir w1
      if g.1 ≠ 0 then (some 1, g.2) else (none, g.2)
    else if r.sources ≠ [] then
      fetchSources env r c work r.sources (ensure_dir env c.sources_dir w1)
    else (none, w1)
  match fetched with
  | (some rc, w2) => (some rc, w2)
  | (none, w2) =>
    let w3 :=
      if r.git ≠ [] then
        (run env ("cp -a '".toList ++ srcdir ++ "/.' '".toList ++ work ++ "/'".toList) w2).2
      else w2
    if r.patches ≠ [] then fetchPatches env work r.patches w3 else (none, w3)

/-- The loop `while((pos=s.find(needle))!=string::npos) s.replace(pos,needle.size(),repl);`. -/
def replaceLoop (needle repl : Str) : Nat → Str → Option Str
  | 0, _ => none
  | fuel + 1, s =>
    match find needle s with
    | none => some s
    | some pos => replaceLoop needle repl fuel (s.take pos ++ repl ++ s.drop (pos + needle.length))

/-- The placeholder substitution of `run_step`: first `STAGE`, then `JOBS`. -/
def substitute (fuel : Nat) (stage jobs : Str) (cmm : Str) : Option Str :=
  match replaceLoop "$\x7bSTAGE\x7d".toList stage fuel cmm with
  | none => none
  | some s => replaceLoop "$\x7bJOBS\x7d".toList jobs fuel s

/-- The lambda `run_step`: the value it returns and the world after it. -/
def run_step (fuel : Nat) (env : Env) (work stage jobs : Str) :
    List Str → World → Option (Int × World)
  | [], w => some (0, w)
  | cmm :: cmds, w =>
    match substitute fuel stage jobs cmm with
    | none => none
    | some s =>
      let rc := run env ("cd '".toList ++ work ++ "' && ".toList ++ s) w
      if rc.1 ≠ 0 then some rc else run_step fuel env work stage jobs cmds rc.2

/-- One line `if(!cmds.empty()){ if(run_step(cmds)) return code; }`. -/
def runStage (fuel : Nat) (env : Env) (work stage jobs : Str) (code : Int) (cmds : List Str)
    (w : World) : Option (Option Int × World) :=
  if cmds = [] then some (none, w)
  else
    match run_step fuel env work stage jobs cmds w with
    | none => none
    | some rc => if rc.1 ≠ 0 then some (some code, rc.2) else some (none, rc.2)

/-- The four step lines of `build_one`: configure, make, tests, install. -/
def runSteps (fuel : Nat) (env : Env) (work stage jobs : Str) (r : Recipe) (w : World) :
    Option (Option Int × World) :=
  match runStage fuel env work stage jobs 10 r.configure w with
  | none => none
  | some (some rc, w1) => some (some rc, w1)
  | some (none, w1) =>
    match runStage fuel env work stage jobs 11 r.make_cmd w1 with
    | none => none
    | some (some rc, w2) => some (some rc, w2)
    | some (none, w2) =>
      match runStage fuel env work stage jobs 12 r.tests w2 with
      | none => none
      | some (some rc, w3) => some (some rc, w3)
      | some (none, w3) => runStage fuel env work stage jobs 13 r.install_cmd w3

/-- The directory of a path (`filesystem::path::parent_path`) for a path with a
directory part. -/
def parent_path (p : Str) : Str :=
  let dir := p.reverse.dropWhile (fun c => decide (c ≠ '/'))
  let bare := dir.dropWhile (fun c => decide (c = '/'))
  if bare = [] then dir.take 1 else bare.reverse

/-- The loop that builds `manifest_txt`. -/
def manifestText (env : Env) : List Str → Str → World → Str × World
  | [], txt, w => (txt, w)
  | f :: fs, txt, w =>
    let h := sha256_file env f w
    manifestText env fs (txt ++ (f ++ " ".toList ++ h.1 ++ "\n".toList)) h.2

/-- The loop of the strip step. -/
def stripFiles (env : Env) : List Str → World → World
  | [], w => w
  | f :: fs, w =>
    if (find "/bin/".toList f).isSome || (find "/sbin/".toList f).isSome
        || (find "/lib/".toList f).isSome then
      stripFiles env fs
        (run env ("file '".toList ++ f ++ "' | grep ELF >/dev/null && strip --strip-all '".toList
          ++ f ++ "' || true".toList) w).2
    else stripFiles env fs w

/-- The part of `build_one` after the steps: manifest, pack, strip, registration,
copy to `pkgroot`. -/
def finish (env : Env) (r : Recipe) (c : Config) (installed : UMap InstalledInfo)
    (do_strip do_pack : Bool) (w : World) : UMap InstalledInfo × World :=
  let pkgroot := joinp c.stage_dir (pkgid r)
  let files := ((env.walk w.trace pkgroot).filter (fun e => e.2)).map Prod.fst
  let mani := joinp c.state_dir ("manifests/".toList ++ pkgid r ++ ".manifest".toList)
  let w1 := ensure_dir env (parent_path mani) w
  let m := manifestText env files [] w1
  let w2 := dump mani m.1 m.2
  let w3 :=
    if do_pack then
      (run env ("tar -C '".toList ++ pkgroot ++ "' -I zstd -cpf '".toList
        ++ joinp c.bin_dir (pkgid r ++ ".tar.zst".toList) ++ "' .".toList)
        (ensure_dir env c.bin_dir w2)).2
    else w2
  let w4 := if do_strip then stripFiles env files w3 else w3
  let info : InstalledInfo :=
    { version := r.version, installed_at := env.clock w4.trace, manifest := mani,
      files := files, source_hash := [] }
  let installed1 := installed.set r.name info
  let w5 := save_installed env c installed1 w4
  let staged_dest := joinp c.stage_dir (pkgid r ++ "/pkgroot".toList)
  let w6 := (run env ("rm -rf '".toList ++ staged_dest ++ "' && mkdir -p '".toList ++ staged_dest
    ++ "' && cp -a '".toList ++ pkgroot ++ "/.' '".toList ++ staged_dest ++ "/'".toList) w5).2
  (installed1, w6)

/-- The function `build_one`: the returned code, the map `installed` after the
call and the world after the call; `none` when a substitution loop does not end
within `fuel` rounds. -/
def build_one (fuel : Nat) (env : Env) (r : Recipe) (c : Config)
    (installed : UMap InstalledInfo) (work_root : Str) (do_strip do_pack : Bool) (w : World) :
    Option (Int × UMap InstalledInfo × World) :=
  match prepare env r c work_root w with
  | (some rc, w1) => some (rc, installed, w1)
  | (none, w1) =>
    let stage := joinp c.stage_dir (pkgid r)
    match runSteps fuel env (joinp work_root (pkgid r)) stage (to_string c.jobs) r
        (ensure_dir env stage w1) with
    | none => none
    | some (some rc, w2) => some (rc, installed, w2)
    | some (none, w2) =>
      some (0, (finish env r c installed do_strip do_pack w2).1,
        (finish env r c installed do_strip do_pack w2).2)

/-- The world in which `build_one`, started in `w` on a recipe without `git` and
with archives, draws the name of its first download: the work tree has been reset
and the sources directory ensured. -/
def atFirstSource (env : Env) (r : Recipe) (c : Config) (work_root : Str) (w : World) : World :=
  ensure_dir env c.sources_dir
    (run env ("rm -rf '".toList ++ joinp work_root (pkgid r) ++ "' && mkdir -p '".toList
      ++ joinp work_root (pkgid r) ++ "'".toList) w).2

/-- The command line `run_step` passes to `run` for the template `t`. -/
def stepLine (fuel : Nat) (work stage jobs t : Str) : Str :=
  "cd '".toList ++ work ++ "' && ".toList ++ (substitute fuel stage jobs t).getD []

/-- The command lines of the four steps in the order of `build_one`, each with the
code `build_one` returns when it fails: configure 10, make 11, tests 12, install 13. -/
def stepPlan (fuel : Nat) (work stage jobs : Str) (r : Recipe) : List (Int × Str) :=
  r.configure.map (fun t => (10, stepLine fuel work stage jobs t))
  ++ r.make_cmd.map (fun t => (11, stepLine fuel work stage jobs t))
  ++ r.tests.map (fun t => (12, stepLine fuel work stage jobs t))
  ++ r.install_cmd.map (fun t => (13, stepLine fuel work stage jobs t))

/-- Running command lines in order until one returns a non-zero status; the result
is the code attached to that command, if any, and the world after the last command
that was run. -/
def runPlan (env : Env) : List (Int × Str) → World → Option Int × World
  | [], w => (none, w)
  | x :: rest, w =>
    if (run env x.2 w).1 ≠ 0 then (some x.1, (run env x.2 w).2)
    else runPlan env rest (run env x.2 w).2

/-- Every command of `done`, run in order from the world `w`, returns status 0. -/
def AllSucceed (env : Env) (w : World) (done : List (Int × Str)) : Prop :=
  ∀ pre x post, done = pre ++ x :: post →
    env.status (w.trace ++ pre.map (fun y => Event.system y.2)) x.2 = 0

/-- From `w` to `w1` the trace has only grown, and by no `dump`: no file has been
written by the program itself (`save_installed` is a `dump`). -/
def Quiet (w w1 : World) : Prop :=
  ∃ evs, w1.trace = w.trace ++ evs ∧ ∀ p content, Event.write p content ∉ evs

/-! ### Plan store -/

/-- The text the `plan` command writes for `order`: `pl += o+"\n"` for each name. -/
def plan_text (order : List Str) : Str := order.flatMap (fun o => o ++ "\n".toList)

/-- The list the `build` command reads from the text of the plan file:
`while(getline(ss,l)){ if(trim(l).empty()) continue; order.push_back(trim(l)); }`. -/
def read_plan (s : Str) : List Str :=
  (getLines s).foldl (fun order l => if trim l = [] then order else order ++ [trim l]) []

/-- How the process ends: `main` returns a code, or an exception that nothing
catches ends it. -/
inductive Exit where
  | code (rc : Int)
  | thrown (what : Str)
  deriving DecidableEq

/-- The loop `while(!q.empty())` of the `plan` command, for the queue `q`, the set
`seen` and the map `deps`; `none` when the fuel runs out first. -/
def collect (env : Env) (makeNeedle : Str) (w : World) (recs : UMap Str) :
    Nat → List Str → List Str → UMap (List Str) → Option (UMap (List Str))
  | 0, _, _, _ => none
  | _ + 1, [], _, deps => some deps
  | fuel + 1, u :: q, seen, deps =>
    if u ∈ seen then collect env makeNeedle w recs fuel q seen deps
    else if !recs.count u then collect env makeNeedle w recs fuel q (seen ++ [u]) deps
    else
      collect env makeNeedle w recs fuel
        (q ++ (load_recipe_toml env makeNeedle w (recs.val u)).depends) (seen ++ [u])
        (deps.set (load_recipe_toml env makeNeedle w (recs.val u)).name
          (load_recipe_toml env makeNeedle w (recs.val u)).depends)

/-- One round of the loop `for(auto &t: targets)` of the `plan` command, for the
target `t` and the map `deps` at the start of the round.  In the source text the only
closing brace that follows the opening of this loop is the one after `return 0;`
(lines 272 to 276, where one closing brace is missing): `topo_sort(deps)`, the `dump`
of the plan and `return 0` belong to the body of the loop, so every round returns. -/
def planRound (fuel : Nat) (env : Env) (makeNeedle : Str) (cfg : Config) (recs : UMap Str)
    (t : Str) (deps : UMap (List Str)) (w : World) : Option (Exit × World) :=
  if !recs.count t then some (Exit.code 1, w)
  else
    match collect env makeNeedle w recs fuel [t] [] deps with
    | none => none
    | some deps1 =>
      match topo_sort (deps1.visit env)
          (env.hashOrder (buildGraph (deps1.visit env)).1.keys) with
      | none => none
      | some (TopoResult.error what) => some (Exit.thrown what, w)
      | some (TopoResult.ok order) =>
        some (Exit.code 0, dump (joinp cfg.state_dir "pending.plan".toList) (plan_text order) w)

/-- The `plan` command of `main` for the targets `targets`: without a target it
returns 1; otherwise the loop over the targets is entered and its first round
returns, so the targets after the first are never looked at. -/
def cmd_plan (fuel : Nat) (env : Env) (makeNeedle : Str) (cfg : Config) (targets : List Str)
    (w : World) : Option (Exit × World) :=
  match targets with
  | [] => some (Exit.code 1, w)
  | t :: _ =>
    planRound fuel env makeNeedle cfg (find_recipes env makeNeedle w cfg.recipes_dir) t
      (UMap.empty []) w

/-- In the recipe store `recs`, the package `p` has a recipe and it names `d` in
`depends`. -/
def StoreEdge (env : Env) (makeNeedle : Str) (w : World) (recs : UMap Str) (d p : Str) : Prop :=
  p ∈ recs.keys ∧ d ∈ (load_recipe_toml env makeNeedle w (recs.val p)).depends

/-- The package `x` is one of the targets or is reached from one through `depends`. -/
def Reachable (env : Env) (makeNeedle : Str) (w : World) (recs : UMap Str)
    (targets : List Str) (x : Str) : Prop :=
  ∃ t ∈ targets, Relation.ReflTransGen (fun a b => StoreEdge env makeNeedle w recs b a) t x

/-- The number of queue entries the `plan` loop can still take up: the length of
the queue and the `depends` entries of the recipes not seen yet. -/
def collectMeasure (env : Env) (makeNeedle : Str) (w : World) (recs : UMap Str)
    (q seen : List Str) : Nat :=
  q.length + ((recs.keys.filter (fun k => decide (k ∉ seen))).map
    (fun k => (load_recipe_toml env makeNeedle w (recs.val k)).depends.length)).sum

/-- The loop invariant of `while(!q.empty())` in the `plan` command, for the target
`t`, the map `deps0` at the start of the loop, and the current `q`, `seen`, `deps`. -/
structure CollectInv (env : Env) (nd : Str) (w : World) (recs : UMap Str)
    (targets : List Str) (deps0 : UMap (List Str)) (t : Str) (q seen : List Str)
    (deps : UMap (List Str)) : Prop where
  keys : ∀ k ∈ deps.keys, k ∈ recs.keys ∧
    deps.val k = (load_recipe_toml env nd w (recs.val k)).depends ∧
    Reachable env nd w recs targets k
  mono : ∀ k ∈ deps0.keys, k ∈ deps.keys
  fresh : ∀ k ∈ deps.keys, k ∈ deps0.keys ∨ k ∈ seen
  closed : ∀ u ∈ seen, u ∈ recs.keys → u ∈ deps.keys ∧
    ∀ d ∈ (load_recipe_toml env nd w (recs.val u)).depends, d ∈ seen ∨ d ∈ q
  queue : ∀ u ∈ q, Reachable env nd w recs targets u
  start : t ∈ seen ∨ t ∈ q

/-- What holds of the map `deps` when the closure loop of a target has ended:
its keys have recipes, are reachable, hold the `depends` of their recipe, and the
key set is closed under `depends` as far as recipes exist. -/
structure PlanInv (env : Env) (nd : Str) (w : World) (recs : UMap Str)
    (targets : List Str) (deps : UMap (List Str)) : Prop where
  keys : ∀ k ∈ deps.keys, k ∈ recs.keys ∧
    deps.val k = (load_recipe_toml env nd w (recs.val k)).depends ∧
    Reachable env nd w recs targets k
  closed : ∀ k ∈ deps.keys, ∀ d ∈ (load_recipe_toml env nd w (recs.val k)).depends,
    d ∈ recs.keys → d ∈ deps.keys

/-- The key names tested by `load_recipe_toml`. -/
def knownKeys : List Str :=
  ["name".toList, "version".toList, "git".toList, "sources".toList, "patches".toList,
   "sha256".toList, "depends".toList, "bin_only".toList, "configure".toList, "make".toList,
   "install".toList, "tests".toList]

/-- A registry file with one entry that has a `version` and no other field. -/
def legacyRegistry : Str :=
  "\x7b\"a\": \x7b\"version\": \"1\"\x7d\x7d".toList

/-! ### Promotion (`apply_stage`) and upgrade (`cmd_upgrade`) -/

/-- The loop of `apply_stage` over the entries of the stage directory; `rc` is the
variable `rc`, updated by `rc |= run(cmd)`. -/
def applyEntries (env : Env) : List (Str × Bool) → Int → World → Int × World
  | [], rc, w => (rc, w)
  | p :: ps, rc, w =>
    if !p.2 then applyEntries env ps rc w
    else if !env.stat w.trace (joinp p.1 "pkgroot".toList)
        && !env.fsExists w.trace (joinp p.1 "pkgroot".toList) then applyEntries env ps rc w
    else
      applyEntries env ps
        (Int.lor rc (run env ("rsync -aHAX --delete '".toList ++ joinp p.1 "pkgroot".toList
          ++ "/' /".toList) w).1)
        (run env ("rsync -aHAX --delete '".toList ++ joinp p.1 "pkgroot".toList
          ++ "/' /".toList) w).2

/-- The function `apply_stage`, for a stage directory the iterator can open. -/
def apply_stage (env : Env) (c : Config) (w : World) : Int × World :=
  let label := "apply-".toList ++ env.clock w.trace
  let snapdir := joinp c.cache_dir "snaps".toList
  let snapfile := joinp snapdir (label ++ ".tar.zst".toList)
  let rc := run env ("tar -C / -I zstd -cpf '".toList ++ snapfile ++ "' usr || true".toList)
    (ensure_dir env snapdir w)
  if rc.1 ≠ 0 then rc
  else applyEntries env (env.list rc.2.trace c.stage_dir) rc.1 rc.2

/-- The list `to_upgrade` of `cmd_upgrade`: the installed names, in visiting order,
that have a recipe whose version differs from the installed one. -/
def toUpgrade (env : Env) (makeNeedle : Str) (w : World) (recs : UMap Str)
    (db : UMap InstalledInfo) : List Str :=
  (db.visit env).filterMap (fun kv =>
    if recs.count kv.1 ∧ (load_recipe_toml env makeNeedle w (recs.val kv.1)).version ≠ kv.2.version
    then some kv.1 else none)

/-- The loop of `cmd_upgrade` over `to_upgrade`: each round loads the recipe, copies
`db` into a fresh map `inst` and calls `build_one` on that copy.  The first component
lists the codes the calls return, which `cmd_upgrade` discards. -/
def upgradeAll (fuel : Nat) (env : Env) (makeNeedle : Str) (c : Config) (recs : UMap Str)
    (db : UMap InstalledInfo) : List Str → World → Option (List Int × World)
  | [], w => some ([], w)
  | n :: ns, w =>
    match build_one fuel env (load_recipe_toml env makeNeedle w (recs.val n)) c db c.stage_dir
        false true w with
    | none => none
    | some res =>
      match upgradeAll fuel env makeNeedle c recs db ns res.2.2 with
      | none => none
      | some rest => some (res.1 :: rest.1, rest.2)

/-- The function `cmd_upgrade`: the value it returns and the world after it. -/
def cmd_upgrade (fuel : Nat) (env : Env) (makeNeedle : Str) (c : Config) (w : World) :
    Option (Int × World) :=
  let recs := find_recipes env makeNeedle w c.recipes_dir
  let db := load_installed env c w
  if toUpgrade env makeNeedle w recs db = [] then some (0, w)
  else
    match upgradeAll fuel env makeNeedle c recs db (toUpgrade env makeNeedle w recs db) w with
    | none => none
    | some res => some (0, (apply_stage env c res.2).2)

/-- The text of the last `dump` to `path` in a trace, if there is one: what the file
holds as far as the program itself has written it. -/
def lastWrite (path : Str) (trace : List Event) : Option Str :=
  trace.foldl
    (fun acc e =>
      match e with
      | Event.write p content => if p = path then some content else acc
      | _ => acc)
    none

/-- The command `rm -rf 'p' && mkdir -p 'p'` with which `build_one` resets its work tree. -/
def resetCmd (p : Str) : Str :=
  "rm -rf '".toList ++ p ++ "' && mkdir -p '".toList ++ p ++ "'".toList

/-- An environment with the registry `a`, `b` and two recipes, `b` depending on `a`
(scenario S5 of the specification). -/
def sampleEnv : Env where
  status := fun _ _ => 0
  output := fun _ _ => []
  stat := fun _ _ => true
  fsExists := fun _ _ => true
  slurp := fun _ p =>
    if p = "/var/lib/lfsd/installed.json".toList then
      "\x7b\"a\": \x7b\"version\": \"1\"\x7d, \"b\": \x7b\"version\": \"1\"\x7d\x7d".toList
    else if p = "/r/a/recipe.toml".toList then "name = \"a\"\nversion = \"1\"\n".toList
    else if p = "/r/b/recipe.toml".toList then
      "name = \"b\"\nversion = \"1\"\ndepends = [\"a\"]\n".toList
    else []
  walk := fun _ _ => [("/r/a/recipe.toml".toList, true), ("/r/b/recipe.toml".toList, true)]
  list := fun _ _ => []
  clock := fun _ => "20240101-000000".toList
  rand := fun i => i
  hashOrder := fun l => l

/-- An environment in which every command succeeds and `sha256sum` prints the
digest `aa...a` (64 lower-case letters). -/
def digestEnv : Env where
  status := fun _ _ => 0
  output := fun _ _ => List.replicate 64 'a' ++ "  file\n".toList
  stat := fun _ _ => true
  fsExists := fun _ _ => true
  slurp := fun _ _ => []
  walk := fun _ _ => []
  list := fun _ _ => []
  clock := fun _ => "20240101-000000".toList
  rand := fun i => i
  hashOrder := fun l => l

/-- A recipe with one archive and the digest `AA...A` (64 upper-case letters). -/
def upperRecipe : Recipe :=
  { name := "bad".toList, version := "1.0".toList, sources := ["http://x/bad.tar".toList],
    sha256 := List.replicate 64 'A' }

/-- An environment in which every command succeeds but `make -j4` in the work
tree of `sampleBuild`. -/
def makeFailEnv : Env where
  status := fun _ cmd => if cmd = "cd '/var/stage/lfsd/p-1' && make -j4".toList then 2 else 0
  output := fun _ _ => []
  stat := fun _ _ => true
  fsExists := fun _ _ => true
  slurp := fun _ _ => []
  walk := fun _ _ => []
  list := fun _ _ => []
  clock := fun _ => "20240101-000000".toList
  rand := fun i => i
  hashOrder := fun l => l

/-- A recipe with a configure, a make and an install step. -/
def sampleBuild : Recipe :=
  { name := "p".toList, version := "1".toList,
    configure := ["./configure --prefix=$\x7bSTAGE\x7d".toList],
    make_cmd := ["make -j$\x7bJOBS\x7d".toList],
    install_cmd := ["make install".toList] }

/-- A recipe whose configure step uses the `STAGE` placeholder. -/
def loopRecipe : Recipe :=
  { name := "n".toList, version := "1".toList,
    configure := ["./configure --prefix=$\x7bSTAGE\x7d".toList] }

/-- A configuration whose stage directory has the text of the `STAGE` placeholder
in its name. -/
def loopConfig : Config := { stage_dir := "/s/$\x7bSTAGE\x7d".toList }

/-- An environment for an upgrade: `a` and `b` are installed in version 1 and their
recipes have version 2; a file holds what was last written to it. -/
def upgradeEnv : Env where
  status := fun _ _ => 0
  output := fun _ _ => []
  stat := fun _ _ => true
  fsExists := fun _ _ => true
  slurp := fun t p =>
    match lastWrite p t with
    | some s => s
    | none =>
      if p = "/var/lib/lfsd/installed.json".toList then
        "\x7b\"a\": \x7b\"version\": \"1\"\x7d, \"b\": \x7b\"version\": \"1\"\x7d\x7d".toList
      else if p = "/usr/share/lfsd/recipes/a/recipe.toml".toList then
        "name = \"a\"\nversion = \"2\"\n".toList
      else if p = "/usr/share/lfsd/recipes/b/recipe.toml".toList then
        "name = \"b\"\nversion = \"2\"\n".toList
      else []
  walk := fun _ root =>
    if root = "/usr/share/lfsd/recipes".toList then
      [("/usr/share/lfsd/recipes/a/recipe.toml".toList, true),
       ("/usr/share/lfsd/recipes/b/recipe.toml".toList, true)]
    else []
  list := fun _ _ => [("/var/stage/lfsd/a-2".toList, true), ("/var/stage/lfsd/b-2".toList, true)]
  clock := fun _ => "20240101-000000".toList
  rand := fun i => i
  hashOrder := fun l => l

/-- An environment in which the staged prefix of `sampleBuild` holds a file left by
an earlier build until the command `rm -rf` is run on the prefix. -/
def staleEnv : Env where
  status := fun _ _ => 0
  output := fun _ _ => []
  stat := fun _ _ => true
  fsExists := fun _ _ => true
  slurp := fun _ _ => []
  walk := fun t root =>
    if root = "/var/stage/lfsd/p-1".toList
        ∧ Event.system (resetCmd "/var/stage/lfsd/p-1".toList) ∉ t then
      [("/var/stage/lfsd/p-1/pkgroot/usr/bin/old".toList, true)]
    else []
  list := fun _ _ => []
  clock := fun _ => "20240101-000000".toList
  rand := fun i => i
  hashOrder := fun l => l

/-! ## Theorems -/

theorem UMap.mem_touch_keys {V : Type} (m : UMap V) (k x : Str) :
    x ∈ (m.touch k).keys ↔ x ∈ m.keys ∨ x = k := by
  unfold UMap.touch
  split
  · constructor
    · exact Or.inl
    · rintro (h | rfl) <;> assumption
  · simp

theorem UMap.touch_keys_nodup {V : Type} (m : UMap V) (k : Str) (h : m.keys.Nodup) :
    (m.touch k).keys.Nodup := by
  unfold UMap.touch
  split
  · exact h
  · rw [List.nodup_append]
    refine ⟨h, by simp, ?_⟩
    intro a ha hb
    simp at hb
    subst hb
    contradiction

theorem UMap.touch_keys_of_mem {V : Type} (m : UMap V) (k : Str) (h : k ∈ m.keys) :
    (m.touch k).keys = m.keys := by
  unfold UMap.touch
  rw [if_pos h]

theorem UMap.touch_val {V : Type} (m : UMap V) (k : Str) : (m.touch k).val = m.val := by
  unfold UMap.touch
  split <;> rfl

theorem addDep_keys (pkg d : Str) (g : Graph) (hp : pkg ∈ g.1.keys) (x : Str) :
    x ∈ (addDep pkg g d).1.keys ↔ x ∈ g.1.keys ∨ x = d := by
  unfold addDep
  simp only [UMap.count, UMap.set, UMap.touch_keys_of_mem g.1 pkg hp]
  split
  · rename_i h
    simp at h
    constructor
    · exact Or.inl
    · rintro (h1 | rfl) <;> assumption
  · exact UMap.mem_touch_keys _ _ _

theorem addDep_nodup (pkg d : Str) (g : Graph) (hp : pkg ∈ g.1.keys) (hn : g.1.keys.Nodup) :
    (addDep pkg g d).1.keys.Nodup := by
  unfold addDep
  simp only [UMap.count, UMap.set, UMap.touch_keys_of_mem g.1 pkg hp]
  split
  · exact hn
  · exact UMap.touch_keys_nodup ⟨g.1.keys, _⟩ d hn

theorem addDep_indeg (pkg d : Str) (g : Graph) (hp : pkg ∈ g.1.keys)
    (hz : ∀ x, x ∉ g.1.keys → g.1.val x = 0) (v : Str) :
    (addDep pkg g d).1.val v = g.1.val v + (if pkg = v then 1 else 0) := by
  unfold addDep
  simp only [UMap.count, UMap.set, UMap.touch_keys_of_mem g.1 pkg hp]
  split
  · by_cases hpv : pkg = v
    · subst hpv; simp
    · simp [hpv, Function.update_noteq (Ne.symm hpv)]
  · rename_i h
    simp at h
    have hdp : d ≠ pkg := fun e => h (e ▸ hp)
    by_cases hdv : v = d
    · subst hdv
      simp [hz v h, Ne.symm hdp]
    · by_cases hpv : pkg = v
      · subst hpv; simp [Function.update_noteq hdv]
      · simp [hpv, Function.update_noteq hdv, Function.update_noteq (Ne.symm hpv)]

theorem addDep_adj (pkg d : Str) (g : Graph) (u : Str) :
    (addDep pkg g d).2.val u = g.2.val u ++ (if d = u then [pkg] else []) := by
  unfold addDep
  simp only [UMap.set]
  by_cases hdu : d = u
  · subst hdu; simp
  · simp [hdu, Function.update_noteq (Ne.symm hdu)]

theorem foldl_addDep_spec (pkg : Str) (ds : List Str) (g : Graph) (hp : pkg ∈ g.1.keys)
    (hn : g.1.keys.Nodup) (hz : ∀ x, x ∉ g.1.keys → g.1.val x = 0) :
    (∀ v, (ds.foldl (addDep pkg) g).1.val v
        = g.1.val v + ((ds.map (fun d => (d, pkg))).countP (fun e => decide (e.2 = v)) : Nat)) ∧
    (∀ u, (ds.foldl (addDep pkg) g).2.val u
        = g.2.val u ++ ((ds.map (fun d => (d, pkg))).filter (fun e => decide (e.1 = u))).map Prod.snd) ∧
    (∀ x, x ∈ (ds.foldl (addDep pkg) g).1.keys ↔ x ∈ g.1.keys ∨ x ∈ ds) ∧
    (ds.foldl (addDep pkg) g).1.keys.Nodup := by
  induction ds generalizing g with
  | nil => simp [hn]
  | cons d ds ih =>
    have hk1 := addDep_keys pkg d g hp
    have hz1 : ∀ x, x ∉ (addDep pkg g d).1.keys → (addDep pkg g d).1.val x = 0 := by
      intro x hx
      rw [hk1] at hx
      push_neg at hx
      rw [addDep_indeg pkg d g hp hz, hz x hx.1, if_neg (fun e : pkg = x => hx.1 (e ▸ hp))]
      rfl
    obtain ⟨h1, h2, h3, h4⟩ := ih (addDep pkg g d) ((hk1 pkg).2 (Or.inl hp))
      (addDep_nodup pkg d g hp hn) hz1
    refine ⟨?_, ?_, ?_, ?_⟩
    · intro v
      rw [List.foldl_cons, h1 v, addDep_indeg pkg d g hp hz]
      by_cases hpv : pkg = v
      · simp [hpv, List.countP_cons]; ring
      · simp [hpv, List.countP_cons]
    · intro u
      rw [List.foldl_cons, h2 u, addDep_adj]
      by_cases hdu : d = u
      · simp [hdu, List.filter_cons]
      · simp [hdu, List.filter_cons]
    · intro x
      rw [List.foldl_cons, h3 x, hk1 x]
      simp only [List.mem_cons]
      tauto
    · exact h4

theorem edges_cons (kv : Str × List Str) (deps : List (Str × List Str)) :
    edges (kv :: deps) = kv.2.map (fun d => (d, kv.1)) ++ edges deps := by
  simp [edges]

theorem isNode_cons (kv : Str × List Str) (deps : List (Str × List Str)) (x : Str) :
    IsNode (kv :: deps) x ↔ x = kv.1 ∨ x ∈ kv.2 ∨ IsNode deps x := by
  obtain ⟨p, ds⟩ := kv
  unfold IsNode
  simp only [List.mem_cons, Prod.mk.injEq]
  constructor
  · rintro (⟨ds1, (⟨rfl, rfl⟩ | h)⟩ | ⟨p1, ds1, (⟨rfl, rfl⟩ | h), hx⟩)
    · exact Or.inl rfl
    · exact Or.inr (Or.inr (Or.inl ⟨ds1, h⟩))
    · exact Or.inr (Or.inl hx)
    · exact Or.inr (Or.inr (Or.inr ⟨p1, ds1, h, hx⟩))
  · rintro (rfl | h | ⟨ds1, h⟩ | ⟨p1, ds1, h, hx⟩)
    · exact Or.inl ⟨ds, Or.inl ⟨rfl, rfl⟩⟩
    · exact Or.inr ⟨p, ds, Or.inl ⟨rfl, rfl⟩, h⟩
    · exact Or.inl ⟨ds1, Or.inr h⟩
    · exact Or.inr ⟨p1, ds1, Or.inr h, hx⟩

theorem foldl_addPkg_spec (deps : List (Str × List Str)) (g : Graph)
    (hn : g.1.keys.Nodup) (hz : ∀ x, x ∉ g.1.keys → g.1.val x = 0) :
    (∀ v, (deps.foldl addPkg g).1.val v
        = g.1.val v + ((edges deps).countP (fun e => decide (e.2 = v)) : Nat)) ∧
    (∀ u, (deps.foldl addPkg g).2.val u
        = g.2.val u ++ ((edges deps).filter (fun e => decide (e.1 = u))).map Prod.snd) ∧
    (∀ x, x ∈ (deps.foldl addPkg g).1.keys ↔ x ∈ g.1.keys ∨ IsNode deps x) ∧
    (deps.foldl addPkg g).1.keys.Nodup := by
  induction deps generalizing g with
  | nil => simp [hn, edges, IsNode]
  | cons kv deps ih =>
    -- the state after `if(!indeg.count(pkg)) indeg[pkg]=0;`
    let g0 : Graph := (if g.1.count kv.1 then g.1 else g.1.set kv.1 0, g.2)
    have hg0k : ∀ x, x ∈ g0.1.keys ↔ x ∈ g.1.keys ∨ x = kv.1 := by
      intro x
      simp only [g0, UMap.count]
      split
      · rename_i h
        simp at h
        constructor
        · exact Or.inl
        · rintro (h1 | rfl) <;> assumption
      · exact UMap.mem_touch_keys _ _ _
    have hg0n : g0.1.keys.Nodup := by
      simp only [g0, UMap.count]
      split
      · exact hn
      · exact UMap.touch_keys_nodup _ _ hn
    have hg0v : ∀ v, g0.1.val v = g.1.val v := by
      intro v
      simp only [g0, UMap.count]
      split
      · rfl
      · rename_i h
        simp at h
        simp only [UMap.set]
        by_cases hv : v = kv.1
        · subst hv; simp [hz _ h]
        · simp [Function.update_noteq hv]
    have hg0z : ∀ x, x ∉ g0.1.keys → g0.1.val x = 0 := by
      intro x hx
      rw [hg0k] at hx
      push_neg at hx
      rw [hg0v, hz x hx.1]
    obtain ⟨a1, a2, a3, a4⟩ := foldl_addDep_spec kv.1 kv.2 g0 ((hg0k _).2 (Or.inr rfl)) hg0n hg0z
    have hz1 : ∀ x, x ∉ (addPkg g kv).1.keys → (addPkg g kv).1.val x = 0 := by
      intro x hx
      have hx1 : x ∉ (kv.2.foldl (addDep kv.1) g0).1.keys := hx
      rw [a3, hg0k] at hx1
      push_neg at hx1
      show (kv.2.foldl (addDep kv.1) g0).1.val x = 0
      rw [a1, hg0v, hz x hx1.1.1]
      have : ∀ e ∈ kv.2.map (fun d => (d, kv.1)), ¬ (decide (e.2 = x) = true) := by
        intro e he
        simp at he
        obtain ⟨d, _, rfl⟩ := he
        simpa using Ne.symm hx1.1.2
      simp [List.countP_eq_zero.2 this]
    obtain ⟨h1, h2, h3, h4⟩ := ih (addPkg g kv) a4 hz1
    refine ⟨?_, ?_, ?_, h4⟩
    · intro v
      rw [List.foldl_cons, h1 v, edges_cons, List.countP_append]
      show (kv.2.foldl (addDep kv.1) g0).1.val v + _ = _
      rw [a1, hg0v]
      push_cast
      ring
    · intro u
      rw [List.foldl_cons, h2 u, edges_cons, List.filter_append, List.map_append]
      show (kv.2.foldl (addDep kv.1) g0).2.val u ++ _ = _
      rw [a2]
      simp [g0]
    · intro x
      rw [List.foldl_cons, h3 x, isNode_cons]
      have : x ∈ (addPkg g kv).1.keys ↔ x ∈ (kv.2.foldl (addDep kv.1) g0).1.keys := Iff.rfl
      rw [this, a3, hg0k]
      tauto

theorem buildGraph_spec (deps : List (Str × List Str)) :
    (∀ v, (buildGraph deps).1.val v = ((edges deps).countP (fun e => decide (e.2 = v)) : Nat)) ∧
    (∀ u, (buildGraph deps).2.val u = successors deps u) ∧
    (∀ x, x ∈ (buildGraph deps).1.keys ↔ IsNode deps x) ∧
    (buildGraph deps).1.keys.Nodup := by
  obtain ⟨h1, h2, h3, h4⟩ := foldl_addPkg_spec deps (UMap.empty 0, UMap.empty [])
    (by simp [UMap.empty]) (by simp [UMap.empty])
  refine ⟨?_, ?_, ?_, h4⟩
  · intro v; rw [buildGraph, h1]; simp [UMap.empty]
  · intro u; rw [buildGraph, h2]; simp [UMap.empty, successors]
  · intro x; rw [buildGraph, h3]; simp [UMap.empty]

theorem edge_isNode (deps : List (Str × List Str)) (e : Str × Str) (he : e ∈ edges deps) :
    DepEdge deps e.1 e.2 ∧ IsNode deps e.1 ∧ IsNode deps e.2 := by
  simp only [edges, List.mem_flatMap, List.mem_map] at he
  obtain ⟨kv, hkv, d, hd, rfl⟩ := he
  exact ⟨⟨kv.2, hkv, hd⟩, Or.inr ⟨kv.1, kv.2, hkv, hd⟩, Or.inl ⟨kv.2, hkv⟩⟩

theorem depEdge_mem_edges (deps : List (Str × List Str)) (d p : Str) (h : DepEdge deps d p) :
    (d, p) ∈ edges deps := by
  obtain ⟨ds, h1, h2⟩ := h
  simp only [edges, List.mem_flatMap, List.mem_map]
  exact ⟨(p, ds), h1, d, h2, rfl⟩

theorem foldl_relax_spec (vs q : List Str) (indeg : UMap Int)
    (hk : ∀ v ∈ vs, v ∈ indeg.keys) (hc : ∀ w, (vs.count w : Int) ≤ indeg.val w) :
    (vs.foldl relax (q, indeg)).2.keys = indeg.keys ∧
    (∀ w, (vs.foldl relax (q, indeg)).2.val w = indeg.val w - (vs.count w : Int)) ∧
    ∃ pushed, (vs.foldl relax (q, indeg)).1 = q ++ pushed ∧ pushed.Nodup ∧
      ∀ w, w ∈ pushed ↔ (w ∈ vs ∧ indeg.val w = (vs.count w : Int)) := by
  induction vs generalizing q indeg with
  | nil => exact ⟨rfl, by simp, [], by simp, by simp, by simp⟩
  | cons v vs ih =>
    have hv : v ∈ indeg.keys := hk v (List.mem_cons_self _ _)
    let indeg1 : UMap Int := indeg.set v (indeg.val v - 1)
    have hk1 : indeg1.keys = indeg.keys := UMap.touch_keys_of_mem indeg v hv
    have hv1 : ∀ w, indeg1.val w = if w = v then indeg.val v - 1 else indeg.val w := by
      intro w
      simp only [indeg1, UMap.set]
      by_cases hw : w = v
      · subst hw; simp
      · simp [hw, Function.update_noteq hw]
    have hc1 : ∀ w, (vs.count w : Int) ≤ indeg1.val w := by
      intro w
      have := hc w
      rw [hv1]
      by_cases hw : w = v
      · subst hw
        simp only [List.count_cons_self] at this
        simp only [if_true]
        push_cast at this
        omega
      · rw [List.count_cons_of_ne hw] at this
        simpa [hw] using this
    have hkk : ∀ x ∈ vs, x ∈ indeg1.keys := fun x hx => hk1 ▸ hk x (List.mem_cons_of_mem _ hx)
    have hstep : relax (q, indeg) v
        = (if indeg.val v - 1 = 0 then q ++ [v] else q, indeg1) := by
      simp only [relax, UMap.set, Function.update_same]
      split <;> rfl
    rw [List.foldl_cons, hstep]
    obtain ⟨i1, i2, pushed, i3, i4, i5⟩ := ih (if indeg.val v - 1 = 0 then q ++ [v] else q) indeg1 hkk hc1
    refine ⟨i1.trans hk1, ?_, ?_⟩
    · intro w
      rw [i2, hv1]
      by_cases hw : w = v
      · subst hw; simp only [List.count_cons_self, if_true]; push_cast; ring
      · rw [List.count_cons_of_ne hw]; simp [hw]
    · have hcv := hc v
      simp only [List.count_cons_self] at hcv
      push_cast at hcv
      have key : ∀ w, w ∈ pushed ↔ (w ∈ vs ∧ (if w = v then indeg.val v - 1 else indeg.val w)
          = (vs.count w : Int)) := by
        intro w; rw [i5, hv1]
      by_cases h0 : indeg.val v - 1 = 0
      · have hcnt : vs.count v = 0 := by omega
        have hvn : v ∉ vs := List.count_eq_zero.1 hcnt
        refine ⟨v :: pushed, by rw [i3, if_pos h0]; simp, ?_, ?_⟩
        · refine List.nodup_cons.2 ⟨?_, i4⟩
          intro hm
          exact hvn ((key v).1 hm).1
        · intro w
          rw [List.mem_cons, key]
          by_cases hw : w = v
          · subst hw
            simp only [List.count_cons_self, if_true, List.mem_cons, true_or, true_and]
            constructor
            · intro _; push_cast; omega
            · intro _; trivial
          · rw [List.count_cons_of_ne hw]
            simp [hw]
      · refine ⟨pushed, by rw [i3, if_neg h0], i4, ?_⟩
        intro w
        rw [key]
        by_cases hw : w = v
        · subst hw
          simp only [List.count_cons_self, if_true, List.mem_cons, true_or, true_and]
          constructor
          · rintro ⟨_, h⟩; push_cast; omega
          · intro h
            push_cast at h
            have h2 : vs.count w ≠ 0 := by omega
            exact ⟨List.count_pos_iff.1 (Nat.pos_of_ne_zero h2), by omega⟩
        · rw [List.count_cons_of_ne hw]
          simp [hw]

theorem countP_split_source (E : List (Str × Str)) (order : List Str) (u v : Str)
    (hu : u ∉ order) :
    E.countP (fun e => decide (e.2 = v) && decide (e.1 ∉ order))
      = E.countP (fun e => decide (e.2 = v) && decide (e.1 ∉ order ++ [u]))
        + ((E.filter (fun e => decide (e.1 = u))).map Prod.snd).count v := by
  induction E with
  | nil => simp
  | cons e E ih =>
    obtain ⟨a, b⟩ := e
    simp only [List.countP_cons, List.filter_cons, ih]
    by_cases hau : a = u
    · subst hau
      by_cases hbv : b = v
      · subst hbv; simp [hu]; omega
      · simp [hu, hbv, List.count_cons]
    · by_cases hbv : b = v
      · subst hbv
        by_cases hao : a ∈ order
        · simp [hau, hao]
        · simp [hau, hao]; omega
      · simp [hau, hbv]

theorem remaining_snoc (deps : List (Str × List Str)) (order : List Str) (u v : Str)
    (hu : u ∉ order) :
    remaining deps order v
      = remaining deps (order ++ [u]) v + (successors deps u).count v :=
  countP_split_source (edges deps) order u v hu

theorem remaining_eq_zero (deps : List (Str × List Str)) (order : List Str) (d v : Str)
    (h : remaining deps order v = 0) (he : DepEdge deps d v) : d ∈ order := by
  have h1 := List.countP_eq_zero.1 h (d, v) (depEdge_mem_edges deps d v he)
  simpa using h1

theorem remaining_ne_zero (deps : List (Str × List Str)) (order : List Str) (v : Str)
    (h : remaining deps order v ≠ 0) : ∃ d, DepEdge deps d v ∧ IsNode deps d ∧ d ∉ order := by
  have h1 : 0 < remaining deps order v := Nat.pos_of_ne_zero h
  obtain ⟨e, he, hp⟩ := List.countP_pos_iff.1 h1
  simp only [Bool.and_eq_true, decide_eq_true_eq] at hp
  obtain ⟨e1, e2, e3⟩ := edge_isNode deps e he
  exact ⟨e.1, hp.1 ▸ e1, e2, hp.2⟩

theorem mem_successors (deps : List (Str × List Str)) (u v : Str)
    (h : v ∈ successors deps u) : IsNode deps v := by
  simp only [successors, List.mem_map, List.mem_filter, decide_eq_true_eq] at h
  obtain ⟨e, ⟨he, _⟩, rfl⟩ := h
  exact (edge_isNode deps e he).2.2

theorem drainInv_length (deps : List (Str × List Str)) (q : List Str) (indeg : UMap Int)
    (order : List Str) (inv : DrainInv deps q indeg order) :
    (order ++ q).length ≤ (buildGraph deps).1.keys.length := by
  apply List.Subperm.length_le
  apply List.subperm_of_subset inv.nodup
  intro x hx
  exact ((buildGraph_spec deps).2.2.1 x).2 ((inv.zero x).1 hx).1

theorem drainInv_step (deps : List (Str × List Str)) (u : Str) (q : List Str)
    (indeg : UMap Int) (order : List Str) (inv : DrainInv deps (u :: q) indeg order) :
    DrainInv deps ((successors deps u).foldl relax (q, indeg)).1
      ((successors deps u).foldl relax (q, indeg)).2 (order ++ [u]) := by
  have hB := buildGraph_spec deps
  have hnd := inv.nodup
  have hu : u ∉ order := by
    intro h
    rw [List.nodup_append] at hnd
    exact hnd.2.2 h (List.mem_cons_self _ _)
  have hk : ∀ v ∈ successors deps u, v ∈ indeg.keys := by
    intro v hv
    rw [inv.keys]
    exact (hB.2.2.1 v).2 (mem_successors deps u v hv)
  have hc : ∀ w, ((successors deps u).count w : Int) ≤ indeg.val w := by
    intro w
    rw [inv.count, remaining_snoc deps order u w hu]
    push_cast
    omega
  obtain ⟨f1, f2, pushed, f3, f4, f5⟩ := foldl_relax_spec (successors deps u) q indeg hk hc
  have hcount : ∀ w, ((successors deps u).foldl relax (q, indeg)).2.val w
      = (remaining deps (order ++ [u]) w : Int) := by
    intro w
    rw [f2, inv.count, remaining_snoc deps order u w hu]
    push_cast
    ring
  have hzero0 : ∀ w, w ∈ order ++ u :: q → (successors deps u).count w = 0 := by
    intro w hw
    have h1 := ((inv.zero w).1 hw).2
    have h2 := hc w
    rw [h1] at h2
    omega
  refine ⟨f1.trans inv.keys, hcount, ?_, ?_, ?_⟩
  · intro v
    rw [f3, f2]
    have e1 : v ∈ order ++ [u] ++ (q ++ pushed) ↔ v ∈ order ++ u :: q ∨ v ∈ pushed := by
      simp only [List.mem_append, List.mem_cons, List.mem_singleton, List.not_mem_nil]
      tauto
    rw [e1, inv.zero, f5]
    constructor
    · rintro (⟨h1, h2⟩ | ⟨h1, h2⟩)
      · have := hzero0 v ((inv.zero v).2 ⟨h1, h2⟩)
        exact ⟨h1, by rw [h2, this]; simp⟩
      · exact ⟨mem_successors deps u v h1, by rw [h2]; simp⟩
    · rintro ⟨h1, h2⟩
      by_cases h0 : (successors deps u).count v = 0
      · left
        exact ⟨h1, by rw [h0] at h2; simpa using h2⟩
      · right
        exact ⟨List.count_pos_iff.1 (Nat.pos_of_ne_zero h0), by omega⟩
  · rw [f3]
    have e2 : order ++ [u] ++ (q ++ pushed) = (order ++ u :: q) ++ pushed := by simp
    rw [e2, List.nodup_append]
    refine ⟨hnd, f4, ?_⟩
    intro a ha hb
    have h1 := hzero0 a ha
    exact List.count_eq_zero.1 h1 ((f5 a).1 hb).1
  · intro d p hdp hp
    rw [List.mem_append, List.mem_singleton] at hp
    rcases hp with hp | rfl
    · obtain ⟨l1, l2, b1, b2⟩ := inv.before d p hdp hp
      exact ⟨l1, l2 ++ [u], by rw [b1]; simp, b2⟩
    · have h0 : indeg.val p = 0 := ((inv.zero p).1 (by simp)).2
      rw [inv.count] at h0
      have hd : d ∈ order := remaining_eq_zero deps order d p (by exact_mod_cast h0) hdp
      exact ⟨order, [], rfl, hd⟩

theorem drain_spec (deps : List (Str × List Str)) (fuel : Nat) (adj : UMap (List Str))
    (q : List Str) (indeg : UMap Int) (order : List Str)
    (hadj : adj.val = successors deps) (inv : DrainInv deps q indeg order)
    (hfuel : (buildGraph deps).1.keys.length < fuel + order.length) :
    ∃ indeg1 order1, drain fuel adj q indeg order = some (indeg1, order1) ∧
      DrainInv deps [] indeg1 order1 := by
  induction fuel generalizing adj q indeg order with
  | zero =>
    have := drainInv_length deps q indeg order inv
    simp only [List.length_append] at this
    omega
  | succ fuel ih =>
    cases q with
    | nil => exact ⟨indeg, order, rfl, inv⟩
    | cons u q =>
      have hlen := drainInv_length deps (u :: q) indeg order inv
      simp only [List.length_append, List.length_cons] at hlen
      have hstep := drainInv_step deps u q indeg order inv
      simp only [drain, hadj]
      apply ih
      · rw [UMap.touch_val, hadj]
      · exact hstep
      · simp only [List.length_append, List.length_singleton]
        omega

theorem drainInv_init (deps : List (Str × List Str)) (iter : List Str)
    (hnd : iter.Nodup) (hmem : ∀ n, n ∈ iter ↔ IsNode deps n) :
    DrainInv deps (iter.filter (fun k => decide ((buildGraph deps).1.val k = 0)))
      (buildGraph deps).1 [] := by
  have hB := buildGraph_spec deps
  refine ⟨rfl, ?_, ?_, ?_, ?_⟩
  · intro v
    rw [hB.1 v]
    simp [remaining]
  · intro v
    simp only [List.nil_append, List.mem_filter, decide_eq_true_eq, hmem]
  · simpa using hnd.filter _
  · intro d p _ hp
    simp at hp

theorem topo_sort_drain (deps : List (Str × List Str)) (iter : List Str)
    (hnd : iter.Nodup) (hmem : ∀ n, n ∈ iter ↔ IsNode deps n) :
    ∃ indeg order,
      drain ((buildGraph deps).1.keys.length + 1) (buildGraph deps).2
        (iter.filter (fun k => decide ((buildGraph deps).1.val k = 0)))
        (buildGraph deps).1 [] = some (indeg, order) ∧
      DrainInv deps [] indeg order := by
  apply drain_spec deps _ _ _ _ _ _ (drainInv_init deps iter hnd hmem)
  · simp
  · funext u
    exact (buildGraph_spec deps).2.1 u

theorem drainInv_final_nodes (deps : List (Str × List Str)) (indeg : UMap Int)
    (order : List Str) (inv : DrainInv deps [] indeg order)
    (hlen : order.length = indeg.keys.length) (n : Str) : n ∈ order ↔ IsNode deps n := by
  have hB := buildGraph_spec deps
  have hnd : order.Nodup := by simpa using inv.nodup
  constructor
  · intro h
    exact ((inv.zero n).1 (by simpa using h)).1
  · intro h
    have hsub : order ⊆ (buildGraph deps).1.keys := by
      intro x hx
      exact (hB.2.2.1 x).2 ((inv.zero x).1 (by simpa using hx)).1
    have hperm : order.Perm (buildGraph deps).1.keys :=
      (List.subperm_of_subset hnd hsub).perm_of_length_le (by rw [hlen, inv.keys])
    exact hperm.mem_iff.2 ((hB.2.2.1 n).2 h)

theorem occursBefore_transGen (deps : List (Str × List Str)) (l : List Str) (hnd : l.Nodup)
    (hall : ∀ n, IsNode deps n → n ∈ l)
    (hb : ∀ d p, DepEdge deps d p → p ∈ l → OccursBefore l d p)
    (a b : Str) (h : Relation.TransGen (DepEdge deps) a b) : OccursBefore l a b := by
  have hnode : ∀ d p, DepEdge deps d p → p ∈ l := by
    intro d p hdp
    obtain ⟨ds, h1, _⟩ := hdp
    exact hall p (Or.inl ⟨ds, h1⟩)
  induction h with
  | single hab => exact hb _ _ hab (hnode _ _ hab)
  | tail hac hcb ih =>
    rename_i c b
    obtain ⟨l1, l2, e1, hc⟩ := hb _ _ hcb (hnode _ _ hcb)
    obtain ⟨m1, m2, e2, ha⟩ := ih
    obtain ⟨x, y, rfl⟩ := List.append_of_mem hc
    refine ⟨x ++ c :: y, l2, e1, ?_⟩
    have hnd2 : (m1 ++ c :: m2).Nodup := e2 ▸ hnd
    have hc1 : c ∉ m1 := by
      intro hm
      rw [List.nodup_append] at hnd2
      exact hnd2.2.2 hm (List.mem_cons_self _ _)
    have hc2 : c ∉ m2 := by
      intro hm
      rw [List.nodup_append] at hnd2
      exact (List.nodup_cons.1 hnd2.2.1).1 hm
    have e3 : m1 ++ c :: m2 = x ++ c :: (y ++ b :: l2) := by
      rw [← e2, e1]; simp
    have := (List.append_cons_inj_of_not_mem hc1 hc2).1 e3
    rw [← this.1]
    exact List.mem_append_left _ ha

theorem not_occursBefore_self (l : List Str) (hnd : l.Nodup) (a : Str) : ¬ OccursBefore l a a := by
  rintro ⟨l1, l2, e, h⟩
  rw [e, List.nodup_append] at hnd
  exact hnd.2.2 h (List.mem_cons_self _ _)

theorem drainInv_final_complete (deps : List (Str × List Str)) (indeg : UMap Int)
    (order : List Str) (inv : DrainInv deps [] indeg order) (hac : Acyclic deps) :
    order.length = indeg.keys.length := by
  have hB := buildGraph_spec deps
  have hnd : order.Nodup := by simpa using inv.nodup
  -- every node has been emitted
  have hall : ∀ n, IsNode deps n → n ∈ order := by
    by_contra hne
    push_neg at hne
    obtain ⟨n0, hn0, hn0o⟩ := hne
    let S : Set Str := {n | IsNode deps n ∧ n ∉ order}
    have hfin : S.Finite := by
      apply Set.Finite.subset (List.finite_toSet (buildGraph deps).1.keys)
      intro x hx
      exact (hB.2.2.1 x).2 hx.1
    haveI : IsStrictOrder Str (Relation.TransGen (DepEdge deps)) :=
      { irrefl := hac, trans := fun _ _ _ => Relation.TransGen.trans }
    have hwf : S.WellFoundedOn (Relation.TransGen (DepEdge deps)) := hfin.wellFoundedOn
    have hn0S : n0 ∈ S := ⟨hn0, hn0o⟩
    refine hwf.induction hn0S (P := fun _ => False) ?_
    intro y hy hmin
    have hy0 : indeg.val y ≠ 0 := by
      intro h0
      exact hy.2 (by simpa using (inv.zero y).2 ⟨hy.1, h0⟩)
    rw [inv.count] at hy0
    obtain ⟨d, hd1, hd2, hd3⟩ := remaining_ne_zero deps order y (by exact_mod_cast hy0)
    exact hmin d ⟨hd2, hd3⟩ (Relation.TransGen.single hd1)
  have hsub : order ⊆ (buildGraph deps).1.keys := by
    intro x hx
    exact (hB.2.2.1 x).2 ((inv.zero x).1 (by simpa using hx)).1
  have hsub2 : (buildGraph deps).1.keys ⊆ order := by
    intro x hx
    exact hall x ((hB.2.2.1 x).1 hx)
  rw [inv.keys]
  exact Nat.le_antisymm (List.subperm_of_subset hnd hsub).length_le
    (List.subperm_of_subset hB.2.2.2 hsub2).length_le

theorem acyclic_of_rank (deps : List (Str × List Str)) (r : Str → Nat)
    (h : ∀ d p, DepEdge deps d p → r d < r p) : Acyclic deps := by
  have key : ∀ a b, Relation.TransGen (DepEdge deps) a b → r a < r b := by
    intro a b hab
    induction hab with
    | single h1 => exact h _ _ h1
    | tail _ h2 ih => exact lt_trans ih (h _ _ h2)
  intro n hn
  exact lt_irrefl _ (key n n hn)

theorem topo_sort_of_acyclic (deps : List (Str × List Str)) (iter : List Str)
    (hnd : iter.Nodup) (hmem : ∀ n, n ∈ iter ↔ IsNode deps n) (hac : Acyclic deps) :
    ∃ l, topo_sort deps iter = some (TopoResult.ok l) ∧ l.Nodup ∧
      (∀ n, n ∈ l ↔ IsNode deps n) ∧
      (∀ d p, DepEdge deps d p → OccursBefore l d p) := by
  obtain ⟨indeg, order, hd, inv⟩ := topo_sort_drain deps iter hnd hmem
  have hlen := drainInv_final_complete deps indeg order inv hac
  have hnodes := drainInv_final_nodes deps indeg order inv hlen
  refine ⟨order, ?_, by simpa using inv.nodup, hnodes, ?_⟩
  · simp only [topo_sort, hd, hlen, ne_eq, not_true_eq_false, if_false]
  · intro d p hdp
    obtain ⟨ds, h1, _⟩ := hdp
    exact inv.before d p ⟨ds, h1, by assumption⟩ ((hnodes p).2 (Or.inl ⟨ds, h1⟩))

/-- C1: for a dependency map without a cycle, whatever the order `deps` in which the
first loop visits the map and whatever the order `iter` in which the keys of `indeg`
are visited, `topo_sort` returns a list; every node (key or name in a `depends`
list) occurs in it exactly once, and every dependency of a package occurs at an
earlier position than the package. -/
theorem topo_sort_acyclic (deps : List (Str × List Str)) (iter : List Str)
    (hnd : iter.Nodup) (hmem : ∀ n, n ∈ iter ↔ IsNode deps n) (hac : Acyclic deps) :
    ∃ l, topo_sort deps iter = some (TopoResult.ok l) ∧ l.Nodup ∧
      (∀ n, n ∈ l ↔ IsNode deps n) ∧
      (∀ d p, DepEdge deps d p → OccursBefore l d p) := by
  obtain ⟨indeg, order, hd, inv⟩ := topo_sort_drain deps iter hnd hmem
  have hlen := drainInv_final_complete deps indeg order inv hac
  have hnodes := drainInv_final_nodes deps indeg order inv hlen
  refine ⟨order, ?_, by simpa using inv.nodup, hnodes, ?_⟩
  · simp only [topo_sort, hd, hlen, ne_eq, not_true_eq_false, if_false]
  · intro d p hdp
    obtain ⟨ds, h1, _⟩ := hdp
    exact inv.before d p ⟨ds, h1, by assumption⟩ ((hnodes p).2 (Or.inl ⟨ds, h1⟩))

/-- C1, at the map `b -> [a]` with `indeg` visited in the order `b, a`. -/
theorem topo_sort_acyclic_witness :
    Acyclic [("b".toList, ["a".toList])] ∧
    ∃ l, topo_sort [("b".toList, ["a".toList])] ["b".toList, "a".toList]
        = some (TopoResult.ok l) ∧ l.Nodup ∧
      (∀ n, n ∈ l ↔ IsNode [("b".toList, ["a".toList])] n) ∧
      (∀ d p, DepEdge [("b".toList, ["a".toList])] d p → OccursBefore l d p) := by
  have hac : Acyclic [("b".toList, ["a".toList])] := by
    apply acyclic_of_rank _ (fun s => if s = "b".toList then 1 else 0)
    rintro d p ⟨ds, h1, h2⟩
    simp only [List.mem_singleton, Prod.mk.injEq] at h1
    obtain ⟨rfl, rfl⟩ := h1
    simp only [List.mem_singleton] at h2
    subst h2
    decide
  refine ⟨hac, topo_sort_acyclic _ _ (by decide) ?_ hac⟩
  intro n
  simp only [IsNode, List.mem_cons, List.mem_singleton, Prod.mk.injEq, List.not_mem_nil, or_false]
  constructor
  · rintro (rfl | rfl)
    · exact Or.inl ⟨_, rfl, rfl⟩
    · exact Or.inr ⟨_, _, ⟨rfl, rfl⟩, List.mem_singleton.2 rfl⟩
  · rintro (⟨ds, rfl, _⟩ | ⟨p, ds, ⟨rfl, rfl⟩, h⟩)
    · exact Or.inl rfl
    · exact Or.inr (by simpa using h)

/-- C2: for a dependency map with a cycle (a package that lists itself included),
`topo_sort` does not return an order: the loop ends with fewer emitted nodes than
`indeg` has keys, and the `runtime_error` is thrown. -/
theorem topo_sort_cycle (deps : List (Str × List Str)) (iter : List Str)
    (hnd : iter.Nodup) (hmem : ∀ n, n ∈ iter ↔ IsNode deps n)
    (hcyc : ∃ n, Relation.TransGen (DepEdge deps) n n) :
    topo_sort deps iter = some (TopoResult.error cycleError) ∧
    ∃ indeg order,
      drain ((buildGraph deps).1.keys.length + 1) (buildGraph deps).2
        (iter.filter (fun k => decide ((buildGraph deps).1.val k = 0)))
        (buildGraph deps).1 [] = some (indeg, order) ∧
      order.length < indeg.keys.length := by
  obtain ⟨indeg, order, hd, inv⟩ := topo_sort_drain deps iter hnd hmem
  have hB := buildGraph_spec deps
  have hndo : order.Nodup := by simpa using inv.nodup
  have hle : order.length ≤ indeg.keys.length := by
    have := drainInv_length deps [] indeg order inv
    rw [inv.keys]
    simpa using this
  have hne : order.length ≠ indeg.keys.length := by
    intro hlen
    have hnodes := drainInv_final_nodes deps indeg order inv hlen
    obtain ⟨n, hn⟩ := hcyc
    exact not_occursBefore_self order hndo n
      (occursBefore_transGen deps order hndo (fun m hm => (hnodes m).2 hm) inv.before n n hn)
  refine ⟨?_, indeg, order, hd, lt_of_le_of_ne hle hne⟩
  simp only [topo_sort, hd, ne_eq, hne, not_false_eq_true, if_true]

/-- C2, at the map `x -> [y], y -> [x]`. -/
theorem topo_sort_cycle_witness :
    topo_sort [("x".toList, ["y".toList]), ("y".toList, ["x".toList])]
      ["x".toList, "y".toList] = some (TopoResult.error cycleError) :=
  (topo_sort_cycle [("x".toList, ["y".toList]), ("y".toList, ["x".toList])]
    ["x".toList, "y".toList] (by decide)
    (by
      intro n
      simp only [IsNode, List.mem_cons, List.mem_singleton, Prod.mk.injEq, List.not_mem_nil,
        or_false]
      constructor
      · rintro (rfl | rfl)
        · exact Or.inl ⟨_, Or.inl ⟨rfl, rfl⟩⟩
        · exact Or.inl ⟨_, Or.inr ⟨rfl, rfl⟩⟩
      · rintro (⟨ds, (⟨rfl, _⟩ | ⟨rfl, _⟩)⟩ | ⟨p, ds, (⟨rfl, rfl⟩ | ⟨rfl, rfl⟩), h⟩)
        · exact Or.inl rfl
        · exact Or.inr rfl
        · exact Or.inr (by simpa using h)
        · exact Or.inl (by simpa using h))
    ⟨"x".toList, Relation.TransGen.tail
      (Relation.TransGen.single
        (show DepEdge _ "x".toList "y".toList from ⟨["x".toList], by simp, by simp⟩))
      (show DepEdge _ "y".toList "x".toList from ⟨["y".toList], by simp, by simp⟩)⟩).1

/-! ### Removal -/

theorem find_recipes_name (env : Env) (nd : Str) (w : World) (root : Str) (n : Str)
    (hn : n ∈ (find_recipes env nd w root).keys) :
    (load_recipe_toml env nd w ((find_recipes env nd w root).val n)).name = n := by
  have key : ∀ (l : List (Str × Bool)) (out : UMap Str),
      (∀ n ∈ out.keys, (load_recipe_toml env nd w (out.val n)).name = n) →
      ∀ n ∈ (l.foldl
        (fun out e =>
          if filename e.1 = "recipe.toml".toList then
            if (load_recipe_toml env nd w e.1).name ≠ [] then
              out.set (load_recipe_toml env nd w e.1).name e.1
            else out
          else out) out).keys,
        (load_recipe_toml env nd w ((l.foldl
        (fun out e =>
          if filename e.1 = "recipe.toml".toList then
            if (load_recipe_toml env nd w e.1).name ≠ [] then
              out.set (load_recipe_toml env nd w e.1).name e.1
            else out
          else out) out).val n)).name = n := by
    intro l
    induction l with
    | nil => intro out h; exact h
    | cons e l ih =>
      intro out h
      rw [List.foldl_cons]
      apply ih
      split
      · split
        · intro m hm
          simp only [UMap.set] at hm ⊢
          by_cases hme : m = (load_recipe_toml env nd w e.1).name
          · rw [hme, Function.update_same]
          · rw [Function.update_noteq hme]
            rcases (UMap.mem_touch_keys _ _ _).1 hm with h1 | h1
            · exact h m h1
            · exact absurd h1 hme
        · exact h
      · exact h
  exact key _ _ (by simp [UMap.empty]) n hn

theorem recipeDeps_val (env : Env) (nd : Str) (w : World) (recs : UMap Str)
    (horder : ∀ l, (env.hashOrder l).Perm l)
    (hname : ∀ n ∈ recs.keys, (load_recipe_toml env nd w (recs.val n)).name = n)
    (q : Str) (hq : q ∈ recs.keys) :
    (recipeDeps env nd w recs).val q = (load_recipe_toml env nd w (recs.val q)).depends := by
  have key : ∀ (ks : List Str) (deps : UMap (List Str)),
      (∀ k ∈ ks, (load_recipe_toml env nd w (recs.val k)).name = k) → q ∈ ks →
      ((ks.map (fun k => (k, recs.val k))).foldl
        (fun deps kv =>
          deps.set (load_recipe_toml env nd w kv.2).name
            (load_recipe_toml env nd w kv.2).depends) deps).val q
        = (load_recipe_toml env nd w (recs.val q)).depends := by
    intro ks
    induction ks with
    | nil => intro _ _ h; simp at h
    | cons k ks ih =>
      intro deps hk hmem
      rw [List.map_cons, List.foldl_cons]
      by_cases hin : q ∈ ks
      · exact ih _ (fun x hx => hk x (List.mem_cons_of_mem _ hx)) hin
      · have hqk : q = k := by
          rcases List.mem_cons.1 hmem with h | h
          · exact h
          · exact absurd h hin
        subst hqk
        have side : ∀ (l : List Str) (d : UMap (List Str)),
            (∀ k ∈ l, (load_recipe_toml env nd w (recs.val k)).name = k) → q ∉ l →
            ((l.map (fun k => (k, recs.val k))).foldl
              (fun deps kv =>
                deps.set (load_recipe_toml env nd w kv.2).name
                  (load_recipe_toml env nd w kv.2).depends) d).val q = d.val q := by
          intro l
          induction l with
          | nil => intro d _ _; rfl
          | cons x l ihl =>
            intro d hx hq
            rw [List.map_cons, List.foldl_cons,
              ihl _ (fun y hy => hx y (List.mem_cons_of_mem _ hy))
                (fun h => hq (List.mem_cons_of_mem _ h))]
            simp only [UMap.set]
            rw [hx x (List.mem_cons_self _ _)]
            exact Function.update_noteq (fun h : q = x => hq (by rw [h]; exact List.mem_cons_self _ _)) _ _
        rw [side ks _ (fun x hx => hk x (List.mem_cons_of_mem _ hx)) hin]
        simp only [UMap.set]
        rw [hk q (List.mem_cons_self _ _), Function.update_same]
  unfold recipeDeps UMap.visit
  apply key
  · intro k hk
    exact hname k ((horder recs.keys).mem_iff.1 hk)
  · exact (horder recs.keys).mem_iff.2 hq

theorem reverseDep_of_mem (deps : UMap (List Str)) (pkg : Str) (l : List (Str × InstalledInfo))
    (kv : Str × InstalledInfo) (hkv : kv ∈ l) (hne : kv.1 ≠ pkg) (hdep : pkg ∈ deps.val kv.1) :
    reverseDep deps pkg l = true := by
  induction l with
  | nil => simp at hkv
  | cons x l ih =>
    unfold reverseDep
    by_cases hx : x.1 = pkg
    · rw [if_pos hx]
      rcases List.mem_cons.1 hkv with h | h
      · exact absurd (h ▸ hx) hne
      · exact ih h
    · rw [if_neg hx]
      by_cases hany : (deps.val x.1).any (fun d => decide (d = pkg)) = true
      · rw [if_pos hany]
      · rw [if_neg hany]
        rcases List.mem_cons.1 hkv with h | h
        · exfalso
          apply hany
          rw [List.any_eq_true]
          exact ⟨pkg, h ▸ hdep, by simp⟩
        · exact ih h

/-- C3: when `P` is installed and another installed package `Q` has a recipe in the
store whose `depends` names `P`, `remove_package(P)` returns 2 and leaves the world
as it was: no command is run and no file is written, the registry included. -/
theorem remove_package_reverse_dep (env : Env) (nd : Str) (c : Config) (w : World)
    (P Q : Str) (horder : ∀ l, (env.hashOrder l).Perm l)
    (hP : P ∈ (load_installed env c w).keys)
    (hQ : Q ∈ (load_installed env c w).keys) (hne : Q ≠ P)
    (hrec : Q ∈ (find_recipes env nd w c.recipes_dir).keys)
    (hdep : P ∈ (load_recipe_toml env nd w
      ((find_recipes env nd w c.recipes_dir).val Q)).depends) :
    remove_package env nd P c w = (2, w) := by
  have hd := recipeDeps_val env nd w (find_recipes env nd w c.recipes_dir) horder
    (fun n hn => find_recipes_name env nd w c.recipes_dir n hn) Q hrec
  have hrev : reverseDep (recipeDeps env nd w (find_recipes env nd w c.recipes_dir)) P
      ((load_installed env c w).visit env) = true := by
    apply reverseDep_of_mem _ _ _ (Q, (load_installed env c w).val Q) _ hne
    · rw [hd]; exact hdep
    · unfold UMap.visit
      exact List.mem_map.2 ⟨Q, (horder _).mem_iff.2 hQ, rfl⟩
  have hcount : (load_installed env c w).count P = true := by
    simp [UMap.count, hP]
  simp only [remove_package, hcount, hrev, Bool.not_true, if_true, Bool.false_eq_true, if_false]

set_option maxRecDepth 1000000 in
/-- C3, at scenario S5: `a` and `b` installed, `b` depends on `a`, `remove a`. -/
theorem remove_package_reverse_dep_witness :
    remove_package sampleEnv [] "a".toList {} ⟨[], 0⟩ = (2, ⟨[], 0⟩) :=
  remove_package_reverse_dep sampleEnv [] {} ⟨[], 0⟩ "a".toList "b".toList
    (fun l => List.Perm.refl l) (by decide) (by decide) (by decide) (by decide) (by decide)

/-! ### Staged builder: failed builds -/

theorem quiet_refl (w : World) : Quiet w w := ⟨[], by simp, by simp⟩

theorem quiet_trans {w1 w2 w3 : World} (h1 : Quiet w1 w2) (h2 : Quiet w2 w3) : Quiet w1 w3 := by
  obtain ⟨e1, t1, n1⟩ := h1
  obtain ⟨e2, t2, n2⟩ := h2
  refine ⟨e1 ++ e2, by rw [t2, t1, List.append_assoc], ?_⟩
  intro p content hm
  rcases List.mem_append.1 hm with h | h
  · exact n1 p content h
  · exact n2 p content h

theorem quiet_rands (w : World) (n : Nat) : Quiet w { w with rands := n } :=
  ⟨[], by simp, by simp⟩

theorem quiet_run (env : Env) (cmd : Str) (w : World) : Quiet w (run env cmd w).2 :=
  ⟨[Event.system cmd], rfl, by simp⟩

theorem quiet_ensure_dir (env : Env) (p : Str) (w : World) : Quiet w (ensure_dir env p w) :=
  quiet_run env _ w

theorem quiet_sha256_file (env : Env) (p : Str) (w : World) :
    Quiet w (sha256_file env p w).2 := by
  unfold sha256_file
  split
  · exact ⟨[Event.popen _], rfl, by simp⟩
  · exact quiet_refl w

theorem quiet_download (env : Env) (url out : Str) (w : World) :
    Quiet w (download_with_curl env url out w).2 := quiet_run env _ w

theorem quiet_downloaded (env : Env) (r : Recipe) (c : Config) (u : Str) (w : World) :
    Quiet w (downloaded env r c u w).2 :=
  quiet_trans (quiet_rands w (w.rands + 1)) (quiet_download env u _ _)

theorem quiet_verified (env : Env) (r : Recipe) (c : Config) (u : Str) (w : World) :
    Quiet w (verified env r c u w).2 :=
  quiet_trans (quiet_downloaded env r c u w) (quiet_sha256_file env _ _)

theorem quiet_fetchSources (env : Env) (r : Recipe) (c : Config) (work : Str)
    (us : List Str) (w : World) : Quiet w (fetchSources env r c work us w).2 := by
  induction us generalizing w with
  | nil => exact quiet_refl w
  | cons u us ih =>
    unfold fetchSources
    dsimp only
    split
    · exact quiet_downloaded env r c u w
    · split
      · split
        · exact quiet_verified env r c u w
        · exact quiet_trans (quiet_verified env r c u w)
            (quiet_trans (quiet_run env _ _) (ih _))
      · exact quiet_trans (quiet_downloaded env r c u w)
          (quiet_trans (quiet_run env _ _) (ih _))

theorem quiet_fetchPatches (env : Env) (work : Str) (ps : List Str) (w : World) :
    Quiet w (fetchPatches env work ps w).2 := by
  induction ps generalizing w with
  | nil => exact quiet_refl w
  | cons u us ih =>
    unfold fetchPatches
    have h1 := quiet_trans (quiet_rands w (w.rands + 1)) (quiet_download env u
      (joinp work ("patch-".toList ++ to_string (env.rand w.rands)))
      { w with rands := w.rands + 1 })
    dsimp only
    split
    · exact h1
    · exact quiet_trans h1 (quiet_trans (quiet_run env _ _) (ih _))

theorem quiet_prepare (env : Env) (r : Recipe) (c : Config) (work_root : Str) (w : World) :
    Quiet w (prepare env r c work_root w).2 := by
  unfold prepare
  have h1 := quiet_run env ("rm -rf '".toList ++ joinp work_root (pkgid r)
    ++ "' && mkdir -p '".toList ++ joinp work_root (pkgid r) ++ "'".toList) w
  simp only []
  split
  · rename_i rc w2 heq
    have : Quiet w w2 := by
      split at heq
      · split at heq
        · cases heq; exact quiet_trans h1 (quiet_run env _ _)
        · cases heq
      · split at heq
        · have := quiet_fetchSources env r c (joinp work_root (pkgid r)) r.sources
            (ensure_dir env c.sources_dir (run env ("rm -rf '".toList ++ joinp work_root (pkgid r)
              ++ "' && mkdir -p '".toList ++ joinp work_root (pkgid r) ++ "'".toList) w).2)
          rw [heq] at this
          exact quiet_trans h1 (quiet_trans (quiet_ensure_dir env _ _) this)
        · cases heq
    exact this
  · rename_i w2 heq
    have hw2 : Quiet w w2 := by
      split at heq
      · split at heq
        · cases heq
        · cases heq; exact quiet_trans h1 (quiet_run env _ _)
      · split at heq
        · have := quiet_fetchSources env r c (joinp work_root (pkgid r)) r.sources
            (ensure_dir env c.sources_dir (run env ("rm -rf '".toList ++ joinp work_root (pkgid r)
              ++ "' && mkdir -p '".toList ++ joinp work_root (pkgid r) ++ "'".toList) w).2)
          rw [heq] at this
          exact quiet_trans h1 (quiet_trans (quiet_ensure_dir env _ _) this)
        · cases heq; exact h1
    have hw3 : Quiet w (if r.git ≠ [] then
        (run env ("cp -a '".toList ++ joinp c.sources_dir (pkgid r) ++ "/.' '".toList
          ++ joinp work_root (pkgid r) ++ "/'".toList) w2).2 else w2) := by
      split
      · exact quiet_trans hw2 (quiet_run env _ _)
      · exact hw2
    split
    · exact quiet_trans hw3 (quiet_fetchPatches env _ _ _)
    · exact hw3

theorem quiet_run_step (fuel : Nat) (env : Env) (work stage jobs : Str) (cmds : List Str)
    (w : World) (rc : Int × World)
    (h : run_step fuel env work stage jobs cmds w = some rc) : Quiet w rc.2 := by
  induction cmds generalizing w with
  | nil =>
    simp only [run_step, Option.some.injEq] at h
    subst h
    exact quiet_refl w
  | cons cmm cmds ih =>
    unfold run_step at h
    split at h
    · cases h
    · rename_i s hs
      simp only [] at h
      split at h
      · cases h
        exact quiet_run env _ w
      · exact quiet_trans (quiet_run env _ w) (ih _ h)

theorem quiet_runStage (fuel : Nat) (env : Env) (work stage jobs : Str) (code : Int)
    (cmds : List Str) (w : World) (res : Option Int × World)
    (h : runStage fuel env work stage jobs code cmds w = some res) : Quiet w res.2 := by
  unfold runStage at h
  split at h
  · cases h; exact quiet_refl w
  · split at h
    · cases h
    · rename_i rc hrc
      have := quiet_run_step fuel env work stage jobs cmds w rc hrc
      split at h <;> (cases h; exact this)

theorem runStage_code (fuel : Nat) (env : Env) (work stage jobs : Str) (code : Int)
    (cmds : List Str) (w w1 : World) (rc : Int)
    (h : runStage fuel env work stage jobs code cmds w = some (some rc, w1)) : rc = code := by
  unfold runStage at h
  split at h
  · cases h
  · split at h
    · cases h
    · split at h
      · cases h; rfl
      · cases h

theorem runSteps_spec (fuel : Nat) (env : Env) (work stage jobs : Str) (r : Recipe)
    (w : World) (res : Option Int × World)
    (h : runSteps fuel env work stage jobs r w = some res) :
    Quiet w res.2 ∧ ∀ rc, res.1 = some rc → rc = 10 ∨ rc = 11 ∨ rc = 12 ∨ rc = 13 := by
  unfold runSteps at h
  split at h
  · cases h
  · rename_i rc w1 h1
    cases h
    exact ⟨quiet_runStage _ _ _ _ _ _ _ _ _ h1,
      fun x hx => Or.inl (by cases hx; exact runStage_code _ _ _ _ _ _ _ _ _ _ h1)⟩
  · rename_i w1 h1
    have q1 := quiet_runStage _ _ _ _ _ _ _ _ _ h1
    split at h
    · cases h
    · rename_i rc w2 h2
      cases h
      exact ⟨quiet_trans q1 (quiet_runStage _ _ _ _ _ _ _ _ _ h2),
        fun x hx => Or.inr (Or.inl (by cases hx; exact runStage_code _ _ _ _ _ _ _ _ _ _ h2))⟩
    · rename_i w2 h2
      have q2 := quiet_trans q1 (quiet_runStage _ _ _ _ _ _ _ _ _ h2)
      split at h
      · cases h
      · rename_i rc w3 h3
        cases h
        exact ⟨quiet_trans q2 (quiet_runStage _ _ _ _ _ _ _ _ _ h3),
          fun x hx => Or.inr (Or.inr (Or.inl
            (by cases hx; exact runStage_code _ _ _ _ _ _ _ _ _ _ h3)))⟩
      · rename_i w3 h3
        have q3 := quiet_trans q2 (quiet_runStage _ _ _ _ _ _ _ _ _ h3)
        refine ⟨quiet_trans q3 (quiet_runStage _ _ _ _ _ _ _ _ _ h), ?_⟩
        intro x hx
        obtain ⟨a, b⟩ := res
        cases hx
        exact Or.inr (Or.inr (Or.inr (runStage_code _ _ _ _ _ _ _ _ _ _ h)))

/-- C4: when `build_one` returns a non-zero code, the map `installed` is the one it
was given and nothing has been written by `dump` since the call began; in
particular `save_installed` has not run, so no registry entry was created or
replaced. -/
theorem build_one_failure_keeps_registry (fuel : Nat) (env : Env) (r : Recipe) (c : Config)
    (installed : UMap InstalledInfo) (work_root : Str) (do_strip do_pack : Bool) (w : World)
    (rc : Int) (installed1 : UMap InstalledInfo) (w1 : World)
    (h : build_one fuel env r c installed work_root do_strip do_pack w
      = some (rc, installed1, w1))
    (hrc : rc ≠ 0) :
    installed1 = installed ∧
    ∃ evs, w1.trace = w.trace ++ evs ∧ ∀ p content, Event.write p content ∉ evs := by
  unfold build_one at h
  have hp := quiet_prepare env r c work_root w
  split at h
  · rename_i rc0 w0 h0
    cases h
    rw [h0] at hp
    exact ⟨rfl, hp⟩
  · rename_i w0 h0
    rw [h0] at hp
    simp only [] at h
    split at h
    · cases h
    · rename_i rc2 w2 h2
      cases h
      exact ⟨rfl, quiet_trans hp (quiet_trans (quiet_ensure_dir env _ _)
        (runSteps_spec _ _ _ _ _ _ _ _ h2).1)⟩
    · cases h
      exact absurd rfl hrc

set_option maxRecDepth 1000000 in
/-- C4, at a build whose download does not have the digest of the recipe
(scenario S4): the code is 3 and the map is the one passed in. -/
theorem build_one_failure_keeps_registry_witness :
    ∃ w1, build_one 1 digestEnv upperRecipe {} (UMap.empty {}) "/var/stage/lfsd".toList
        false true ⟨[], 0⟩ = some (3, UMap.empty {}, w1) ∧
      ∃ evs, w1.trace = [] ++ evs ∧ ∀ p content, Event.write p content ∉ evs :=
  ⟨_, rfl, (build_one_failure_keeps_registry 1 digestEnv upperRecipe {} (UMap.empty {})
    "/var/stage/lfsd".toList false true ⟨[], 0⟩ 3 _ _ rfl (by decide)).2⟩

/-! ### Staged builder: the digest check -/

theorem fetchSources_three (env : Env) (r : Recipe) (c : Config) (work : Str)
    (us : List Str) (w w1 : World) (h : fetchSources env r c work us w = (some 3, w1)) :
    ∃ u ∈ us, ∃ w0, Quiet w w0 ∧ r.sha256 ≠ [] ∧ (downloaded env r c u w0).1 = 0 ∧
      ((verified env r c u w0).1 = [] ∨ (verified env r c u w0).1 ≠ r.sha256) ∧
      w1 = (verified env r c u w0).2 := by
  induction us generalizing w with
  | nil => simp [fetchSources] at h
  | cons u us ih =>
    unfold fetchSources at h
    dsimp only at h
    split at h
    · simp at h
    · rename_i hdl
      split at h
      · rename_i hsha
        split at h
        · rename_i hm
          simp only [Prod.mk.injEq, true_and] at h
          exact ⟨u, List.mem_cons_self _ _, w, quiet_refl w, hsha, by simpa using hdl, hm, h.symm⟩
        · obtain ⟨x, hx, w0, q0, rest⟩ := ih _ h
          exact ⟨x, List.mem_cons_of_mem _ hx, w0,
            quiet_trans (quiet_verified env r c u w) (quiet_trans (quiet_run env _ _) q0), rest⟩
      · obtain ⟨x, hx, w0, q0, rest⟩ := ih _ h
        exact ⟨x, List.mem_cons_of_mem _ hx, w0,
          quiet_trans (quiet_downloaded env r c u w) (quiet_trans (quiet_run env _ _) q0), rest⟩

theorem fetchPatches_code (env : Env) (work : Str) (ps : List Str) (w : World) (rc : Int)
    (h : (fetchPatches env work ps w).1 = some rc) : rc = 4 := by
  induction ps generalizing w with
  | nil => simp [fetchPatches] at h
  | cons u us ih =>
    unfold fetchPatches at h
    dsimp only at h
    split at h
    · simpa using h.symm
    · exact ih _ h

theorem prepare_three (env : Env) (r : Recipe) (c : Config) (work_root : Str) (w w1 : World)
    (h : prepare env r c work_root w = (some 3, w1)) :
    ∃ u ∈ r.sources, ∃ w0, Quiet w w0 ∧ r.sha256 ≠ [] ∧ (downloaded env r c u w0).1 = 0 ∧
      ((verified env r c u w0).1 = [] ∨ (verified env r c u w0).1 ≠ r.sha256) ∧
      w1 = (verified env r c u w0).2 := by
  unfold prepare at h
  dsimp only at h
  split at h
  · rename_i rc w2 heq
    simp only [Prod.mk.injEq, Option.some.injEq] at h
    obtain ⟨h1, h2⟩ := h
    subst h1 h2
    split at heq
    · split at heq
      · simp at heq
      · simp at heq
    · split at heq
      · obtain ⟨u, hu, w0, q0, rest⟩ := fetchSources_three env r c _ r.sources _ _ heq
        exact ⟨u, hu, w0, quiet_trans (quiet_run env _ w)
          (quiet_trans (quiet_ensure_dir env _ _) q0), rest⟩
      · simp at heq
  · split at h
    · have := fetchPatches_code _ _ _ _ 3 (by rw [h])
      simp at this
    · simp at h

theorem prepare_first_mismatch (env : Env) (r : Recipe) (c : Config) (work_root : Str)
    (w : World) (u : Str) (us : List Str)
    (hgit : r.git = []) (hsrc : r.sources = u :: us) (hsha : r.sha256 ≠ [])
    (hdl : (downloaded env r c u (atFirstSource env r c work_root w)).1 = 0)
    (hm : (verified env r c u (atFirstSource env r c work_root w)).1 = [] ∨
      (verified env r c u (atFirstSource env r c work_root w)).1 ≠ r.sha256) :
    prepare env r c work_root w
      = (some 3, (verified env r c u (atFirstSource env r c work_root w)).2) := by
  have hf : fetchSources env r c (joinp work_root (pkgid r)) (u :: us)
      (atFirstSource env r c work_root w)
      = (some 3, (verified env r c u (atFirstSource env r c work_root w)).2) := by
    unfold fetchSources
    dsimp only
    rw [if_neg (by rw [hdl]; simp), if_pos hsha, if_pos hm]
  unfold prepare
  dsimp only
  rw [if_neg (by simp [hgit]), if_pos (by simp [hsrc]), hsrc]
  have hf1 : fetchSources env r c (joinp work_root (pkgid r)) (u :: us)
      (ensure_dir env c.sources_dir
        (run env ("rm -rf '".toList ++ joinp work_root (pkgid r) ++ "' && mkdir -p '".toList
          ++ joinp work_root (pkgid r) ++ "'".toList) w).2)
      = (some 3, (verified env r c u (atFirstSource env r c work_root w)).2) := hf
  rw [hf1]

/-- C8, as the code has it: the digest check of `build_one` compares the digest
computed for a download with the `sha256` of the recipe as strings, character by
character.  `build_one` returns 3 only just after a download that succeeded and
whose computed digest is empty or differs from `r.sha256` as a string; and for a
recipe with archives and a digest whose first download succeeds, an empty or
different digest makes `build_one` return 3 with the map `installed` untouched. -/
theorem build_one_digest_exact (fuel : Nat) (env : Env) (r : Recipe) (c : Config)
    (installed : UMap InstalledInfo) (work_root : Str) (do_strip do_pack : Bool) (w : World) :
    (∀ installed1 w1,
      build_one fuel env r c installed work_root do_strip do_pack w = some (3, installed1, w1) →
      ∃ u ∈ r.sources, ∃ w0, Quiet w w0 ∧ r.sha256 ≠ [] ∧ (downloaded env r c u w0).1 = 0 ∧
        ((verified env r c u w0).1 = [] ∨ (verified env r c u w0).1 ≠ r.sha256) ∧
        w1 = (verified env r c u w0).2) ∧
    (∀ u us, r.git = [] → r.sources = u :: us → r.sha256 ≠ [] →
      (downloaded env r c u (atFirstSource env r c work_root w)).1 = 0 →
      ((verified env r c u (atFirstSource env r c work_root w)).1 = [] ∨
        (verified env r c u (atFirstSource env r c work_root w)).1 ≠ r.sha256) →
      build_one fuel env r c installed work_root do_strip do_pack w
        = some (3, installed, (verified env r c u (atFirstSource env r c work_root w)).2)) := by
  constructor
  · intro installed1 w1 h
    unfold build_one at h
    split at h
    · rename_i rc0 w0 h0
      simp only [Option.some.injEq, Prod.mk.injEq] at h
      obtain ⟨h1, _, h3⟩ := h
      subst h1 h3
      exact prepare_three env r c work_root w _ h0
    · dsimp only at h
      split at h
      · cases h
      · rename_i rc2 w2 h2
        simp only [Option.some.injEq, Prod.mk.injEq] at h
        have := (runSteps_spec _ _ _ _ _ _ _ _ h2).2 rc2 rfl
        rw [h.1] at this
        omega
      · simp at h
  · intro u us hgit hsrc hsha hdl hm
    unfold build_one
    rw [prepare_first_mismatch env r c work_root w u us hgit hsrc hsha hdl hm]

set_option maxRecDepth 1000000 in
/-- C8, as the code has it, at a recipe whose digest is `AA...A` and a download whose
digest is `aa...a`: the strings differ, `build_one` returns 3. -/
theorem build_one_digest_exact_witness :
    build_one 1 digestEnv upperRecipe {} (UMap.empty {}) "/var/stage/lfsd".toList false true
        ⟨[], 0⟩
      = some (3, UMap.empty {},
          (verified digestEnv upperRecipe {} "http://x/bad.tar".toList
            (atFirstSource digestEnv upperRecipe {} "/var/stage/lfsd".toList ⟨[], 0⟩)).2) :=
  (build_one_digest_exact 1 digestEnv upperRecipe {} (UMap.empty {}) "/var/stage/lfsd".toList
    false true ⟨[], 0⟩).2 "http://x/bad.tar".toList [] rfl rfl (by decide) (by decide)
    (Or.inr (by decide))

set_option maxRecDepth 1000000 in
/-- C8 as stated fails: the recipe digest `AA...A` equals the digest `aa...a`
computed for the download up to the case of its hex letters, and `build_one`
returns 3. -/
theorem build_one_digest_case_counterexample :
    (verified digestEnv upperRecipe {} "http://x/bad.tar".toList
      (atFirstSource digestEnv upperRecipe {} "/var/stage/lfsd".toList ⟨[], 0⟩)).1
      = List.replicate 64 'a' ∧
    (List.replicate 64 'a').map Char.toLower = upperRecipe.sha256.map Char.toLower ∧
    (build_one 1 digestEnv upperRecipe {} (UMap.empty {}) "/var/stage/lfsd".toList false true
        ⟨[], 0⟩).map (fun res => res.1) = some 3 := by
  refine ⟨by decide, by decide, ?_⟩
  decide

/-! ### Staged builder: the steps -/

theorem find_some_split (needle : Str) (s : Str) (pos : Nat) (h : find needle s = some pos) :
    s = s.take pos ++ needle ++ s.drop (pos + needle.length) := by
  induction s generalizing pos with
  | nil =>
    unfold find at h
    split at h
    · rename_i hn
      cases h
      simp [hn]
    · cases h
  | cons c s ih =>
    unfold find at h
    split at h
    · rename_i hp
      cases h
      simp only [startsWith, decide_eq_true_eq] at hp
      have := List.prefix_iff_eq_append.1 hp
      simp only [List.take_zero, List.nil_append, Nat.zero_add]
      exact this.symm
    · cases hf : find needle s with
      | none => rw [hf] at h; cases h
      | some i =>
        rw [hf] at h
        simp only [Option.map_some', Option.some.injEq] at h
        subst h
        have := ih i hf
        simp only [List.take_succ_cons, List.cons_append, List.cons.injEq, true_and]
        rw [show i + 1 + needle.length = (i + needle.length) + 1 by omega, List.drop_succ_cons]
        exact this

theorem replaceLoop_terminates (needle repl : Str) (x : Char) (hx : x ∈ needle)
    (hr : x ∉ repl) (fuel : Nat) (s : Str) (hfuel : s.count x < fuel) :
    ∃ s1, replaceLoop needle repl fuel s = some s1 ∧ s1.count x ≤ s.count x := by
  induction fuel generalizing s with
  | zero => omega
  | succ fuel ih =>
    unfold replaceLoop
    cases hf : find needle s with
    | none => exact ⟨s, rfl, le_refl _⟩
    | some pos =>
      dsimp only
      have hsplit := find_some_split needle s pos hf
      have hcount : s.count x = (s.take pos).count x + needle.count x
          + (s.drop (pos + needle.length)).count x := by
        conv_lhs => rw [hsplit]
        simp only [List.count_append]
      have hn : 0 < needle.count x := List.count_pos_iff.2 hx
      have hrc : repl.count x = 0 := List.count_eq_zero.2 hr
      have hnew : (s.take pos ++ repl ++ s.drop (pos + needle.length)).count x
          = (s.take pos).count x + (s.drop (pos + needle.length)).count x := by
        simp only [List.count_append, hrc, Nat.add_zero]
      obtain ⟨s1, h1, h2⟩ := ih (s.take pos ++ repl ++ s.drop (pos + needle.length))
        (by omega)
      exact ⟨s1, h1, by omega⟩

theorem decimal_no_dollar (fuel n : Nat) : '$' ∉ decimal fuel n := by
  have digit : ∀ d, d < 10 → Char.ofNat (48 + d) ≠ '$' := by
    intro d hd
    interval_cases d <;> decide
  induction fuel generalizing n with
  | zero => simp [decimal]
  | succ fuel ih =>
    unfold decimal
    split
    · rename_i h
      simp only [List.mem_singleton]
      exact fun e => digit n h e.symm
    · simp only [List.mem_append, List.mem_singleton, not_or]
      exact ⟨ih _, fun e => digit (n % 10) (Nat.mod_lt _ (by decide)) e.symm⟩

theorem to_string_no_dollar (n : Int) : '$' ∉ to_string n := by
  unfold to_string
  split
  · simp only [List.mem_cons, not_or]
    exact ⟨by decide, decimal_no_dollar _ _⟩
  · exact decimal_no_dollar _ _

theorem substitute_terminates (fuel : Nat) (stage jobs t : Str)
    (hs : '$' ∉ stage) (hj : '$' ∉ jobs) (hfuel : t.length < fuel) :
    ∃ s, substitute fuel stage jobs t = some s := by
  have hc : t.count '$' < fuel := lt_of_le_of_lt (List.count_le_length _ _) hfuel
  obtain ⟨s1, h1, c1⟩ := replaceLoop_terminates "$\x7bSTAGE\x7d".toList stage '$' (by decide)
    hs fuel t hc
  obtain ⟨s2, h2, _⟩ := replaceLoop_terminates "$\x7bJOBS\x7d".toList jobs '$' (by decide)
    hj fuel s1 (by omega)
  exact ⟨s2, by simp only [substitute, h1, h2]⟩

theorem run_step_eq_runPlan (fuel : Nat) (env : Env) (work stage jobs : Str) (code : Int)
    (ts : List Str) (w : World)
    (hsub : ∀ t ∈ ts, ∃ s, substitute fuel stage jobs t = some s) :
    ∃ rc, run_step fuel env work stage jobs ts w = some rc ∧
      ((if rc.1 ≠ 0 then some code else none), rc.2)
        = runPlan env (ts.map (fun t => (code, stepLine fuel work stage jobs t))) w := by
  induction ts generalizing w with
  | nil => exact ⟨(0, w), rfl, by simp [runPlan]⟩
  | cons t ts ih =>
    obtain ⟨s, hs⟩ := hsub t (List.mem_cons_self _ _)
    have hline : stepLine fuel work stage jobs t = "cd '".toList ++ work ++ "' && ".toList ++ s := by
      simp only [stepLine, hs, Option.getD_some]
    unfold run_step
    rw [hs]
    dsimp only
    rw [List.map_cons, runPlan]
    dsimp only
    rw [hline]
    by_cases hrc : (run env ("cd '".toList ++ work ++ "' && ".toList ++ s) w).1 ≠ 0
    · rw [if_pos hrc, if_pos hrc]
      exact ⟨_, rfl, by rw [if_pos hrc]⟩
    · rw [if_neg hrc, if_neg hrc]
      exact ih _ (fun x hx => hsub x (List.mem_cons_of_mem _ hx))

theorem runStage_eq_runPlan (fuel : Nat) (env : Env) (work stage jobs : Str) (code : Int)
    (ts : List Str) (w : World)
    (hsub : ∀ t ∈ ts, ∃ s, substitute fuel stage jobs t = some s) :
    runStage fuel env work stage jobs code ts w
      = some (runPlan env (ts.map (fun t => (code, stepLine fuel work stage jobs t))) w) := by
  unfold runStage
  split
  · rename_i h
    subst h
    rfl
  · obtain ⟨rc, h1, h2⟩ := run_step_eq_runPlan fuel env work stage jobs code ts w hsub
    rw [h1]
    dsimp only
    rw [← h2]
    split <;> rfl

theorem runPlan_append (env : Env) (l1 l2 : List (Int × Str)) (w : World) :
    runPlan env (l1 ++ l2) w
      = match runPlan env l1 w with
        | (some code, w1) => (some code, w1)
        | (none, w1) => runPlan env l2 w1 := by
  induction l1 generalizing w with
  | nil => simp [runPlan]
  | cons x l1 ih =>
    rw [List.cons_append, runPlan, runPlan]
    split
    · rfl
    · exact ih _

theorem runSteps_eq_runPlan (fuel : Nat) (env : Env) (work stage jobs : Str) (r : Recipe)
    (w : World)
    (hsub : ∀ t ∈ r.configure ++ r.make_cmd ++ r.tests ++ r.install_cmd,
      ∃ s, substitute fuel stage jobs t = some s) :
    runSteps fuel env work stage jobs r w
      = some (runPlan env (stepPlan fuel work stage jobs r) w) := by
  have h1 : ∀ t ∈ r.configure, ∃ s, substitute fuel stage jobs t = some s :=
    fun t ht => hsub t (by simp [ht])
  have h2 : ∀ t ∈ r.make_cmd, ∃ s, substitute fuel stage jobs t = some s :=
    fun t ht => hsub t (by simp [ht])
  have h3 : ∀ t ∈ r.tests, ∃ s, substitute fuel stage jobs t = some s :=
    fun t ht => hsub t (by simp [ht])
  have h4 : ∀ t ∈ r.install_cmd, ∃ s, substitute fuel stage jobs t = some s :=
    fun t ht => hsub t (by simp [ht])
  unfold runSteps stepPlan
  rw [List.append_assoc, List.append_assoc, runPlan_append,
    runStage_eq_runPlan fuel env work stage jobs 10 r.configure w h1]
  rcases runPlan env (List.map (fun t => ((10 : Int), stepLine fuel work stage jobs t))
    r.configure) w with ⟨_ | c1, w1⟩
  · dsimp only
    rw [runPlan_append, runStage_eq_runPlan fuel env work stage jobs 11 r.make_cmd w1 h2]
    rcases runPlan env (List.map (fun t => ((11 : Int), stepLine fuel work stage jobs t))
      r.make_cmd) w1 with ⟨_ | c2, w2⟩
    · dsimp only
      rw [runPlan_append, runStage_eq_runPlan fuel env work stage jobs 12 r.tests w2 h3]
      rcases runPlan env (List.map (fun t => ((12 : Int), stepLine fuel work stage jobs t))
        r.tests) w2 with ⟨_ | c3, w3⟩
      · dsimp only
        rw [runStage_eq_runPlan fuel env work stage jobs 13 r.install_cmd w3 h4]
      · rfl
    · rfl
  · rfl

theorem allSucceed_tail (env : Env) (w : World) (x : Int × Str) (done : List (Int × Str))
    (h : AllSucceed env w (x :: done)) : AllSucceed env (run env x.2 w).2 done := by
  intro pre y post he
  have := h (x :: pre) y post (by rw [he]; rfl)
  simpa [run] using this

theorem runPlan_first_failure (env : Env) (done : List (Int × Str)) (code : Int) (cmd : Str)
    (rest : List (Int × Str)) (w : World) (hdone : AllSucceed env w done)
    (hfail : env.status (w.trace ++ done.map (fun y => Event.system y.2)) cmd ≠ 0) :
    runPlan env (done ++ (code, cmd) :: rest) w
      = (some code,
          ⟨w.trace ++ (done ++ [(code, cmd)]).map (fun y => Event.system y.2), w.rands⟩) := by
  induction done generalizing w with
  | nil =>
    simp only [List.map_nil, List.append_nil, List.nil_append] at hfail ⊢
    rw [runPlan]
    rw [if_pos (by simpa [run] using hfail)]
    simp [run]
  | cons x done ih =>
    have hx : env.status w.trace x.2 = 0 := by
      simpa using hdone [] x done rfl
    rw [List.cons_append, runPlan, if_neg (by simp [run, hx])]
    rw [ih (run env x.2 w).2 (allSucceed_tail env w x done hdone)
      (by simpa [run] using hfail)]
    simp [run]

theorem runPlan_all_succeed (env : Env) (plan : List (Int × Str)) (w : World)
    (h : AllSucceed env w plan) :
    runPlan env plan w = (none, ⟨w.trace ++ plan.map (fun y => Event.system y.2), w.rands⟩) := by
  induction plan generalizing w with
  | nil => simp [runPlan]
  | cons x plan ih =>
    have hx : env.status w.trace x.2 = 0 := by
      simpa using h [] x plan rfl
    rw [runPlan, if_neg (by simp [run, hx]), ih _ (allSucceed_tail env w x plan h)]
    simp [run]

theorem grows_of_quiet {w w1 : World} (h : Quiet w w1) : ∃ evs, w1.trace = w.trace ++ evs := by
  obtain ⟨evs, h1, _⟩ := h
  exact ⟨evs, h1⟩

theorem grows_trans {w1 w2 w3 : World} (h1 : ∃ evs, w2.trace = w1.trace ++ evs)
    (h2 : ∃ evs, w3.trace = w2.trace ++ evs) : ∃ evs, w3.trace = w1.trace ++ evs := by
  obtain ⟨e1, t1⟩ := h1
  obtain ⟨e2, t2⟩ := h2
  exact ⟨e1 ++ e2, by rw [t2, t1, List.append_assoc]⟩

theorem grows_manifestText (env : Env) (fs : List Str) (txt : Str) (w : World) :
    ∃ evs, (manifestText env fs txt w).2.trace = w.trace ++ evs := by
  induction fs generalizing txt w with
  | nil => exact ⟨[], by simp [manifestText]⟩
  | cons f fs ih =>
    unfold manifestText
    exact grows_trans (grows_of_quiet (quiet_sha256_file env f w)) (ih _ _)

theorem grows_stripFiles (env : Env) (fs : List Str) (w : World) :
    ∃ evs, (stripFiles env fs w).trace = w.trace ++ evs := by
  induction fs generalizing w with
  | nil => exact ⟨[], by simp [stripFiles]⟩
  | cons f fs ih =>
    unfold stripFiles
    split
    · exact grows_trans (grows_of_quiet (quiet_run env _ w)) (ih _)
    · exact ih _

theorem grows_dump (p content : Str) (w : World) :
    ∃ evs, (dump p content w).trace = w.trace ++ evs := ⟨[Event.write p content], rfl⟩

theorem grows_finish (env : Env) (r : Recipe) (c : Config) (installed : UMap InstalledInfo)
    (do_strip do_pack : Bool) (w : World) :
    ∃ evs, (finish env r c installed do_strip do_pack w).2.trace = w.trace ++ evs := by
  cases do_strip <;> cases do_pack <;>
  · unfold finish save_installed
    simp only [if_true, if_false, Bool.false_eq_true]
    repeat
      first
      | exact ⟨[], (List.append_nil _).symm⟩
      | refine grows_trans ?_ (grows_of_quiet (quiet_ensure_dir env _ _))
      | refine grows_trans ?_ (grows_of_quiet (quiet_run env _ _))
      | refine grows_trans ?_ (grows_dump _ _ _)
      | refine grows_trans ?_ (grows_stripFiles env _ _)
      | refine grows_trans ?_ (grows_manifestText env _ _ _)

/-- The steps of `build_one` where the placeholder loops end: when the path of the
staged prefix holds no `$` (so that
the placeholder loops of `run_step` end) and fetch and patch have succeeded,
`build_one` runs the command lines of configure, make, tests and install in that
order; it stops at the first one whose status is not zero, runs none after it and
returns the code of the step that command belongs to (10, 11, 12, 13); when every
status is zero all of them are run and the result is 0. -/
theorem build_one_steps (fuel : Nat) (env : Env) (r : Recipe) (c : Config)
    (installed : UMap InstalledInfo) (work_root : Str) (do_strip do_pack : Bool)
    (w w1 : World)
    (hstage : '$' ∉ joinp c.stage_dir (pkgid r))
    (hfuel : ∀ t ∈ r.configure ++ r.make_cmd ++ r.tests ++ r.install_cmd, t.length < fuel)
    (hprep : prepare env r c work_root w = (none, w1)) :
    (∀ t ∈ r.configure ++ r.make_cmd ++ r.tests ++ r.install_cmd,
      ∃ s, substitute fuel (joinp c.stage_dir (pkgid r)) (to_string c.jobs) t = some s) ∧
    (∀ done code cmd rest,
      stepPlan fuel (joinp work_root (pkgid r)) (joinp c.stage_dir (pkgid r))
        (to_string c.jobs) r = done ++ (code, cmd) :: rest →
      AllSucceed env (ensure_dir env (joinp c.stage_dir (pkgid r)) w1) done →
      env.status ((ensure_dir env (joinp c.stage_dir (pkgid r)) w1).trace
        ++ done.map (fun y => Event.system y.2)) cmd ≠ 0 →
      build_one fuel env r c installed work_root do_strip do_pack w
        = some (code, installed,
            ⟨(ensure_dir env (joinp c.stage_dir (pkgid r)) w1).trace
              ++ (done ++ [(code, cmd)]).map (fun y => Event.system y.2),
             (ensure_dir env (joinp c.stage_dir (pkgid r)) w1).rands⟩)) ∧
    (AllSucceed env (ensure_dir env (joinp c.stage_dir (pkgid r)) w1)
        (stepPlan fuel (joinp work_root (pkgid r)) (joinp c.stage_dir (pkgid r))
          (to_string c.jobs) r) →
      ∃ installed1 w3 evs,
        build_one fuel env r c installed work_root do_strip do_pack w
          = some (0, installed1, w3) ∧
        w3.trace = (ensure_dir env (joinp c.stage_dir (pkgid r)) w1).trace
          ++ (stepPlan fuel (joinp work_root (pkgid r)) (joinp c.stage_dir (pkgid r))
            (to_string c.jobs) r).map (fun y => Event.system y.2) ++ evs) := by
  have hsub : ∀ t ∈ r.configure ++ r.make_cmd ++ r.tests ++ r.install_cmd,
      ∃ s, substitute fuel (joinp c.stage_dir (pkgid r)) (to_string c.jobs) t = some s :=
    fun t ht => substitute_terminates fuel _ _ t hstage (to_string_no_dollar _) (hfuel t ht)
  have hrun := runSteps_eq_runPlan fuel env (joinp work_root (pkgid r))
    (joinp c.stage_dir (pkgid r)) (to_string c.jobs) r
    (ensure_dir env (joinp c.stage_dir (pkgid r)) w1) hsub
  refine ⟨hsub, ?_, ?_⟩
  · intro done code cmd rest hplan hdone hfail
    unfold build_one
    rw [hprep]
    dsimp only
    rw [hrun, hplan, runPlan_first_failure env done code cmd rest _ hdone hfail]
  · intro hall
    unfold build_one
    rw [hprep]
    dsimp only
    rw [hrun, runPlan_all_succeed env _ _ hall]
    dsimp only
    obtain ⟨evs, he⟩ := grows_finish env r c installed do_strip do_pack
      ⟨(ensure_dir env (joinp c.stage_dir (pkgid r)) w1).trace
        ++ (stepPlan fuel (joinp work_root (pkgid r)) (joinp c.stage_dir (pkgid r))
          (to_string c.jobs) r).map (fun y => Event.system y.2),
       (ensure_dir env (joinp c.stage_dir (pkgid r)) w1).rands⟩
    exact ⟨_, _, evs, rfl, he⟩

set_option maxRecDepth 1000000 in
/-- The steps of `build_one` at a build whose configure command succeeds and whose
make command fails: `build_one` returns 11, and the install command is not run. -/
theorem build_one_steps_witness :
    build_one 40 makeFailEnv sampleBuild { jobs := 4 } (UMap.empty {}) "/var/stage/lfsd".toList
        false true ⟨[], 0⟩
      = some (11, UMap.empty {},
          ⟨(ensure_dir makeFailEnv "/var/stage/lfsd/p-1".toList
              ⟨[Event.system ("rm -rf '/var/stage/lfsd/p-1' && mkdir -p '/var/stage/lfsd/p-1'".toList)],
                0⟩).trace
            ++ List.map (fun (y : Int × Str) => Event.system y.2)
                ([(10, "cd '/var/stage/lfsd/p-1' && ./configure --prefix=/var/stage/lfsd/p-1".toList)]
                  ++ [(11, "cd '/var/stage/lfsd/p-1' && make -j4".toList)]),
           0⟩) :=
  (build_one_steps 40 makeFailEnv sampleBuild { jobs := 4 } (UMap.empty {})
    "/var/stage/lfsd".toList false true ⟨[], 0⟩
    ⟨[Event.system ("rm -rf '/var/stage/lfsd/p-1' && mkdir -p '/var/stage/lfsd/p-1'".toList)], 0⟩
    (by decide) (by decide) (by decide)).2.1
    [(10, "cd '/var/stage/lfsd/p-1' && ./configure --prefix=/var/stage/lfsd/p-1".toList)]
    11 "cd '/var/stage/lfsd/p-1' && make -j4".toList
    [(13, "cd '/var/stage/lfsd/p-1' && make install".toList)]
    (by decide)
    (by
      intro pre x post h
      rcases pre with _ | ⟨p, pre⟩
      · simp only [List.nil_append, List.cons.injEq] at h
        obtain ⟨rfl, _⟩ := h
        decide
      · simp at h)
    (by decide)

theorem find_isSome_of_infix (needle s : Str) (h : needle <:+: s) : (find needle s).isSome := by
  obtain ⟨a, b, hab⟩ := h
  induction a generalizing s with
  | nil =>
    have hp : needle <+: s := ⟨b, by simpa using hab⟩
    cases s with
    | nil =>
      have : needle = [] := List.prefix_nil.1 hp
      simp [find, this]
    | cons c s => simp [find, startsWith, hp]
  | cons c a ih =>
    subst hab
    simp only [List.cons_append, List.append_assoc, find]
    split
    · rfl
    · have := ih (a ++ needle ++ b) (by simp)
      simp only [List.append_assoc] at this
      simpa using this

theorem replaceLoop_diverges (needle repl : Str) (hr : needle <:+: repl) (fuel : Nat) (s : Str)
    (hs : needle <:+: s) : replaceLoop needle repl fuel s = none := by
  induction fuel generalizing s with
  | zero => rfl
  | succ fuel ih =>
    unfold replaceLoop
    have hsome := find_isSome_of_infix needle s hs
    cases hf : find needle s with
    | none => rw [hf] at hsome; cases hsome
    | some pos =>
      dsimp only
      apply ih
      obtain ⟨a, b, hab⟩ := hr
      exact ⟨s.take pos ++ a, b ++ s.drop (pos + needle.length), by rw [← hab]; simp⟩

set_option maxRecDepth 1000000 in
/-- C5 fails on the code: with the text of the `STAGE` placeholder in the stage
directory, fetch and patch succeed (there is nothing to fetch) and `build_one`
never returns, whatever the number of rounds allowed to the placeholder loop: the
configure command is never run. -/
theorem build_one_steps_diverge :
    (prepare digestEnv loopRecipe loopConfig "/w".toList ⟨[], 0⟩).1 = none ∧
    ¬ ∃ fuel, (build_one fuel digestEnv loopRecipe loopConfig (UMap.empty {}) "/w".toList
        false true ⟨[], 0⟩).isSome = true := by
  refine ⟨by decide, ?_⟩
  rintro ⟨fuel, h⟩
  have hprep : prepare digestEnv loopRecipe loopConfig "/w".toList ⟨[], 0⟩
      = (none, ⟨[Event.system "rm -rf '/w/n-1' && mkdir -p '/w/n-1'".toList], 0⟩) := by decide
  have hsub : substitute fuel (joinp loopConfig.stage_dir (pkgid loopRecipe))
      (to_string loopConfig.jobs) "./configure --prefix=$\x7bSTAGE\x7d".toList = none := by
    unfold substitute
    rw [replaceLoop_diverges "$\x7bSTAGE\x7d".toList _ ⟨"/s/".toList, "/n-1".toList, by decide⟩
      fuel _ ⟨"./configure --prefix=".toList, [], by decide⟩]
  have hstep : ∀ w, runSteps fuel digestEnv (joinp "/w".toList (pkgid loopRecipe))
      (joinp loopConfig.stage_dir (pkgid loopRecipe)) (to_string loopConfig.jobs)
      loopRecipe w = none := by
    intro w
    have hc : loopRecipe.configure = ["./configure --prefix=$\x7bSTAGE\x7d".toList] := rfl
    simp only [runSteps, runStage, hc, run_step, hsub]
    rfl
  unfold build_one at h
  rw [hprep] at h
  dsimp only at h
  rw [hstep] at h
  cases h

/-! ### Registry round trip -/

set_option maxRecDepth 1000000 in
/-- C6 fails on the code: the registry text `legacyRegistry` parses to one entry
`a` with version `1` and every other field empty; after `save_installed` and a
second `load_installed` the fields `installed_at`, `manifest` and `source_hash` of
`a` hold one space instead of being empty. -/
theorem registry_roundtrip_empty_fields :
    (parse_installed legacyRegistry).keys = ["a".toList] ∧
    (parse_installed legacyRegistry).val "a".toList = { version := "1".toList } ∧
    (parse_installed
      (save_text ((parse_installed legacyRegistry).visit sampleEnv))).keys = ["a".toList] ∧
    (parse_installed
      (save_text ((parse_installed legacyRegistry).visit sampleEnv))).val "a".toList
      = { version := "1".toList, installed_at := " ".toList, manifest := " ".toList,
          source_hash := " ".toList } := by
  decide

/-! ### Lines, plans and recipes -/

theorem getLines_ne_nil (s : Str) (h : s ≠ []) : getLines s ≠ [] := by
  cases s with
  | nil => exact absurd rfl h
  | cons c s =>
    unfold getLines
    split
    · simp
    · split <;> simp

theorem getLines_line (line post : Str) (h : '\n' ∉ line) :
    getLines (line ++ '\n' :: post) = line :: getLines post := by
  induction line with
  | nil => simp [getLines]
  | cons c line ih =>
    have hc : c ≠ '\n' := fun e => h (e ▸ List.mem_cons_self _ _)
    have ht : '\n' ∉ line := fun e => h (List.mem_cons_of_mem _ e)
    rw [List.cons_append, getLines, if_neg hc, ih ht]

theorem getLines_append (pre rest : Str) (h : pre = [] ∨ pre.getLast? = some '\n') :
    getLines (pre ++ rest) = getLines pre ++ getLines rest := by
  induction pre with
  | nil => simp [getLines]
  | cons c pre ih =>
    have hlast : (c :: pre).getLast? = some '\n' := by
      rcases h with h | h
      · cases h
      · exact h
    cases pre with
    | nil =>
      have hc : c = '\n' := by simpa using hlast
      subst hc
      simp [getLines]
    | cons d pre =>
      have hl2 : (d :: pre).getLast? = some '\n' := by
        rw [List.getLast?_cons_cons] at hlast
        exact hlast
      have ih2 := ih (Or.inr hl2)
      rw [List.cons_append, getLines, getLines, ih2]
      by_cases hc : c = '\n'
      · rw [if_pos hc, if_pos hc]; rfl
      · rw [if_neg hc, if_neg hc]
        have hne := getLines_ne_nil (d :: pre) (by simp)
        cases hg : getLines (d :: pre) with
        | nil => exact absurd hg hne
        | cons l ls => rfl

theorem recipeLine_ignored (nd : Str) (r : Recipe) (line : Str)
    (hkey : ∀ k ∈ knownKeys, ¬ k <+: trim line) : recipeLine nd r line = r := by
  have h1 := hkey "name".toList (by decide)
  have h2 := hkey "version".toList (by decide)
  have h3 := hkey "git".toList (by decide)
  have h4 := hkey "sources".toList (by decide)
  have h5 := hkey "patches".toList (by decide)
  have h6 := hkey "sha256".toList (by decide)
  have h7 := hkey "depends".toList (by decide)
  have h8 := hkey "bin_only".toList (by decide)
  have h9 := hkey "configure".toList (by decide)
  have h10 := hkey "make".toList (by decide)
  have h11 := hkey "install".toList (by decide)
  have h12 := hkey "tests".toList (by decide)
  unfold recipeLine
  simp only [startsWith, h1, h2, h3, h4, h5, h6, h7, h8, h9, h10, h11, h12, decide_False,
    Bool.false_and, Bool.false_eq_true, if_false, ite_self]

/-- C10, as the code has it: a line whose trimmed text does not begin with one of
the names `name`, `version`, `git`, `sources`, `patches`, `sha256`, `depends`,
`bin_only`, `configure`, `make`, `install`, `tests` is ignored by
`load_recipe_toml`: adding it to a recipe text, as a line of its own, changes no
field of the parsed `Recipe`. -/
theorem parse_recipe_ignores_line (nd path pre line post : Str)
    (hpre : pre = [] ∨ pre.getLast? = some '\n') (hline : '\n' ∉ line)
    (hkey : ∀ k ∈ knownKeys, ¬ k <+: trim line) :
    parse_recipe nd path (pre ++ line ++ "\n".toList ++ post)
      = parse_recipe nd path (pre ++ post) := by
  have hlines : getLines (pre ++ line ++ "\n".toList ++ post)
      = getLines pre ++ line :: getLines post := by
    have e : pre ++ line ++ "\n".toList ++ post = pre ++ (line ++ '\n' :: post) := by simp
    rw [e, getLines_append pre _ hpre, getLines_line line post hline]
  have hne : pre ++ line ++ "\n".toList ++ post ≠ [] := by simp
  unfold parse_recipe
  rw [if_neg hne, hlines, List.foldl_append, List.foldl_cons,
    recipeLine_ignored nd _ line hkey, ← List.foldl_append, ← getLines_append pre post hpre]
  split
  · rename_i h
    rw [h]
    rfl
  · rfl

/-- C10, as the code has it, at the line `colour = "red"` added between two lines. -/
theorem parse_recipe_ignores_line_witness :
    parse_recipe [] [] ("name = \"a\"\n".toList ++ "colour = \"red\"".toList ++ "\n".toList
        ++ "version = \"1\"\n".toList)
      = parse_recipe [] [] ("name = \"a\"\n".toList ++ "version = \"1\"\n".toList) :=
  parse_recipe_ignores_line [] [] "name = \"a\"\n".toList "colour = \"red\"".toList
    "version = \"1\"\n".toList (Or.inr (by decide)) (by decide) (by decide)

/-- C10 as stated fails: the key `names` is none of the twelve names, yet the line
`names = "x"` added to the empty recipe text sets the field `name` to `x`, whatever
the needle of the `make` test. -/
theorem parse_recipe_unknown_key_counterexample :
    "names".toList ∉ knownKeys ∧
    ∀ nd : Str,
      (parse_recipe nd [] ([] ++ "names = \"x\"".toList ++ "\n".toList ++ [])).name = "x".toList ∧
      (parse_recipe nd [] ([] ++ [])).name = [] := by
  refine ⟨by decide, fun nd => ⟨?_, rfl⟩⟩
  rfl

theorem dropWhile_of_head (p : Char → Bool) (l : Str)
    (h : ∀ c, l.head? = some c → p c = false) : l.dropWhile p = l := by
  cases l with
  | nil => rfl
  | cons c l =>
    have := h c rfl
    simp [List.dropWhile, this]

theorem trim_eq_self (n : Str) (hh : ∀ c, n.head? = some c → isspace c = false)
    (hl : ∀ c, n.getLast? = some c → isspace c = false) : trim n = n := by
  unfold trim
  rw [dropWhile_of_head isspace n hh,
    dropWhile_of_head isspace n.reverse (by rw [List.head?_reverse]; exact hl),
    List.reverse_reverse]

theorem read_plan_foldl (ls acc : List Str) :
    ls.foldl (fun order l => if trim l = [] then order else order ++ [trim l]) acc
      = acc ++ (ls.map trim).filter (fun l => decide (l ≠ [])) := by
  induction ls generalizing acc with
  | nil => simp
  | cons l ls ih =>
    rw [List.foldl_cons, ih, List.map_cons, List.filter_cons]
    by_cases h : trim l = []
    · simp [h]
    · simp [h]

theorem getLines_plan_text (names : List Str) (h : ∀ n ∈ names, '\n' ∉ n) :
    getLines (plan_text names) = names := by
  induction names with
  | nil => rfl
  | cons n ns ih =>
    have e : plan_text (n :: ns) = n ++ '\n' :: plan_text ns := by
      simp [plan_text]
    rw [e, getLines_line n _ (h n (List.mem_cons_self _ _)),
      ih (fun m hm => h m (List.mem_cons_of_mem _ hm))]

/-- C9: reading a plan gives the trimmed non-empty lines of its text in order; and
for names that are non-empty, hold no newline and neither begin nor end with a
space character, reading the text written for a list of names gives that list. -/
theorem read_plan_roundtrip :
    (∀ s, read_plan s = ((getLines s).map trim).filter (fun l => decide (l ≠ []))) ∧
    (∀ names : List Str,
      (∀ n ∈ names, n ≠ [] ∧ '\n' ∉ n ∧ (∀ c, n.head? = some c → isspace c = false) ∧
        (∀ c, n.getLast? = some c → isspace c = false)) →
      read_plan (plan_text names) = names) := by
  have h1 : ∀ s, read_plan s = ((getLines s).map trim).filter (fun l => decide (l ≠ [])) := by
    intro s
    rw [read_plan, read_plan_foldl, List.nil_append]
  refine ⟨h1, ?_⟩
  intro names h
  rw [h1, getLines_plan_text names (fun n hn => (h n hn).2.1)]
  have hmap : names.map trim = names := by
    conv_rhs => rw [← List.map_id names]
    apply List.map_congr_left
    intro n hn
    exact trim_eq_self n (h n hn).2.2.1 (h n hn).2.2.2
  rw [hmap, List.filter_eq_self]
  intro n hn
  simpa using (h n hn).1

/-- C9, at the plan `glibc`, `gcc 13`. -/
theorem read_plan_roundtrip_witness :
    read_plan (plan_text ["glibc".toList, "gcc 13".toList]) = ["glibc".toList, "gcc 13".toList] :=
  read_plan_roundtrip.2 ["glibc".toList, "gcc 13".toList] (by decide)

/-! ### The plan command -/

theorem filter_sum_skip (f : Str → Nat) (ks s1 s2 : List Str)
    (h : ∀ x ∈ ks, (x ∈ s2 ↔ x ∈ s1)) :
    ((ks.filter (fun k => decide (k ∉ s2))).map f).sum
      = ((ks.filter (fun k => decide (k ∉ s1))).map f).sum := by
  congr 2
  apply List.filter_congr
  intro x hx
  simp only [h x hx]

theorem filter_sum_le (f : Str → Nat) (ks s1 s2 : List Str) (h : ∀ x, x ∈ s1 → x ∈ s2) :
    ((ks.filter (fun k => decide (k ∉ s2))).map f).sum
      ≤ ((ks.filter (fun k => decide (k ∉ s1))).map f).sum := by
  induction ks with
  | nil => simp
  | cons k ks ih =>
    rw [List.filter_cons, List.filter_cons]
    by_cases h2 : k ∈ s2
    · rw [if_neg (by simpa using h2)]
      by_cases h1 : k ∈ s1
      · rw [if_neg (by simpa using h1)]
        exact ih
      · rw [if_pos (by simpa using h1), List.map_cons, List.sum_cons]
        omega
    · have h1 : k ∉ s1 := fun e => h2 (h k e)
      rw [if_pos (by simpa using h2), if_pos (by simpa using h1), List.map_cons, List.map_cons,
        List.sum_cons, List.sum_cons]
      omega

theorem filter_sum_take (f : Str → Nat) (ks s1 s2 : List Str) (u : Str)
    (h : ∀ x, x ∈ s1 → x ∈ s2) (hu : u ∈ ks) (hs1 : u ∉ s1) (hs2 : u ∈ s2) :
    ((ks.filter (fun k => decide (k ∉ s2))).map f).sum + f u
      ≤ ((ks.filter (fun k => decide (k ∉ s1))).map f).sum := by
  induction ks with
  | nil => simp at hu
  | cons k ks ih =>
    rw [List.filter_cons, List.filter_cons]
    by_cases hku : k = u
    · subst hku
      have := filter_sum_le f ks s1 s2 h
      rw [if_neg (by simpa using hs2), if_pos (by simpa using hs1), List.map_cons, List.sum_cons]
      omega
    · have hu2 : u ∈ ks := by
        rcases List.mem_cons.1 hu with h | h
        · exact absurd h.symm hku
        · exact h
      have := ih hu2
      by_cases h2 : k ∈ s2
      · rw [if_neg (by simpa using h2)]
        by_cases h1 : k ∈ s1
        · rw [if_neg (by simpa using h1)]
          exact this
        · rw [if_pos (by simpa using h1), List.map_cons, List.sum_cons]
          omega
      · have h1 : k ∉ s1 := fun e => h2 (h k e)
        rw [if_pos (by simpa using h2), if_pos (by simpa using h1), List.map_cons, List.map_cons,
          List.sum_cons, List.sum_cons]
        omega

theorem collect_spec (env : Env) (nd : Str) (w : World) (recs : UMap Str)
    (targets : List Str) (deps0 : UMap (List Str)) (t : Str)
    (hname : ∀ k ∈ recs.keys, (load_recipe_toml env nd w (recs.val k)).name = k)
    (fuel : Nat) (q seen : List Str) (deps : UMap (List Str))
    (inv : CollectInv env nd w recs targets deps0 t q seen deps)
    (hfuel : collectMeasure env nd w recs q seen < fuel) :
    ∃ deps1 seen1, collect env nd w recs fuel q seen deps = some deps1 ∧
      CollectInv env nd w recs targets deps0 t [] seen1 deps1 := by
  induction fuel generalizing q seen deps with
  | zero => omega
  | succ fuel ih =>
    cases q with
    | nil => exact ⟨deps, seen, rfl, inv⟩
    | cons u q =>
      unfold collect
      by_cases hseen : u ∈ seen
      · rw [if_pos hseen]
        apply ih
        · refine ⟨inv.keys, inv.mono, inv.fresh, ?_, ?_, ?_⟩
          · intro x hx hxr
            refine ⟨(inv.closed x hx hxr).1, fun d hd => ?_⟩
            rcases (inv.closed x hx hxr).2 d hd with h | h
            · exact Or.inl h
            · rcases List.mem_cons.1 h with h | h
              · exact Or.inl (h ▸ hseen)
              · exact Or.inr h
          · exact fun x hx => inv.queue x (List.mem_cons_of_mem _ hx)
          · rcases inv.start with h | h
            · exact Or.inl h
            · rcases List.mem_cons.1 h with h | h
              · exact Or.inl (h ▸ hseen)
              · exact Or.inr h
        · simp only [collectMeasure, List.length_cons] at hfuel ⊢
          omega
      · rw [if_neg hseen]
        by_cases hrec : u ∈ recs.keys
        · have hcount : (!recs.count u) = false := by simp [UMap.count, hrec]
          rw [hcount]
          simp only [Bool.false_eq_true, if_false]
          rw [hname u hrec]
          apply ih
          · refine ⟨?_, ?_, ?_, ?_, ?_, ?_⟩
            · intro k hk
              simp only [UMap.set] at hk ⊢
              by_cases hku : k = u
              · subst hku
                exact ⟨hrec, by rw [Function.update_same],
                  inv.queue k (List.mem_cons_self _ _)⟩
              · rw [Function.update_noteq hku]
                rcases (UMap.mem_touch_keys _ _ _).1 hk with h | h
                · exact inv.keys k h
                · exact absurd h hku
            · intro k hk
              exact (UMap.mem_touch_keys _ _ _).2 (Or.inl (inv.mono k hk))
            · intro k hk
              rcases (UMap.mem_touch_keys _ _ _).1 hk with h | h
              · rcases inv.fresh k h with h1 | h1
                · exact Or.inl h1
                · exact Or.inr (List.mem_append_left _ h1)
              · exact Or.inr (by simp [h])
            · intro x hx hxr
              rcases List.mem_append.1 hx with h | h
              · refine ⟨(UMap.mem_touch_keys _ _ _).2 (Or.inl (inv.closed x h hxr).1),
                  fun d hd => ?_⟩
                rcases (inv.closed x h hxr).2 d hd with h1 | h1
                · exact Or.inl (List.mem_append_left _ h1)
                · rcases List.mem_cons.1 h1 with h2 | h2
                  · exact Or.inl (by simp [h2])
                  · exact Or.inr (List.mem_append_left _ h2)
              · have hxu : x = u := by simpa using h
                subst hxu
                exact ⟨(UMap.mem_touch_keys _ _ _).2 (Or.inr rfl),
                  fun d hd => Or.inr (List.mem_append_right _ hd)⟩
            · intro x hx
              rcases List.mem_append.1 hx with h | h
              · exact inv.queue x (List.mem_cons_of_mem _ h)
              · obtain ⟨t0, ht0, hreach⟩ := inv.queue u (List.mem_cons_self _ _)
                exact ⟨t0, ht0, Relation.ReflTransGen.tail hreach ⟨hrec, h⟩⟩
            · rcases inv.start with h | h
              · exact Or.inl (List.mem_append_left _ h)
              · rcases List.mem_cons.1 h with h | h
                · exact Or.inl (by simp [h])
                · exact Or.inr (List.mem_append_left _ h)
          · have := filter_sum_take
              (fun k => (load_recipe_toml env nd w (recs.val k)).depends.length)
              recs.keys seen (seen ++ [u]) u (fun x hx => List.mem_append_left _ hx) hrec hseen
              (by simp)
            beta_reduce at this
            simp only [collectMeasure, List.length_cons, List.length_append] at hfuel ⊢
            omega
        · have hcount : (!recs.count u) = true := by simp [UMap.count, hrec]
          rw [hcount]
          simp only [if_true]
          apply ih
          · refine ⟨inv.keys, inv.mono, ?_, ?_, ?_, ?_⟩
            · intro k hk
              rcases inv.fresh k hk with h1 | h1
              · exact Or.inl h1
              · exact Or.inr (List.mem_append_left _ h1)
            · intro x hx hxr
              rcases List.mem_append.1 hx with h | h
              · refine ⟨(inv.closed x h hxr).1, fun d hd => ?_⟩
                rcases (inv.closed x h hxr).2 d hd with h1 | h1
                · exact Or.inl (List.mem_append_left _ h1)
                · rcases List.mem_cons.1 h1 with h2 | h2
                  · exact Or.inl (by simp [h2])
                  · exact Or.inr h2
              · have hxu : x = u := by simpa using h
                exact absurd (hxu ▸ hxr) hrec
            · exact fun x hx => inv.queue x (List.mem_cons_of_mem _ hx)
            · rcases inv.start with h | h
              · exact Or.inl (List.mem_append_left _ h)
              · rcases List.mem_cons.1 h with h | h
                · exact Or.inl (by simp [h])
                · exact Or.inr h
          · have := filter_sum_skip
              (fun k => (load_recipe_toml env nd w (recs.val k)).depends.length)
              recs.keys seen (seen ++ [u])
              (fun x hx => by
                have : x ≠ u := fun e => hrec (e ▸ hx)
                simp [this])
            simp only [collectMeasure, List.length_cons] at hfuel ⊢
            omega

theorem collect_post (env : Env) (nd : Str) (w : World) (recs : UMap Str)
    (targets : List Str) (deps0 : UMap (List Str)) (t : Str) (ht : t ∈ recs.keys)
    (htt : t ∈ targets)
    (hname : ∀ k ∈ recs.keys, (load_recipe_toml env nd w (recs.val k)).name = k)
    (fuel : Nat) (h0 : PlanInv env nd w recs targets deps0)
    (hfuel : collectMeasure env nd w recs [t] [] < fuel) :
    ∃ deps1, collect env nd w recs fuel [t] [] deps0 = some deps1 ∧
      PlanInv env nd w recs targets deps1 ∧ (∀ k ∈ deps0.keys, k ∈ deps1.keys) ∧
      t ∈ deps1.keys := by
  have inv0 : CollectInv env nd w recs targets deps0 t [t] [] deps0 := by
    refine ⟨h0.keys, fun k hk => hk, fun k hk => Or.inl hk, ?_, ?_, Or.inr (by simp)⟩
    · intro u hu
      simp at hu
    · intro u hu
      have : u = t := by simpa using hu
      subst this
      exact ⟨u, htt, Relation.ReflTransGen.refl⟩
  obtain ⟨deps1, seen1, hc, inv⟩ :=
    collect_spec env nd w recs targets deps0 t hname fuel [t] [] deps0 inv0 hfuel
  have hts : t ∈ seen1 := by
    rcases inv.start with h | h
    · exact h
    · simp at h
  refine ⟨deps1, hc, ⟨inv.keys, ?_⟩, inv.mono, (inv.closed t hts ht).1⟩
  intro k hk d hd hdr
  rcases inv.fresh k hk with h | h
  · exact inv.mono d (h0.closed k h d hd hdr)
  · rcases (inv.closed k h (inv.keys k hk).1).2 d hd with h1 | h1
    · exact (inv.closed d h1 hdr).1
    · simp at h1

theorem mem_visit {V : Type} (env : Env) (horder : ∀ l, (env.hashOrder l).Perm l)
    (m : UMap V) (k : Str) (v : V) : (k, v) ∈ m.visit env ↔ k ∈ m.keys ∧ v = m.val k := by
  unfold UMap.visit
  simp only [List.mem_map, Prod.mk.injEq]
  constructor
  · rintro ⟨a, ha, rfl, rfl⟩
    exact ⟨(horder _).mem_iff.1 ha, rfl⟩
  · rintro ⟨hk, rfl⟩
    exact ⟨k, (horder _).mem_iff.2 hk, rfl, rfl⟩

theorem transGen_irrefl_of_rank (R : Str → Str → Prop) (r : Str → Nat)
    (h : ∀ d p, R d p → r d < r p) (n : Str) : ¬ Relation.TransGen R n n := by
  have key : ∀ a b, Relation.TransGen R a b → r a < r b := by
    intro a b hab
    induction hab with
    | single h1 => exact h _ _ h1
    | tail _ h2 ih => exact lt_trans ih (h _ _ h2)
  intro hn
  exact lt_irrefl _ (key n n hn)

/-- The plan the `plan` command writes is that of its first target: when the first
target `t` has a recipe and the packages reached from `t` through `depends` have no
cycle, the command ends with code 0 after writing a plan, whatever targets follow
`t`; the plan holds `t` and the packages reached from `t`, and no other name, no name
occurs twice, and every package of the plan comes after each of its dependencies. -/
theorem cmd_plan_first_target (env : Env) (nd : Str) (cfg : Config) (t : Str) (ts : List Str)
    (w : World) (horder : ∀ l, (env.hashOrder l).Perm l)
    (hrec : t ∈ (find_recipes env nd w cfg.recipes_dir).keys)
    (hac : ∀ n, Reachable env nd w (find_recipes env nd w cfg.recipes_dir) [t] n →
      ¬ Relation.TransGen (StoreEdge env nd w (find_recipes env nd w cfg.recipes_dir)) n n) :
    ∃ fuel0, ∀ fuel, fuel0 ≤ fuel → ∃ order,
      cmd_plan fuel env nd cfg (t :: ts) w
        = some (Exit.code 0,
            dump (joinp cfg.state_dir "pending.plan".toList) (plan_text order) w) ∧
      order.Nodup ∧
      (∀ x, x ∈ order ↔ Reachable env nd w (find_recipes env nd w cfg.recipes_dir) [t] x) ∧
      (∀ d p, p ∈ order →
        StoreEdge env nd w (find_recipes env nd w cfg.recipes_dir) d p →
        OccursBefore order d p) := by
  have hname := fun k hk => find_recipes_name env nd w cfg.recipes_dir k hk
  refine ⟨((find_recipes env nd w cfg.recipes_dir).keys.map
    (fun k => (load_recipe_toml env nd w
      ((find_recipes env nd w cfg.recipes_dir).val k)).depends.length)).sum + 2, ?_⟩
  intro fuel hfuel
  have hm : collectMeasure env nd w (find_recipes env nd w cfg.recipes_dir) [t] [] < fuel := by
    simp only [collectMeasure, List.length_singleton, List.not_mem_nil, not_false_eq_true,
      decide_True, List.filter_true]
    omega
  obtain ⟨deps, hplan, pinv, _, htk⟩ := collect_post env nd w
    (find_recipes env nd w cfg.recipes_dir) [t] (UMap.empty []) t hrec (by simp) hname fuel
    ⟨by simp [UMap.empty], by simp [UMap.empty]⟩ hm
  have hedge : ∀ d p, DepEdge (deps.visit env) d p ↔
      p ∈ deps.keys ∧ d ∈ (load_recipe_toml env nd w
        ((find_recipes env nd w cfg.recipes_dir).val p)).depends := by
    intro d p
    constructor
    · rintro ⟨ds, h1, h2⟩
      obtain ⟨hk, rfl⟩ := (mem_visit env horder deps p ds).1 h1
      exact ⟨hk, (pinv.keys p hk).2.1 ▸ h2⟩
    · rintro ⟨hk, hd⟩
      exact ⟨deps.val p, (mem_visit env horder deps p _).2 ⟨hk, rfl⟩,
        (pinv.keys p hk).2.1 ▸ hd⟩
  have hacyc : Acyclic (deps.visit env) := by
    intro n hn
    obtain ⟨b, _, hbn⟩ := Relation.TransGen.tail'_iff.1 hn
    have hnk : n ∈ deps.keys := ((hedge b n).1 hbn).1
    refine hac n (pinv.keys n hnk).2.2 (Relation.TransGen.mono ?_ hn)
    intro d p hdp
    exact ⟨(pinv.keys p ((hedge d p).1 hdp).1).1, ((hedge d p).1 hdp).2⟩
  have hB := buildGraph_spec (deps.visit env)
  obtain ⟨order, htopo, hnd, hnodes, hbefore⟩ := topo_sort_of_acyclic (deps.visit env)
    (env.hashOrder (buildGraph (deps.visit env)).1.keys)
    ((horder _).nodup_iff.2 hB.2.2.2)
    (fun n => ((horder _).mem_iff).trans (hB.2.2.1 n)) hacyc
  have hkey_node : ∀ k, k ∈ deps.keys → k ∈ order := by
    intro k hk
    exact (hnodes k).2 (Or.inl ⟨deps.val k, (mem_visit env horder deps k _).2 ⟨hk, rfl⟩⟩)
  have hreach : ∀ x, Reachable env nd w (find_recipes env nd w cfg.recipes_dir) [t] x →
      x ∈ deps.keys ∨ ∃ k ∈ deps.keys, x ∈ (load_recipe_toml env nd w
        ((find_recipes env nd w cfg.recipes_dir).val k)).depends := by
    rintro x ⟨t1, ht1, hr⟩
    have e1 : t1 = t := by simpa using ht1
    subst e1
    induction hr with
    | refl => exact Or.inl htk
    | @tail b c _ hbc ih =>
      have hb : b ∈ deps.keys := by
        rcases ih with h | ⟨k, hk, hbk⟩
        · exact h
        · exact pinv.closed k hk b hbk hbc.1
      exact Or.inr ⟨b, hb, hbc.2⟩
  refine ⟨order, ?_, hnd, ?_, ?_⟩
  · have hcount : (!(find_recipes env nd w cfg.recipes_dir).count t) = false := by
      simp [UMap.count, hrec]
    simp only [cmd_plan, planRound, hcount, Bool.false_eq_true, if_false, hplan, htopo]
  · intro x
    constructor
    · intro hx
      rcases (hnodes x).1 hx with ⟨ds, h⟩ | ⟨k, ds, h, hxd⟩
      · exact (pinv.keys x ((mem_visit env horder deps x ds).1 h).1).2.2
      · obtain ⟨hk, rfl⟩ := (mem_visit env horder deps k ds).1 h
        obtain ⟨t1, ht1, hr⟩ := (pinv.keys k hk).2.2
        exact ⟨t1, ht1, Relation.ReflTransGen.tail hr
          ⟨(pinv.keys k hk).1, (pinv.keys k hk).2.1 ▸ hxd⟩⟩
    · intro hx
      rcases hreach x hx with h | ⟨k, hk, hxk⟩
      · exact hkey_node x h
      · exact (hnodes x).2 (Or.inr ⟨k, deps.val k,
          (mem_visit env horder deps k _).2 ⟨hk, rfl⟩, (pinv.keys k hk).2.1 ▸ hxk⟩)
  · intro d p hp hdp
    have hpk : p ∈ deps.keys := by
      rcases (hnodes p).1 hp with ⟨ds, h⟩ | ⟨k, ds, h, hpd⟩
      · exact ((mem_visit env horder deps p ds).1 h).1
      · obtain ⟨hk, rfl⟩ := (mem_visit env horder deps k ds).1 h
        exact pinv.closed k hk p ((pinv.keys k hk).2.1 ▸ hpd) hdp.1
    exact hbefore d p ((hedge d p).2 ⟨hpk, hdp.2⟩)

theorem sampleEnv_rank (d p : Str)
    (h : StoreEdge sampleEnv [] ⟨[], 0⟩
      (find_recipes sampleEnv [] ⟨[], 0⟩ ({} : Config).recipes_dir) d p) :
    (if d = "b".toList then 1 else 0) < (if p = "b".toList then 1 else 0) := by
  obtain ⟨hp, hd⟩ := h
  have hk : (find_recipes sampleEnv [] ⟨[], 0⟩ ({} : Config).recipes_dir).keys
      = ["a".toList, "b".toList] := by decide
  rw [hk] at hp
  simp only [List.mem_cons, List.mem_singleton, List.not_mem_nil, or_false] at hp
  rcases hp with rfl | rfl
  · have : (load_recipe_toml sampleEnv [] ⟨[], 0⟩
        ((find_recipes sampleEnv [] ⟨[], 0⟩ ({} : Config).recipes_dir).val "a".toList)).depends
        = [] := by decide
    rw [this] at hd
    simp at hd
  · have : (load_recipe_toml sampleEnv [] ⟨[], 0⟩
        ((find_recipes sampleEnv [] ⟨[], 0⟩ ({} : Config).recipes_dir).val "b".toList)).depends
        = ["a".toList] := by decide
    rw [this] at hd
    simp only [List.mem_singleton] at hd
    subst hd
    decide

set_option maxRecDepth 1000000 in
/-- The plan of the first target, at scenario S5's store with the one target `b`,
which depends on `a`. -/
theorem cmd_plan_first_target_witness :
    ∃ fuel0, ∀ fuel, fuel0 ≤ fuel → ∃ order,
      cmd_plan fuel sampleEnv [] {} ["b".toList] ⟨[], 0⟩
        = some (Exit.code 0,
            dump (joinp ({} : Config).state_dir "pending.plan".toList) (plan_text order)
              ⟨[], 0⟩) ∧
      order.Nodup ∧
      (∀ x, x ∈ order ↔ Reachable sampleEnv [] ⟨[], 0⟩
        (find_recipes sampleEnv [] ⟨[], 0⟩ ({} : Config).recipes_dir) ["b".toList] x) ∧
      (∀ d p, p ∈ order →
        StoreEdge sampleEnv [] ⟨[], 0⟩
          (find_recipes sampleEnv [] ⟨[], 0⟩ ({} : Config).recipes_dir) d p →
        OccursBefore order d p) :=
  cmd_plan_first_target sampleEnv [] {} "b".toList [] ⟨[], 0⟩ (fun l => List.Perm.refl l)
    (by decide)
    (fun n _ => transGen_irrefl_of_rank _ (fun s => if s = "b".toList then 1 else 0)
      sampleEnv_rank n)

theorem sampleEnv_reach_a (x : Str)
    (h : Reachable sampleEnv [] ⟨[], 0⟩
      (find_recipes sampleEnv [] ⟨[], 0⟩ ({} : Config).recipes_dir) ["a".toList] x) :
    x = "a".toList := by
  obtain ⟨t, ht, hr⟩ := h
  have e : t = "a".toList := by simpa using ht
  subst e
  induction hr with
  | refl => rfl
  | @tail b c _ hbc ih =>
    subst ih
    have : (load_recipe_toml sampleEnv [] ⟨[], 0⟩
        ((find_recipes sampleEnv [] ⟨[], 0⟩ ({} : Config).recipes_dir).val "a".toList)).depends
        = [] := by decide
    have hd := hbc.2
    rw [this] at hd
    simp at hd

set_option maxRecDepth 1000000 in
/-- C7 fails on the code: in scenario S5's store, where `a` and `b` have recipes, `b`
depends on `a` and nothing depends on `b`, the `plan` command with the targets `a`,
`b` ends with code 0 after writing the plan `a`: the target `b` is not in the plan.
The first round of the loop over the targets sorts and writes the closure of `a` and
returns; this is so for every number of rounds allowed to the closure loop from some
number on. -/
theorem cmd_plan_first_target_only :
    (∀ t ∈ ["a".toList, "b".toList],
      t ∈ (find_recipes sampleEnv [] ⟨[], 0⟩ ({} : Config).recipes_dir).keys) ∧
    cmd_plan 10 sampleEnv [] {} ["a".toList, "b".toList] ⟨[], 0⟩
      = some (Exit.code 0,
          ⟨[Event.write "/var/lib/lfsd/pending.plan".toList "a\n".toList], 0⟩) ∧
    read_plan "a\n".toList = ["a".toList] ∧
    ∃ fuel0, ∀ fuel, fuel0 ≤ fuel → ∃ order,
      cmd_plan fuel sampleEnv [] {} ["a".toList, "b".toList] ⟨[], 0⟩
        = some (Exit.code 0,
            dump (joinp ({} : Config).state_dir "pending.plan".toList) (plan_text order)
              ⟨[], 0⟩) ∧
      "b".toList ∉ order := by
  refine ⟨by decide, by decide, by decide, ?_⟩
  obtain ⟨fuel0, h⟩ := cmd_plan_first_target sampleEnv [] {} "a".toList ["b".toList] ⟨[], 0⟩
    (fun l => List.Perm.refl l) (by decide)
    (fun n _ => transGen_irrefl_of_rank _ (fun s => if s = "b".toList then 1 else 0)
      sampleEnv_rank n)
  refine ⟨fuel0, fun fuel hf => ?_⟩
  obtain ⟨order, h1, _, h3, _⟩ := h fuel hf
  refine ⟨order, h1, fun hb => ?_⟩
  have := sampleEnv_reach_a _ ((h3 _).1 hb)
  revert this
  decide

/-! ### Staged builder: the placeholders -/

theorem not_infix_of_find_none (needle s : Str) (h : find needle s = none) :
    ¬ needle <:+: s := by
  intro hi
  have := find_isSome_of_infix needle s hi
  rw [h] at this
  cases this

theorem replaceLoop_find_none (needle repl : Str) (fuel : Nat) (s s1 : Str)
    (h : replaceLoop needle repl fuel s = some s1) : find needle s1 = none := by
  induction fuel generalizing s with
  | zero => cases h
  | succ fuel ih =>
    unfold replaceLoop at h
    cases hf : find needle s with
    | none =>
      rw [hf] at h
      cases h
      exact hf
    | some pos =>
      rw [hf] at h
      exact ih _ h

theorem replaceLoop_keeps (P : Str → Prop) (needle repl : Str)
    (hstep : ∀ s pos, find needle s = some pos → P s →
      P (s.take pos ++ repl ++ s.drop (pos + needle.length)))
    (fuel : Nat) (s s1 : Str) (hP : P s) (h : replaceLoop needle repl fuel s = some s1) :
    P s1 := by
  induction fuel generalizing s with
  | zero => cases h
  | succ fuel ih =>
    unfold replaceLoop at h
    cases hf : find needle s with
    | none =>
      rw [hf] at h
      cases h
      exact hP
    | some pos =>
      rw [hf] at h
      exact ih _ (hstep s pos hf hP) h

theorem infix_split_at (X : Str) (c : Char) (hc : c ∉ X) (l1 l2 : Str)
    (h : X <:+: l1 ++ c :: l2) : X <:+: l1 ∨ X <:+: l2 := by
  induction l1 with
  | nil =>
    rw [List.nil_append, List.infix_cons_iff] at h
    rcases h with h | h
    · rcases List.prefix_cons_iff.1 h with e | ⟨t, e, _⟩
      · subst e
        exact Or.inl List.nil_infix
      · subst e
        exact absurd (List.mem_cons_self _ _) hc
    · exact Or.inr h
  | cons d l1 ih =>
    rw [List.cons_append, List.infix_cons_iff] at h
    rcases h with h | h
    · left
      obtain ⟨q, hq⟩ := h
      rcases List.append_eq_append_iff.1 (hq.trans (List.cons_append d l1 (c :: l2)).symm) with
        ⟨a, ha, _⟩ | ⟨a, ha, hb⟩
      · exact ⟨[], a, by simpa using ha.symm⟩
      · cases a with
        | nil =>
          rw [List.append_nil] at ha
          exact ⟨[], [], by simp [ha]⟩
        | cons x a =>
          rw [List.cons_append, List.cons.injEq] at hb
          have : c ∈ X := by
            rw [ha, ← hb.1]
            simp
          exact absurd this hc
    · rcases ih h with h1 | h2
      · exact Or.inl (h1.trans (List.infix_cons (List.infix_refl _)))
      · exact Or.inr h2

theorem infix_skip (X m b : Str) (hm : ∀ c ∈ m, c ∉ X) (h : X <:+: m ++ b) : X <:+: b := by
  induction m with
  | nil => exact h
  | cons d m ih =>
    rcases infix_split_at X d (hm d (List.mem_cons_self _ _)) [] (m ++ b) h with h1 | h2
    · have : X = [] := List.eq_nil_of_infix_nil h1
      subst this
      exact List.nil_infix
    · exact ih (fun c hc => hm c (List.mem_cons_of_mem _ hc)) h2

theorem infix_insert (X a m b : Str) (hne : m ≠ []) (hm : ∀ c ∈ m, c ∉ X)
    (h : X <:+: a ++ m ++ b) : X <:+: a ∨ X <:+: b := by
  cases m with
  | nil => exact absurd rfl hne
  | cons d m =>
    rw [List.append_assoc, List.cons_append] at h
    rcases infix_split_at X d (hm d (List.mem_cons_self _ _)) a (m ++ b) h with h1 | h2
    · exact Or.inl h1
    · exact Or.inr (infix_skip X m b (fun c hc => hm c (List.mem_cons_of_mem _ hc)) h2)

theorem decimal_digits (fuel n : Nat) : ∀ c ∈ decimal fuel n, c.isDigit = true := by
  have digit : ∀ d, d < 10 → (Char.ofNat (48 + d)).isDigit = true := by
    intro d hd
    interval_cases d <;> decide
  induction fuel generalizing n with
  | zero => simp [decimal]
  | succ fuel ih =>
    unfold decimal
    split
    · rename_i h
      intro c hc
      rw [List.mem_singleton] at hc
      rw [hc]
      exact digit n h
    · intro c hc
      rw [List.mem_append, List.mem_singleton] at hc
      rcases hc with hc | hc
      · exact ih _ c hc
      · rw [hc]
        exact digit _ (Nat.mod_lt _ (by decide))

theorem decimal_ne_nil (fuel n : Nat) : decimal (fuel + 1) n ≠ [] := by
  unfold decimal
  split <;> simp

theorem to_string_ne_nil (n : Int) : to_string n ≠ [] := by
  unfold to_string
  split
  · simp
  · exact decimal_ne_nil _ _

theorem to_string_chars (n : Int) : ∀ c ∈ to_string n, c = '-' ∨ c.isDigit = true := by
  unfold to_string
  split
  · intro c hc
    rw [List.mem_cons] at hc
    rcases hc with hc | hc
    · exact Or.inl hc
    · exact Or.inr (decimal_digits _ _ c hc)
  · intro c hc
    exact Or.inr (decimal_digits _ _ c hc)

theorem to_string_not_mem_stage (n : Int) :
    ∀ c ∈ to_string n, c ∉ "$\x7bSTAGE\x7d".toList := by
  intro c hc hmem
  have key : ∀ x ∈ "$\x7bSTAGE\x7d".toList, x ≠ '-' ∧ x.isDigit = false := by decide
  rcases to_string_chars n c hc with h | h
  · exact (key c hmem).1 h
  · rw [(key c hmem).2] at h
    cases h

theorem stepLine_infix (X work s : Str) (hp : ∀ c ∈ "cd '".toList, c ∉ X)
    (hq : ∀ c ∈ "' && ".toList, c ∉ X)
    (h : X <:+: "cd '".toList ++ work ++ "' && ".toList ++ s) :
    X <:+: work ∨ X <:+: s := by
  rcases infix_insert X ("cd '".toList ++ work) "' && ".toList s (by decide) hq h with h1 | h2
  · exact Or.inl (infix_skip X "cd '".toList work hp h1)
  · exact Or.inr h2

/-- C13: for every command template `t`, every jobs count and every stage path
without the character `$`, the two replacement loops of `run_step` end, each within
any number of rounds above the length of `t`, and the text `s` they produce holds
neither the placeholder `STAGE` nor the placeholder `JOBS`.  The command line passed
to the shell is `cd 'work' && s`; it holds neither placeholder when the path of the
work tree has no `$` either (in every call of the program the work tree is the
staged prefix). -/
theorem substitute_no_placeholder (t stage : Str) (jobs : Int) (hs : '$' ∉ stage)
    (fuel : Nat) (hfuel : t.length < fuel) :
    ∃ s, substitute fuel stage (to_string jobs) t = some s ∧
      ¬ "$\x7bSTAGE\x7d".toList <:+: s ∧ ¬ "$\x7bJOBS\x7d".toList <:+: s ∧
      ∀ work : Str, '$' ∉ work →
        stepLine fuel work stage (to_string jobs) t
            = "cd '".toList ++ work ++ "' && ".toList ++ s ∧
          ¬ "$\x7bSTAGE\x7d".toList <:+: stepLine fuel work stage (to_string jobs) t ∧
          ¬ "$\x7bJOBS\x7d".toList <:+: stepLine fuel work stage (to_string jobs) t := by
  have hc : t.count '$' < fuel := lt_of_le_of_lt (List.count_le_length _ _) hfuel
  obtain ⟨s1, h1, c1⟩ := replaceLoop_terminates "$\x7bSTAGE\x7d".toList stage '$' (by decide)
    hs fuel t hc
  obtain ⟨s2, h2, _⟩ := replaceLoop_terminates "$\x7bJOBS\x7d".toList (to_string jobs) '$'
    (by decide) (to_string_no_dollar jobs) fuel s1 (by omega)
  have n1 : ¬ "$\x7bSTAGE\x7d".toList <:+: s1 :=
    not_infix_of_find_none _ _ (replaceLoop_find_none _ _ _ _ _ h1)
  have nJ : ¬ "$\x7bJOBS\x7d".toList <:+: s2 :=
    not_infix_of_find_none _ _ (replaceLoop_find_none _ _ _ _ _ h2)
  have nS : ¬ "$\x7bSTAGE\x7d".toList <:+: s2 := by
    refine replaceLoop_keeps (fun s => ¬ "$\x7bSTAGE\x7d".toList <:+: s) "$\x7bJOBS\x7d".toList
      (to_string jobs) ?_ fuel s1 s2 n1 h2
    intro s pos hf hP hi
    rcases infix_insert _ _ _ _ (to_string_ne_nil jobs) (to_string_not_mem_stage jobs) hi
      with ha | hb
    · exact hP (ha.trans (List.IsPrefix.isInfix ( List.take_prefix _ _)))
    · exact hP (hb.trans (List.IsSuffix.isInfix (List.drop_suffix _ _)))
  have hsub : substitute fuel stage (to_string jobs) t = some s2 := by
    simp only [substitute, h1, h2]
  refine ⟨s2, hsub, nS, nJ, ?_⟩
  intro work hw
  have hline : stepLine fuel work stage (to_string jobs) t
      = "cd '".toList ++ work ++ "' && ".toList ++ s2 := by
    simp only [stepLine, hsub, Option.getD_some]
  have hwork : ∀ X : Str, '$' ∈ X → ¬ X <:+: work :=
    fun X hX hi => hw (hi.subset hX)
  rw [hline]
  refine ⟨rfl, ?_, ?_⟩
  · intro hi
    rcases stepLine_infix _ work s2 (by decide) (by decide) hi with h | h
    · exact hwork _ (by decide) h
    · exact nS h
  · intro hi
    rcases stepLine_infix _ work s2 (by decide) (by decide) hi with h | h
    · exact hwork _ (by decide) h
    · exact nJ h

/-- C13 at the template `make -j$\x7bJOBS\x7d DESTDIR=$\x7bSTAGE\x7d install`, four jobs and
the staged prefix `/var/stage/lfsd/p-1`. -/
theorem substitute_no_placeholder_witness :
    '$' ∉ "/var/stage/lfsd/p-1".toList ∧
    "make -j$\x7bJOBS\x7d DESTDIR=$\x7bSTAGE\x7d install".toList.length < 40 ∧
    ∃ s, substitute 40 "/var/stage/lfsd/p-1".toList (to_string 4)
        "make -j$\x7bJOBS\x7d DESTDIR=$\x7bSTAGE\x7d install".toList = some s ∧
      ¬ "$\x7bSTAGE\x7d".toList <:+: s ∧ ¬ "$\x7bJOBS\x7d".toList <:+: s ∧
      ∀ work : Str, '$' ∉ work →
        stepLine 40 work "/var/stage/lfsd/p-1".toList (to_string 4)
            "make -j$\x7bJOBS\x7d DESTDIR=$\x7bSTAGE\x7d install".toList
            = "cd '".toList ++ work ++ "' && ".toList ++ s ∧
          ¬ "$\x7bSTAGE\x7d".toList <:+: stepLine 40 work "/var/stage/lfsd/p-1".toList
            (to_string 4) "make -j$\x7bJOBS\x7d DESTDIR=$\x7bSTAGE\x7d install".toList ∧
          ¬ "$\x7bJOBS\x7d".toList <:+: stepLine 40 work "/var/stage/lfsd/p-1".toList
            (to_string 4) "make -j$\x7bJOBS\x7d DESTDIR=$\x7bSTAGE\x7d install".toList :=
  ⟨by decide, by decide,
    substitute_no_placeholder _ "/var/stage/lfsd/p-1".toList 4 (by decide) 40 (by decide)⟩

/-- The text the substitution produces at that template. -/
theorem substitute_sample :
    substitute 40 "/var/stage/lfsd/p-1".toList (to_string 4)
        "make -j$\x7bJOBS\x7d DESTDIR=$\x7bSTAGE\x7d install".toList
      = some "make -j4 DESTDIR=/var/stage/lfsd/p-1 install".toList := by
  decide

/-! ### Staged builder: the staged prefix -/

theorem fetchSources_code (env : Env) (r : Recipe) (c : Config) (work : Str)
    (us : List Str) (w : World) (rc : Int)
    (h : (fetchSources env r c work us w).1 = some rc) : rc = 2 ∨ rc = 3 := by
  induction us generalizing w with
  | nil => simp [fetchSources] at h
  | cons u us ih =>
    unfold fetchSources at h
    dsimp only at h
    split at h
    · left
      simpa using h.symm
    · split at h
      · split at h
        · right
          simpa using h.symm
        · exact ih _ h
      · exact ih _ h

theorem prepare_code (env : Env) (r : Recipe) (c : Config) (work_root : Str) (w : World)
    (rc : Int) (h : (prepare env r c work_root w).1 = some rc) :
    rc = 1 ∨ rc = 2 ∨ rc = 3 ∨ rc = 4 := by
  unfold prepare at h
  dsimp only at h
  split at h
  · rename_i rc0 w2 heq
    simp only [Option.some.injEq] at h
    subst h
    split at heq
    · split at heq
      · left
        simp only [Prod.mk.injEq, Option.some.injEq] at heq
        exact heq.1.symm
      · simp at heq
    · split at heq
      · rcases fetchSources_code env r c _ r.sources _ rc0 (by rw [heq]) with h | h
        · exact Or.inr (Or.inl h)
        · exact Or.inr (Or.inr (Or.inl h))
      · simp at heq
  · split at h
    · exact Or.inr (Or.inr (Or.inr (fetchPatches_code _ _ _ _ rc h)))
    · simp at h

set_option maxRecDepth 1000000 in
/-- The staged prefix is fresh in the calls of the program: in `staleEnv`, where a
file left by an earlier build lies under the staged prefix until the prefix is
removed, `build_one` called with the stage directory as work root runs the reset
first, then the steps, and registers no file. -/
theorem build_one_fresh_sample :
    ("/var/stage/lfsd/p-1/pkgroot/usr/bin/old".toList, true)
      ∈ staleEnv.walk [] (joinp ({} : Config).stage_dir (pkgid sampleBuild)) ∧
    ∃ installed1 w1,
      build_one 40 staleEnv sampleBuild { jobs := 4 } (UMap.empty {}) "/var/stage/lfsd".toList
        false true ⟨[], 0⟩ = some (0, installed1, w1) ∧
      w1.trace.take 5
        = [Event.system (resetCmd "/var/stage/lfsd/p-1".toList),
           Event.system "mkdir -p '/var/stage/lfsd/p-1'".toList,
           Event.system
             "cd '/var/stage/lfsd/p-1' && ./configure --prefix=/var/stage/lfsd/p-1".toList,
           Event.system "cd '/var/stage/lfsd/p-1' && make -j4".toList,
           Event.system "cd '/var/stage/lfsd/p-1' && make install".toList] ∧
      (installed1.val "p".toList).files = [] ∧
      Event.write "/var/lib/lfsd/manifests/p-1.manifest".toList [] ∈ w1.trace := by
  refine ⟨by decide, _, _, rfl, ?_, ?_, ?_⟩
  · decide
  · decide
  · decide

set_option maxRecDepth 1000000 in
/-- Why the work root matters: the reset of `build_one` is that of its work tree.
With the work root `/w`, which no call of the program passes, the commands before the
first step are the reset of `/w/p-1` and `mkdir -p` on the staged prefix, and a file
lying under the staged prefix before the build is in the registered file list. -/
theorem build_one_other_work_root :
    ("/var/stage/lfsd/p-1/pkgroot/usr/bin/old".toList, true)
      ∈ staleEnv.walk [] (joinp ({} : Config).stage_dir (pkgid sampleBuild)) ∧
    ∃ installed1 w1,
      build_one 40 staleEnv sampleBuild { jobs := 4 } (UMap.empty {}) "/w".toList
        false true ⟨[], 0⟩ = some (0, installed1, w1) ∧
      w1.trace.take 3
        = [Event.system (resetCmd "/w/p-1".toList),
           Event.system "mkdir -p '/var/stage/lfsd/p-1'".toList,
           Event.system "cd '/w/p-1' && ./configure --prefix=/var/stage/lfsd/p-1".toList] ∧
      (installed1.val "p".toList).files = ["/var/stage/lfsd/p-1/pkgroot/usr/bin/old".toList] := by
  refine ⟨by decide, _, _, rfl, ?_, ?_⟩
  · decide
  · decide

/-! ### Upgrade -/

theorem lastWrite_append (p : Str) (t evs : List Event)
    (h : ∀ content, Event.write p content ∉ evs) : lastWrite p (t ++ evs) = lastWrite p t := by
  induction evs using List.reverseRecOn with
  | nil => simp
  | append_singleton evs e ih =>
    have ih1 := ih (fun content hm => h content (List.mem_append_left _ hm))
    have he : ∀ content, e ≠ Event.write p content :=
      fun content heq => h content (by simp [heq])
    rw [← List.append_assoc]
    unfold lastWrite at ih1 ⊢
    rw [List.foldl_append, ih1]
    cases e with
    | system cmd => rfl
    | popen cmd => rfl
    | write q content =>
      have : q ≠ p := fun hq => he content (by rw [hq])
      simp [this]

theorem lastWrite_quiet (p : Str) (w w1 : World) (h : Quiet w w1) :
    lastWrite p w1.trace = lastWrite p w.trace := by
  obtain ⟨evs, he, hn⟩ := h
  rw [he]
  exact lastWrite_append p _ evs (fun content => hn p content)

theorem finish_lastWrite (env : Env) (r : Recipe) (c : Config) (installed : UMap InstalledInfo)
    (do_strip do_pack : Bool) (w : World) :
    lastWrite (installed_db_path c) (finish env r c installed do_strip do_pack w).2.trace
      = some (save_text ((finish env r c installed do_strip do_pack w).1.visit env)) := by
  unfold finish save_installed
  simp [lastWrite, dump, run, List.foldl_append]

theorem finish_registers (env : Env) (r : Recipe) (c : Config) (installed : UMap InstalledInfo)
    (do_strip do_pack : Bool) (w : World) :
    (finish env r c installed do_strip do_pack w).1
        = installed.set r.name ((finish env r c installed do_strip do_pack w).1.val r.name) ∧
      ((finish env r c installed do_strip do_pack w).1.val r.name).version = r.version := by
  unfold finish
  simp [UMap.set]

theorem build_one_success (fuel : Nat) (env : Env) (r : Recipe) (c : Config)
    (installed : UMap InstalledInfo) (work_root : Str) (do_strip do_pack : Bool) (w : World)
    (installed1 : UMap InstalledInfo) (w1 : World)
    (h : build_one fuel env r c installed work_root do_strip do_pack w
      = some (0, installed1, w1)) :
    ∃ w2, installed1 = (finish env r c installed do_strip do_pack w2).1 ∧
      w1 = (finish env r c installed do_strip do_pack w2).2 := by
  unfold build_one at h
  split at h
  · rename_i rc0 w0 h0
    simp only [Option.some.injEq, Prod.mk.injEq] at h
    have := prepare_code env r c work_root w rc0 (by rw [h0])
    omega
  · simp only [] at h
    split at h
    · cases h
    · rename_i rc2 w2 h2
      simp only [Option.some.injEq, Prod.mk.injEq] at h
      have := (runSteps_spec _ _ _ _ _ _ _ _ h2).2 rc2 rfl
      omega
    · rename_i w2 h2
      simp only [Option.some.injEq, Prod.mk.injEq, true_and] at h
      exact ⟨w2, h.1.symm, h.2.symm⟩

theorem upgradeAll_last (fuel : Nat) (env : Env) (makeNeedle : Str) (c : Config)
    (recs : UMap Str) (db : UMap InstalledInfo) (ns : List Str) (n : Str) (w : World)
    (codes : List Int) (w1 : World)
    (h : upgradeAll fuel env makeNeedle c recs db (ns ++ [n]) w = some (codes, w1))
    (hlast : codes.getLast? = some 0) :
    ∃ w0 installed1,
      build_one fuel env (load_recipe_toml env makeNeedle w0 (recs.val n)) c db c.stage_dir
        false true w0 = some (0, installed1, w1) := by
  induction ns generalizing w codes with
  | nil =>
    simp only [List.nil_append, upgradeAll] at h
    split at h
    · cases h
    · rename_i res hres
      simp only [Option.some.injEq, Prod.mk.injEq] at h
      obtain ⟨h1, h2⟩ := h
      subst h1 h2
      simp only [List.getLast?_singleton, Option.some.injEq] at hlast
      refine ⟨w, res.2.1, ?_⟩
      rw [hres, ← hlast]
  | cons m ns ih =>
    simp only [List.cons_append, upgradeAll] at h
    split at h
    · cases h
    · rename_i res hres
      split at h
      · cases h
      · rename_i rest hrest
        simp only [Option.some.injEq, Prod.mk.injEq] at h
        obtain ⟨h1, h2⟩ := h
        subst h1 h2
        have hne : rest.1 ≠ [] := by
          intro he
          cases ns with
          | nil =>
            simp only [List.nil_append, upgradeAll] at hrest
            split at hrest
            · cases hrest
            · simp only [Option.some.injEq] at hrest
              rw [← hrest] at he
              cases he
          | cons k ns =>
            simp only [List.cons_append, upgradeAll] at hrest
            split at hrest
            · cases hrest
            · split at hrest
              · cases hrest
              · simp only [Option.some.injEq] at hrest
                rw [← hrest] at he
                cases he
        obtain ⟨rc1, wr⟩ := rest
        cases rc1 with
        | nil => exact absurd rfl hne
        | cons k ks =>
          rw [List.getLast?_cons_cons] at hlast
          exact ih res.2.2 (k :: ks) hrest hlast

theorem quiet_applyEntries (env : Env) (es : List (Str × Bool)) (rc : Int) (w : World) :
    Quiet w (applyEntries env es rc w).2 := by
  induction es generalizing rc w with
  | nil => exact quiet_refl w
  | cons p ps ih =>
    unfold applyEntries
    split
    · exact ih _ _
    · split
      · exact ih _ _
      · exact quiet_trans (quiet_run env _ w) (ih _ _)

theorem quiet_apply_stage (env : Env) (c : Config) (w : World) :
    Quiet w (apply_stage env c w).2 := by
  unfold apply_stage
  dsimp only
  split
  · exact quiet_trans (quiet_ensure_dir env _ w) (quiet_run env _ _)
  · exact quiet_trans (quiet_trans (quiet_ensure_dir env _ w) (quiet_run env _ _))
      (quiet_applyEntries env _ _ _)

/-- What `cmd_upgrade` leaves in the registry file, for every environment: when
the list `to_upgrade` ends in `n` and the last call of `build_one` returns 0, the text
last written to the registry file is that of the map loaded at the start of
`cmd_upgrade` with one entry assigned, the one of the recipe of `n`.  Every other
entry, also that of a package upgraded before `n`, is written as it was loaded. -/
theorem cmd_upgrade_last_save (fuel : Nat) (env : Env) (makeNeedle : Str) (c : Config)
    (w : World) (ns : List Str) (n : Str) (codes : List Int) (wb : World) (rc : Int)
    (w1 : World)
    (hto : toUpgrade env makeNeedle w (find_recipes env makeNeedle w c.recipes_dir)
      (load_installed env c w) = ns ++ [n])
    (hall : upgradeAll fuel env makeNeedle c (find_recipes env makeNeedle w c.recipes_dir)
      (load_installed env c w) (ns ++ [n]) w = some (codes, wb))
    (hlast : codes.getLast? = some 0)
    (h : cmd_upgrade fuel env makeNeedle c w = some (rc, w1)) :
    ∃ w0 info,
      info.version = (load_recipe_toml env makeNeedle w0
        ((find_recipes env makeNeedle w c.recipes_dir).val n)).version ∧
      lastWrite (installed_db_path c) w1.trace
        = some (save_text (((load_installed env c w).set
            (load_recipe_toml env makeNeedle w0
              ((find_recipes env makeNeedle w c.recipes_dir).val n)).name info).visit env)) := by
  obtain ⟨w0, installed1, hb⟩ := upgradeAll_last fuel env makeNeedle c _ _ ns n w codes wb
    hall hlast
  obtain ⟨w2, hi, hw⟩ := build_one_success _ _ _ _ _ _ _ _ _ _ _ hb
  have hreg := finish_registers env (load_recipe_toml env makeNeedle w0
    ((find_recipes env makeNeedle w c.recipes_dir).val n)) c (load_installed env c w)
    false true w2
  have hlw := finish_lastWrite env (load_recipe_toml env makeNeedle w0
    ((find_recipes env makeNeedle w c.recipes_dir).val n)) c (load_installed env c w)
    false true w2
  have hw1 : w1 = (apply_stage env c wb).2 := by
    unfold cmd_upgrade at h
    dsimp only at h
    rw [hto, if_neg (by simp), ← hto, hto, hall] at h
    simp only [Option.some.injEq, Prod.mk.injEq] at h
    exact h.2.symm
  refine ⟨w0, installed1.val (load_recipe_toml env makeNeedle w0
    ((find_recipes env makeNeedle w c.recipes_dir).val n)).name, ?_, ?_⟩
  · rw [hi]
    exact hreg.2
  · rw [hw1, lastWrite_quiet _ _ _ (quiet_apply_stage env c wb), hw, hlw, ← hi]
    congr 3
    rw [hi]
    exact hreg.1

set_option maxRecDepth 1000000 in
/-- What `cmd_upgrade` leaves in the registry file, at the upgrade of `a` and `b`:
the last text written is that of the loaded registry with the entry of `b` assigned. -/
theorem cmd_upgrade_last_save_witness :
    ∃ w1, cmd_upgrade 1 upgradeEnv [] {} ⟨[], 0⟩ = some (0, w1) ∧
      ∃ w0 info,
        info.version = (load_recipe_toml upgradeEnv [] w0
          ((find_recipes upgradeEnv [] ⟨[], 0⟩ ({} : Config).recipes_dir).val "b".toList)).version ∧
        lastWrite (installed_db_path {}) w1.trace
          = some (save_text (((load_installed upgradeEnv {} ⟨[], 0⟩).set
              (load_recipe_toml upgradeEnv [] w0
                ((find_recipes upgradeEnv [] ⟨[], 0⟩ ({} : Config).recipes_dir).val
                  "b".toList)).name info).visit upgradeEnv)) :=
  ⟨_, rfl, cmd_upgrade_last_save 1 upgradeEnv [] {} ⟨[], 0⟩ ["a".toList] "b".toList [0, 0] _ 0 _
    (by decide) rfl rfl rfl⟩

set_option maxRecDepth 1000000 in
/-- C12 fails on the code: with `a` and `b` installed in version 1 and both recipes
in version 2, `cmd_upgrade` selects `a` and `b`, both calls of `build_one` return 0
and `cmd_upgrade` returns 0, yet the registry file as last written holds `a` in
version 1 and only `b` in version 2: the second build saved a fresh copy of the
registry loaded at the start, which dropped the registration of the first build. -/
theorem cmd_upgrade_overwrites_registration :
    toUpgrade upgradeEnv [] ⟨[], 0⟩
        (find_recipes upgradeEnv [] ⟨[], 0⟩ ({} : Config).recipes_dir)
        (load_installed upgradeEnv {} ⟨[], 0⟩) = ["a".toList, "b".toList] ∧
    (load_recipe_toml upgradeEnv [] ⟨[], 0⟩
      ((find_recipes upgradeEnv [] ⟨[], 0⟩ ({} : Config).recipes_dir).val "a".toList)).version
      = "2".toList ∧
    ((load_installed upgradeEnv {} ⟨[], 0⟩).val "a".toList).version = "1".toList ∧
    (upgradeAll 1 upgradeEnv [] {} (find_recipes upgradeEnv [] ⟨[], 0⟩ ({} : Config).recipes_dir)
        (load_installed upgradeEnv {} ⟨[], 0⟩) ["a".toList, "b".toList] ⟨[], 0⟩).map Prod.fst
      = some [0, 0] ∧
    ∃ w1 text, cmd_upgrade 1 upgradeEnv [] {} ⟨[], 0⟩ = some (0, w1) ∧
      lastWrite (installed_db_path {}) w1.trace = some text ∧
      (parse_installed text).keys = ["a".toList, "b".toList] ∧
      ((parse_installed text).val "a".toList).version = "1".toList ∧
      ((parse_installed text).val "b".toList).version = "2".toList := by
  refine ⟨by decide, by decide, by decide, by decide, _, _, rfl, rfl, ?_, ?_, ?_⟩
  · decide
  · decide
  · decide

end Lfsd
